import Mathlib

/-!
Shallow embedding of the `FqeData` sector-wavefunction class
(`src/fqe/fqe_data.py`) and proofs about the claims of its specification.

A determinant of one fermion species is an occupation bitstring over
`norb` orbitals, represented as a natural number `s < 2 ^ norb` whose bit
`i` says whether orbital `i` is occupied.  The determinant index graph
(class `FciGraph`, an external collaborator that is not part of the
source under scrutiny) assigns every such bitstring a dense index; since
that bijection is fixed and claim-irrelevant, coefficient matrices are
represented here as functions of the two bitstrings directly, and the
configuration list of a species with `k` electrons is the finite set
`dets norb k`.

Scalars: the code works with `numpy.complex128` entries.  The embedding
is stated over an arbitrary field with a star operation and decidable
equality so that concrete witnesses can be evaluated; every claim's
theorem instantiates or quantifies over such a field, which in
particular covers the exact complex numbers.
-/

set_option linter.unusedSectionVars false
set_option linter.unusedVariables false

namespace Fqe

/-- Number of occupied orbitals (set bits) among the low `n` bits of `s`.
This is the popcount of a determinant bitstring of an `n`-orbital
species. -/
def occCount (n s : ℕ) : ℕ := ((Finset.range n).filter (fun i => s.testBit i)).card

/-- The determinant configuration set of a species with `k` electrons in
`n` orbitals: all bitstrings below `2 ^ n` with exactly `k` set bits.
Modelled from the spec: the Index Graph's dense index is the position of
the bitstring in this (lexicographically ordered) set; the embedding
works with the bitstrings themselves. -/
def dets (n k : ℕ) : Finset ℕ := (Finset.range (2 ^ n)).filter (fun s => occCount n s = k)

/-- Count of set bits of `s` strictly above position `i` (among the low
`n` bits).  Modelled from the spec: the bit-level collaborator
`count_bits_above` used for fermionic parity. -/
def cba (n s i : ℕ) : ℕ := ((Finset.range n).filter (fun j => i < j ∧ s.testBit j)).card

theorem occCount_eq_sum (n s : ℕ) :
    occCount n s = ∑ i ∈ Finset.range n, if s.testBit i then 1 else 0 := by
  rw [occCount, Finset.card_filter]

theorem mem_dets {n k s : ℕ} : s ∈ dets n k ↔ s < 2 ^ n ∧ occCount n s = k := by
  rw [dets, Finset.mem_filter, Finset.mem_range]

theorem testBit_toggle (s j i : ℕ) :
    (s ^^^ 2 ^ j).testBit i = if i = j then !(s.testBit j) else s.testBit i := by
  rw [Nat.testBit_xor]
  by_cases h : i = j
  · subst h; simp [Nat.testBit_two_pow_self, Bool.xor_comm]
  · simp [h, Nat.testBit_two_pow_of_ne (Ne.symm h)]

theorem toggle_lt {s j n : ℕ} (hs : s < 2 ^ n) (hj : j < n) : s ^^^ 2 ^ j < 2 ^ n :=
  Nat.xor_lt_two_pow hs (Nat.pow_lt_pow_right one_lt_two hj)

/-- Toggling a set bit decrements the popcount. -/
theorem occCount_toggle_true {n s j : ℕ} (hj : j < n) (h : s.testBit j = true) :
    occCount n s = occCount n (s ^^^ 2 ^ j) + 1 := by
  rw [occCount_eq_sum, occCount_eq_sum]
  rw [← Finset.add_sum_erase _ _ (Finset.mem_range.2 hj),
    ← Finset.add_sum_erase _ (fun i => if (s ^^^ 2 ^ j).testBit i then 1 else 0)
      (Finset.mem_range.2 hj)]
  have hterm : ∀ i ∈ (Finset.range n).erase j,
      (if (s ^^^ 2 ^ j).testBit i then (1 : ℕ) else 0) = if s.testBit i then 1 else 0 := by
    intro i hi
    rw [testBit_toggle, if_neg (Finset.mem_erase.1 hi).1]
  rw [Finset.sum_congr rfl hterm, testBit_toggle, if_pos rfl, h]
  simp [add_comm]

/-- Toggling an unset bit increments the popcount. -/
theorem occCount_toggle_false {n s j : ℕ} (hj : j < n) (h : s.testBit j = false) :
    occCount n (s ^^^ 2 ^ j) = occCount n s + 1 := by
  have hbit : (s ^^^ 2 ^ j).testBit j = true := by
    rw [testBit_toggle, if_pos rfl, h]; rfl
  have := occCount_toggle_true hj hbit
  rwa [Nat.xor_assoc, Nat.xor_self, Nat.xor_zero] at this

/-- Toggling a bit at a position at most `j` does not change the count of
set bits strictly above `j`. -/
theorem cba_toggle {n s i j : ℕ} (h : i ≤ j) : cba n (s ^^^ 2 ^ i) j = cba n s j := by
  unfold cba
  apply Finset.card_bij (fun a _ => a)
  · intro a ha
    rw [Finset.mem_filter] at ha ⊢
    refine ⟨ha.1, ha.2.1, ?_⟩
    have := ha.2.2
    rwa [testBit_toggle, if_neg (by omega)] at this
  · intro a _ b _ hab; exact hab
  · intro b hb
    rw [Finset.mem_filter] at hb
    refine ⟨b, ?_, rfl⟩
    rw [Finset.mem_filter, testBit_toggle, if_neg (by omega)]
    exact ⟨hb.1, hb.2.1, hb.2.2⟩

/-! ### Single excitation maps

Modelled from the spec: the Index Graph's excitation map for the ordered
orbital pair `(i, j)` of one species lists, for every determinant on
which the single-excitation operator (create in orbital `i` after
annihilating from orbital `j`) acts without vanishing, the triple
(source, target, sign).  The action and the fermionic parity follow the
bit-level procedure that the source itself uses in
`FqeData.apply_individual_nbody`: the annihilated orbital contributes
`count_bits_above` of the current string, the string is updated, and the
created orbital contributes `count_bits_above` of the updated string. -/

/-- The excitation operator for pair `(i, j)` acts on determinant `s`:
orbital `j` is occupied and orbital `i` is free (or `i = j`). -/
def excOk (i j s : ℕ) : Prop := s.testBit j = true ∧ (i = j ∨ s.testBit i = false)

instance (i j s : ℕ) : Decidable (excOk i j s) := by unfold excOk; infer_instance

/-- Target determinant of the excitation: clear bit `j`, set bit `i`. -/
def excTgt (i j s : ℕ) : ℕ := s ^^^ (2 ^ i ^^^ 2 ^ j)

/-- Fermionic parity of the excitation: bits above the annihilated
orbital in the original string plus bits above the created orbital in
the intermediate string. -/
def excPar (n i j s : ℕ) : ℕ := cba n s j + cba n (s ^^^ 2 ^ j) i

theorem excTgt_self (i s : ℕ) : excTgt i i s = s := by
  rw [excTgt, Nat.xor_self, Nat.xor_zero]

theorem excTgt_rev (i j s : ℕ) : excTgt j i (excTgt i j s) = s := by
  rw [excTgt, excTgt, Nat.xor_comm (2 ^ j), Nat.xor_assoc, Nat.xor_self, Nat.xor_zero]

theorem excTgt_eq_double_toggle (i j s : ℕ) : excTgt i j s = (s ^^^ 2 ^ j) ^^^ 2 ^ i := by
  rw [excTgt, Nat.xor_comm (2 ^ i), Nat.xor_assoc]

theorem excTgt_lt {i j s n : ℕ} (hi : i < n) (hj : j < n) (hs : s < 2 ^ n) :
    excTgt i j s < 2 ^ n := by
  rw [excTgt_eq_double_toggle]
  exact toggle_lt (toggle_lt hs hj) hi

theorem excOk_rev {i j s : ℕ} (h : excOk i j s) : excOk j i (excTgt i j s) := by
  rcases h with ⟨hj, hi⟩
  rcases hi with hi | hi
  · subst hi; rw [excTgt_self]; exact ⟨hj, Or.inl rfl⟩
  · have hne : i ≠ j := by
      intro h'; rw [h', hj] at hi; exact Bool.true_eq_false.mp hi
    constructor
    · rw [excTgt_eq_double_toggle, testBit_toggle, if_pos rfl, testBit_toggle,
        if_neg hne, hi]
      rfl
    · right
      rw [excTgt_eq_double_toggle, testBit_toggle, if_neg (Ne.symm hne),
        testBit_toggle, if_pos rfl, hj]
      rfl

theorem occCount_excTgt {n i j s : ℕ} (hi : i < n) (hj : j < n) (h : excOk i j s) :
    occCount n (excTgt i j s) = occCount n s := by
  rcases h with ⟨hjbit, hcase⟩
  rcases hcase with hcase | hcase
  · subst hcase; rw [excTgt_self]
  · have hne : i ≠ j := by
      intro h'; rw [h', hjbit] at hcase; exact Bool.true_eq_false.mp hcase
    have hmid : (s ^^^ 2 ^ j).testBit i = false := by
      rw [testBit_toggle, if_neg hne]; exact hcase
    rw [excTgt_eq_double_toggle, occCount_toggle_false hi hmid,
      ← occCount_toggle_true hj hjbit]

theorem excTgt_mem_dets {n k i j s : ℕ} (hi : i < n) (hj : j < n)
    (hs : s ∈ dets n k) (h : excOk i j s) : excTgt i j s ∈ dets n k := by
  rw [mem_dets] at hs ⊢
  exact ⟨excTgt_lt hi hj hs.1, by rw [occCount_excTgt hi hj h, hs.2]⟩

/-- The parity of an excitation equals the parity of the reverse
excitation at the target: both count the bits of the common intermediate
string above each of the two orbitals. -/
theorem excPar_rev (n i j s : ℕ) : excPar n j i (excTgt i j s) = excPar n i j s := by
  by_cases hij : i = j
  · subst hij; rw [excTgt_self]
  · have h1 : excTgt i j s ^^^ 2 ^ i = s ^^^ 2 ^ j := by
      rw [excTgt_eq_double_toggle, Nat.xor_assoc, Nat.xor_self, Nat.xor_zero]
    rw [excPar, excPar, h1, excTgt_eq_double_toggle, cba_toggle (le_refl i),
      cba_toggle (le_refl j)]
    exact Nat.add_comm _ _

variable {K : Type} [Field K] [StarRing K]

/-- The sign attached to a map entry, `(-1) ** parity`. -/
def excSign (n i j s : ℕ) : K := (-1 : K) ^ excPar n i j s

theorem star_excSign (n i j s : ℕ) : star (excSign n i j s : K) = excSign n i j s := by
  rw [excSign, star_pow, star_neg, star_one]

theorem excSign_mul_self (n i j s : ℕ) : (excSign n i j s : K) * excSign n i j s = 1 := by
  rw [excSign, ← pow_add, ← two_mul, pow_mul, neg_one_sq, one_pow]

theorem excSign_diag (n i s : ℕ) : (excSign n i i s : K) = 1 := by
  rw [excSign, excPar, cba_toggle (le_refl i), ← two_mul, pow_mul, neg_one_sq, one_pow]

theorem excSign_rev (n i j s : ℕ) :
    (excSign n j i (excTgt i j s) : K) = excSign n i j s := by
  rw [excSign, excSign, excPar_rev]

/-- Action of the excitation map for pair `(i, j)` of one species on a
species vector: every map entry `(source, target, sign)` scatters
`sign * v source` onto the target.  This is the single-species content
of the C kernels `_make_dvec` / `_lm_apply_array1` (modelled from the
spec, which specifies the scatter-accumulate through the excitation
map). -/
def exc1 (n k i j : ℕ) (v : ℕ → K) : ℕ → K := fun t =>
  ∑ s ∈ dets n k, if excOk i j s ∧ excTgt i j s = t then excSign n i j s * v s else 0

/-- Summing the diagonal excitation maps over all orbitals multiplies a
determinant's coefficient by the number of its electrons: the embedded
form of the second-quantized number operator. -/
theorem exc1_diag_sum (n k : ℕ) (v : ℕ → K) {t : ℕ} (ht : t ∈ dets n k) :
    ∑ i ∈ Finset.range n, exc1 n k i i v t = (k : K) * v t := by
  have hstep : ∀ i, exc1 n k i i v t = (if t.testBit i then (1 : K) else 0) * v t := by
    intro i
    rw [exc1]
    rw [Finset.sum_eq_single t]
    · by_cases hocc : t.testBit i = true
      · rw [if_pos ⟨⟨hocc, Or.inl rfl⟩, excTgt_self i t⟩, excSign_diag, hocc, if_pos rfl]
      · rw [if_neg, if_neg (by simpa using hocc)]
        · simp
        · intro hcon
          exact hocc hcon.1.1
    · intro s _ hst
      by_cases hc : excOk i i s ∧ excTgt i i s = t
      · exfalso; apply hst; rw [← hc.2, excTgt_self]
      · rw [if_neg hc]
    · intro hcon; exact absurd ht hcon
  rw [Finset.sum_congr rfl (fun i _ => hstep i), ← Finset.sum_mul]
  congr 1
  have : ∀ i : ℕ, (if t.testBit i then (1 : K) else 0) = ((if t.testBit i then 1 else 0 : ℕ) : K) := by
    intro i
    by_cases h : t.testBit i <;> simp [h]
  rw [Finset.sum_congr rfl (fun i _ => this i), ← Nat.cast_sum, ← occCount_eq_sum,
    (mem_dets.1 ht).2]

/-- The excitation map for `(j, i)` is the transpose of the map for
`(i, j)`: entries reverse with identical sign.  Stated as adjointness of
`exc1` with respect to the conjugated pairing over the configuration
set. -/
theorem exc1_adjoint (n k i j : ℕ) (v w : ℕ → K) (hi : i < n) (hj : j < n) :
    ∑ t ∈ dets n k, star (exc1 n k i j v t) * w t
      = ∑ s ∈ dets n k, star (v s) * exc1 n k j i w s := by
  have lhs_eq : ∀ t ∈ dets n k, star (exc1 n k i j v t) * w t
      = ∑ s ∈ dets n k,
          if excOk i j s ∧ excTgt i j s = t then excSign n i j s * star (v s) * w t else 0 := by
    intro t _
    rw [exc1, star_sum, Finset.sum_mul]
    refine Finset.sum_congr rfl fun s _ => ?_
    by_cases hc : excOk i j s ∧ excTgt i j s = t
    · rw [if_pos hc, if_pos hc, star_mul', star_excSign, mul_assoc]
    · rw [if_neg hc, if_neg hc, star_zero, zero_mul]
  rw [Finset.sum_congr rfl lhs_eq, Finset.sum_comm]
  refine Finset.sum_congr rfl fun s hs => ?_
  have inner_lhs : ∑ t ∈ dets n k,
      (if excOk i j s ∧ excTgt i j s = t then excSign n i j s * star (v s) * w t else 0)
      = if excOk i j s then excSign n i j s * star (v s) * w (excTgt i j s) else 0 := by
    by_cases hok : excOk i j s
    · rw [Finset.sum_eq_single (excTgt i j s)]
      · rw [if_pos ⟨hok, rfl⟩, if_pos hok]
      · intro t _ hne
        rw [if_neg]
        intro hcon
        exact hne hcon.2.symm
      · intro hcon
        exact absurd (excTgt_mem_dets hi hj hs hok) hcon
    · rw [if_neg hok]
      apply Finset.sum_eq_zero
      intro t _
      rw [if_neg]
      intro hcon
      exact hok hcon.1
  rw [inner_lhs, exc1, Finset.mul_sum]
  by_cases hok : excOk i j s
  · have hcond : excOk j i (excTgt i j s) ∧ excTgt j i (excTgt i j s) = s :=
      ⟨excOk_rev hok, excTgt_rev i j s⟩
    rw [if_pos hok, Finset.sum_eq_single (excTgt i j s)]
    · rw [if_pos hcond, excSign_rev]
      ring
    · intro u _ hne
      rw [if_neg, mul_zero]
      intro hcon
      apply hne
      have := hcon.2
      have h2 : excTgt i j (excTgt j i u) = excTgt i j s := by rw [this]
      rwa [excTgt_rev] at h2
    · intro hcon
      exact absurd (excTgt_mem_dets hi hj hs hok) hcon
  · rw [if_neg hok]
    symm
    apply Finset.sum_eq_zero
    intro u _
    rw [if_neg, mul_zero]
    intro hcon
    have : excOk i j (excTgt j i u) := excOk_rev hcon.1
    rw [hcon.2] at this
    exact hok this

/-! ### D-vectors and 1-body application

A sector coefficient array is a function of the two determinant
bitstrings (species A indexes the first argument).  `dveca`/`dvecb` are
the two species' scatter contributions to a D-vector slice; the full
slice `D_ij` is their sum, as built by
`FqeData._calculate_dvec_spatial_with_coeff` (which accumulates the
alpha maps and then the beta maps into the same array through the
`_make_dvec` kernel). -/

/-- Alpha contribution to the D-vector slice for pair `(i, j)`: the
excitation map acts on the row (species A) index. -/
def dveca (n na : ℕ) (c : ℕ → ℕ → K) (i j : ℕ) : ℕ → ℕ → K :=
  fun t q => exc1 n na i j (fun s => c s q) t

/-- Beta contribution to the D-vector slice for pair `(i, j)`: the
excitation map acts on the column (species B) index. -/
def dvecb (n nb : ℕ) (c : ℕ → ℕ → K) (i j : ℕ) : ℕ → ℕ → K :=
  fun p t => exc1 n nb i j (fun s => c p s) t

/-- Slice `(i, j)` of the spatial D-vector of a coefficient array, as in
`FqeData.calculate_dvec_spatial`: both species' excitation maps
accumulate into the same slice. -/
def calculate_dvec_spatial (n na nb : ℕ) (c : ℕ → ℕ → K) (i j : ℕ) : ℕ → ℕ → K :=
  fun p q => dveca n na c i j p q + dvecb n nb c i j p q

theorem dveca_diag_sum (n na nb : ℕ) (c : ℕ → ℕ → K) {p q : ℕ}
    (hp : p ∈ dets n na) :
    ∑ i ∈ Finset.range n, dveca n na c i i p q = (na : K) * c p q := by
  simpa [dveca] using exc1_diag_sum n na (fun s => c s q) hp

theorem dvecb_diag_sum (n na nb : ℕ) (c : ℕ → ℕ → K) {p q : ℕ}
    (hq : q ∈ dets n nb) :
    ∑ i ∈ Finset.range n, dvecb n nb c i i p q = (nb : K) * c p q := by
  simpa [dvecb] using exc1_diag_sum n nb (fun s => c p s) hq

/-- Sum of the diagonal D-vector slices: the number operator of the
sector. -/
theorem dvec_diag_sum (n na nb : ℕ) (c : ℕ → ℕ → K) {p q : ℕ}
    (hp : p ∈ dets n na) (hq : q ∈ dets n nb) :
    ∑ i ∈ Finset.range n, calculate_dvec_spatial n na nb c i i p q
      = ((na + nb : ℕ) : K) * c p q := by
  rw [show (fun i => calculate_dvec_spatial n na nb c i i p q)
      = fun i => dveca n na c i i p q + dvecb n nb c i i p q from rfl]
  rw [Finset.sum_add_distrib, dveca_diag_sum n na nb c hp, dvecb_diag_sum n na nb c hq]
  push_cast
  ring

/-- Spatial 1-body operator application, `FqeData._apply_array_spatial1`.
Both branches of the source call the dense path, which computes
(modelled from the spec for the external `_lm_apply_array1` kernel,
matching the reference implementation kept in the source comments)
the contraction of the 1-body tensor with the full D-vector. -/
def apply_array_spatial1 (n na nb : ℕ) (h1e : ℕ → ℕ → K) (c : ℕ → ℕ → K) : ℕ → ℕ → K :=
  fun p q => ∑ i ∈ Finset.range n, ∑ j ∈ Finset.range n,
    h1e i j * calculate_dvec_spatial n na nb c i j p q

section SpinOne

variable [DecidableEq K]

/-- Number of columns of the `m`-by-`m` matrix `h` that contain a
nonzero entry (the quantity the source's `ncol` loop compares against
1; `numpy.any` truth-tests the column). -/
def ncols (m : ℕ) (h : ℕ → ℕ → K) : ℕ :=
  ((Finset.range m).filter (fun j => ∃ i ∈ Finset.range m, h i j ≠ 0)).card

/-- The column the source's loop leaves in `jorb`: the unique nonzero
column when there is exactly one, and `0` when there is none (when
there are two or more, the dense branch is taken and the value is
unused; the greatest nonzero column is recorded, which agrees with the
loop for the cases in which `jorb` is read). -/
def jorbOf (m : ℕ) (h : ℕ → ℕ → K) : ℕ :=
  (((Finset.range m).filter (fun j => ∃ i ∈ Finset.range m, h i j ≠ 0)).max).unbot' 0

/-- Spin-orbital 1-body operator application,
`FqeData._apply_array_spin1`: with more than one populated column the
dense path contracts the two diagonal spin blocks of the operator with
the two species' D-vectors; otherwise the fixed-column path contracts
the populated column with the fixed-`j` D-vector of the corresponding
species (`FqeData._calculate_dvec_spin_with_coeff_fixed_j`). -/
def apply_array_spin1 (n na nb : ℕ) (h1e : ℕ → ℕ → K) (c : ℕ → ℕ → K) : ℕ → ℕ → K :=
  if 1 < ncols (2 * n) h1e then
    fun p q => ∑ i ∈ Finset.range n, ∑ j ∈ Finset.range n,
      (h1e i j * dveca n na c i j p q + h1e (n + i) (n + j) * dvecb n nb c i j p q)
  else
    fun p q =>
      if jorbOf (2 * n) h1e < n then
        ∑ i ∈ Finset.range n, h1e i (jorbOf (2 * n) h1e) *
          dveca n na c i (jorbOf (2 * n) h1e) p q
      else
        ∑ i ∈ Finset.range n, h1e (n + i) (jorbOf (2 * n) h1e) *
          dvecb n nb c i (jorbOf (2 * n) h1e - n) p q

end SpinOne

/-- Applying the scaled identity as a spatial 1-body operator scales the
coefficients by `s` times the total particle number of the sector. -/
theorem apply_array_spatial1_smul_id (n na nb : ℕ) (s : K) (c : ℕ → ℕ → K) {p q : ℕ}
    (hp : p ∈ dets n na) (hq : q ∈ dets n nb) :
    apply_array_spatial1 n na nb (fun i j => if i = j then s else 0) c p q
      = s * ((na + nb : ℕ) : K) * c p q := by
  rw [apply_array_spatial1]
  have hrow : ∀ i ∈ Finset.range n,
      (∑ j ∈ Finset.range n,
        (if i = j then s else 0) * calculate_dvec_spatial n na nb c i j p q)
      = s * calculate_dvec_spatial n na nb c i i p q := by
    intro i hi
    simp only [ite_mul, zero_mul]
    rw [Finset.sum_ite_eq, if_pos hi]
  rw [Finset.sum_congr rfl hrow, ← Finset.mul_sum, dvec_diag_sum n na nb c hp hq, mul_assoc]

section SpinOneId

variable [DecidableEq K]

/-- Applying the scaled identity as a spin-orbital 1-body operator also
scales the coefficients by `s` times the total particle number. -/
theorem apply_array_spin1_smul_id (n na nb : ℕ) (s : K) (c : ℕ → ℕ → K) {p q : ℕ}
    (hp : p ∈ dets n na) (hq : q ∈ dets n nb) :
    apply_array_spin1 n na nb (fun i j => if i = j then s else 0) c p q
      = s * ((na + nb : ℕ) : K) * c p q := by
  by_cases hs : s = 0
  · subst hs
    have hfun : (fun (i j : ℕ) => if i = j then (0 : K) else 0) = fun _ _ => (0 : K) := by
      funext i j
      simp
    rw [hfun]
    simp [apply_array_spin1, ncols, jorbOf]
  · by_cases hn : n = 0
    · subst hn
      have hna : na = 0 := by
        have h2 := (mem_dets.1 hp).2
        simpa [occCount] using h2.symm
      have hnb : nb = 0 := by
        have h2 := (mem_dets.1 hq).2
        simpa [occCount] using h2.symm
      subst hna; subst hnb
      simp [apply_array_spin1, ncols, jorbOf]
    · have h2n : 1 < 2 * n := by omega
      have hncols : 1 < ncols (2 * n) (fun i j => if i = j then s else (0 : K)) := by
        rw [ncols, Finset.one_lt_card]
        refine ⟨0, ?_, 1, ?_, by omega⟩
        · rw [Finset.mem_filter]
          exact ⟨Finset.mem_range.2 (by omega), 0, Finset.mem_range.2 (by omega),
            by simp [hs]⟩
        · rw [Finset.mem_filter]
          exact ⟨Finset.mem_range.2 (by omega), 1, Finset.mem_range.2 (by omega),
            by simp [hs]⟩
      rw [apply_array_spin1, if_pos hncols]
      have hterm : ∀ i ∈ Finset.range n,
          (∑ j ∈ Finset.range n,
            ((if i = j then s else 0) * dveca n na c i j p q
              + (if n + i = n + j then s else 0) * dvecb n nb c i j p q))
          = s * dveca n na c i i p q + s * dvecb n nb c i i p q := by
        intro i hi
        rw [Finset.sum_add_distrib]
        congr 1
        · simp only [ite_mul, zero_mul]
          rw [Finset.sum_ite_eq, if_pos hi]
        · have hcast : ∀ j, (if n + i = n + j then s else 0)
              = (if i = j then s else 0) := by
            intro j
            by_cases h : i = j
            · rw [if_pos h, if_pos (by omega)]
            · rw [if_neg h, if_neg (by omega)]
          rw [Finset.sum_congr rfl (fun j _ => by rw [hcast j])]
          simp only [ite_mul, zero_mul]
          rw [Finset.sum_ite_eq, if_pos hi]
      rw [Finset.sum_congr rfl hterm, Finset.sum_add_distrib, ← Finset.mul_sum,
        ← Finset.mul_sum, dveca_diag_sum n na nb c hp, dvecb_diag_sum n na nb c hq]
      push_cast
      ring

end SpinOneId

/-- Claim C1, counterexample: applying the (unscaled, `s = 1`) identity
1-body operator to the Hartree-Fock state of the sector with one
orbital and one electron of each species does not return the original
coefficients — it returns `nalpha + nbeta = 2` times them, so the
claimed equality `apply(s·Id) = s·coeff` fails at this input. -/
theorem claim_C1_counterexample :
    apply_array_spatial1 1 1 1 (fun i j => if i = j then (1 : ℂ) else 0)
      (fun _ _ => 1) 1 1 ≠ (1 : ℂ) * (fun (_ _ : ℕ) => (1 : ℂ)) 1 1 := by
  rw [apply_array_spatial1_smul_id 1 1 1 1 (fun _ _ => 1) (by decide) (by decide)]
  norm_num

/-- Claim C1 (amended): for every Sector State and scalar `s`, applying
the 1-body operator `s` times the identity — in the spatial or in the
spin-orbital convention — returns `s * (nalpha + nbeta)` times the
original coefficient array (the 1-body identity is the particle-number
operator, so the extra factor `nalpha + nbeta` appears). -/
theorem claim_C1 (n na nb : ℕ) (s : ℂ) (c : ℕ → ℕ → ℂ) {p q : ℕ}
    (hp : p ∈ dets n na) (hq : q ∈ dets n nb) :
    apply_array_spatial1 n na nb (fun i j => if i = j then s else 0) c p q
      = s * ((na + nb : ℕ) : ℂ) * c p q
    ∧ apply_array_spin1 n na nb (fun i j => if i = j then s else 0) c p q
      = s * ((na + nb : ℕ) : ℂ) * c p q :=
  ⟨apply_array_spatial1_smul_id n na nb s c hp hq,
    apply_array_spin1_smul_id n na nb s c hp hq⟩

theorem claim_C1_witness :
    (((1 : ℕ) ∈ dets 1 1) ∧ ((1 : ℕ) ∈ dets 1 1))
    ∧ (apply_array_spatial1 1 1 1 (fun i j => if i = j then (2 : ℂ) else 0)
          (fun _ _ => 1) 1 1 = 2 * ((1 + 1 : ℕ) : ℂ) * 1
      ∧ apply_array_spin1 1 1 1 (fun i j => if i = j then (2 : ℂ) else 0)
          (fun _ _ => 1) 1 1 = 2 * ((1 + 1 : ℕ) : ℂ) * 1) :=
  ⟨⟨by decide, by decide⟩, claim_C1 1 1 1 2 (fun _ _ => 1) (by decide) (by decide)⟩

/-! ### 1-particle RDM -/

/-- The 1-particle RDM of a sector state, `FqeData.rdm1` (computed by
`_rdm1_blocked`; the blocked kernel accumulates, block by block,
`rdm[i, j] += Σ dvec[i, j] * conj(coeff)` and finally returns the
conjugate transpose, so entry `(i, j)` is
`Σ conj(dvec[j, i]) * coeff`). -/
def rdm1 (n na nb : ℕ) (c : ℕ → ℕ → K) : ℕ → ℕ → K :=
  fun i j => ∑ t ∈ dets n na, ∑ q ∈ dets n nb,
    star (calculate_dvec_spatial n na nb c j i t q) * c t q

/-- Trace of the 1-RDM against the squared norm, over any scalar
ring. -/
theorem rdm1_trace (n na nb : ℕ) (c : ℕ → ℕ → K) :
    ∑ i ∈ Finset.range n, rdm1 n na nb c i i
      = ((na + nb : ℕ) : K) * ∑ t ∈ dets n na, ∑ q ∈ dets n nb, star (c t q) * c t q := by
  unfold rdm1
  rw [Finset.sum_comm]
  rw [Finset.sum_congr rfl fun t ht => Finset.sum_comm]
  rw [Finset.mul_sum]
  refine Finset.sum_congr rfl fun t ht => ?_
  rw [Finset.mul_sum]
  refine Finset.sum_congr rfl fun q hq => ?_
  rw [← Finset.sum_mul, ← star_sum, dvec_diag_sum n na nb c ht hq, star_mul',
    star_natCast]
  ring

/-- Claim C4: for a Sector State whose coefficient array has norm 1,
the trace of the matrix returned by `rdm1` equals `nalpha + nbeta`. -/
theorem claim_C4 (n na nb : ℕ) (c : ℕ → ℕ → ℂ)
    (hnorm : ∑ t ∈ dets n na, ∑ q ∈ dets n nb, star (c t q) * c t q = 1) :
    ∑ i ∈ Finset.range n, rdm1 n na nb c i i = ((na + nb : ℕ) : ℂ) := by
  rw [rdm1_trace, hnorm, mul_one]

theorem claim_C4_witness :
    (∑ t ∈ dets 1 1, ∑ q ∈ dets 1 0,
        star ((fun (_ _ : ℕ) => (1 : ℂ)) t q) * (fun (_ _ : ℕ) => (1 : ℂ)) t q = 1)
    ∧ ∑ i ∈ Finset.range 1, rdm1 1 1 0 (fun _ _ => 1) i i = ((1 + 0 : ℕ) : ℂ) := by
  have h : ∑ t ∈ dets 1 1, ∑ q ∈ dets 1 0,
      star ((fun (_ _ : ℕ) => (1 : ℂ)) t q) * (fun (_ _ : ℕ) => (1 : ℂ)) t q = 1 := by
    rw [(by decide : dets 1 1 = {1}), (by decide : dets 1 0 = {0})]
    simp
  exact ⟨h, claim_C4 1 1 0 (fun _ _ => 1) h⟩

/-! ### Adjoint fold of a D-vector back into coefficient space -/

/-- Fold of a D-vector back into coefficient space,
`FqeData._calculate_coeff_spatial_with_dvec`: the transposed excitation
maps (pair `(j, i)` in place of `(i, j)`) of both species scatter slice
`(i, j)` of the D-vector into the output, summed over all pairs. -/
def calculate_coeff_spatial_with_dvec (n : ℕ) (d : ℕ → ℕ → ℕ → ℕ → K) : ℕ → ℕ → K :=
  fun p q => ∑ i ∈ Finset.range n, ∑ j ∈ Finset.range n,
    ((if excOk j i p then excSign n j i p * d i j (excTgt j i p) q else 0)
      + (if excOk j i q then excSign n j i q * d i j p (excTgt j i q) else 0))

/-! ### 2-body application, half-filling (dense) path

`FqeData._apply_array_spatial12_halffilling` delegates to the
low-memory kernel `_apply_array_spatial12_lm`; the functionally
identical reference form kept in the source
(`_apply_array_spatial12_blocked`) first replaces the tensors by
`h2e' = -moveaxis(h2e, 1, 2)` and `h1e' = h1e - einsum('ikkj->ij', h2e')`,
then adds the 1-body contraction of `h1e'` with the D-vector and the
adjoint fold of the `h2e'`-contracted D-vector.  The external
contraction kernels are modelled from the spec (build full D-vector,
contract the folded operator tensors, reconstruct through the
adjoint). -/
def apply_array_spatial12_halffilling (n na nb : ℕ)
    (h1e : ℕ → ℕ → K) (h2e : ℕ → ℕ → ℕ → ℕ → K) (c : ℕ → ℕ → K) : ℕ → ℕ → K :=
  fun p q =>
    (∑ i ∈ Finset.range n, ∑ j ∈ Finset.range n,
      (h1e i j - ∑ k ∈ Finset.range n, -(h2e i k k j))
        * calculate_dvec_spatial n na nb c i j p q)
    + calculate_coeff_spatial_with_dvec n
        (fun i j t u => ∑ k ∈ Finset.range n, ∑ l ∈ Finset.range n,
          -(h2e i k j l) * calculate_dvec_spatial n na nb c k l t u) p q

/-! ### Low-filling (sparse) path

Modelled from the spec: the Index Graph set's `find_mapping(-2, 0)`,
`find_mapping(-1, -1)` and `find_mapping(0, -2)` return, per orbital
pair `(i, j)` with `i < j` (respectively per orbital `(i,)`), the
signed transition maps of the pair-annihilation operator (annihilate
`i`, then annihilate `j` in the updated string) and the single
annihilation operator, with `count_bits_above` parities as everywhere
else in this development. -/

/-- Both orbitals of the annihilated pair are occupied. -/
def annOk2 (i j s : ℕ) : Prop := s.testBit i = true ∧ s.testBit j = true

instance (i j s : ℕ) : Decidable (annOk2 i j s) := by unfold annOk2; infer_instance

/-- Target string of the pair annihilation: both bits cleared. -/
def annTgt2 (i j s : ℕ) : ℕ := s ^^^ 2 ^ i ^^^ 2 ^ j

/-- Parity of the pair annihilation. -/
def annPar2 (n i j s : ℕ) : ℕ := cba n s i + cba n (s ^^^ 2 ^ i) j

def annSign2 (n i j s : ℕ) : K := (-1 : K) ^ annPar2 n i j s

/-- Single annihilation of orbital `i` (the `(-1, -1)` maps). -/
def annOk1 (i s : ℕ) : Prop := s.testBit i = true

instance (i s : ℕ) : Decidable (annOk1 i s) := by unfold annOk1; infer_instance

def annTgt1 (i s : ℕ) : ℕ := s ^^^ 2 ^ i

def annSign1 (n i s : ℕ) : K := (-1 : K) ^ cba n s i

/-- Row (species A) pair-annihilation intermediate: the scatter of
`coeff[source, :] * parity` onto `intermediate[(i,j), target, :]`. -/
def pairAnnA (n na : ℕ) (i j : ℕ) (c : ℕ → ℕ → K) : ℕ → ℕ → K :=
  fun t q => ∑ s ∈ dets n na,
    if annOk2 i j s ∧ annTgt2 i j s = t then annSign2 n i j s * c s q else 0

/-- Column (species B) pair-annihilation intermediate. -/
def pairAnnB (n nb : ℕ) (i j : ℕ) (c : ℕ → ℕ → K) : ℕ → ℕ → K :=
  fun p t => ∑ s ∈ dets n nb,
    if annOk2 i j s ∧ annTgt2 i j s = t then annSign2 n i j s * c p s else 0

/-- The antisymmetrized compressed 2-body matrix element `h2ecomp` of
the low-filling path (read at packed indices of pairs `i < j`,
`k < l`). -/
def h2ecomp (h2e : ℕ → ℕ → ℕ → ℕ → K) (i j k l : ℕ) : K :=
  h2e i j k l - h2e i j l k - h2e j i k l + h2e j i l k

/-- The mixed-spin intermediate of the low-filling path (the content of
the external `_apply_array12_lowfillingab` kernel, shown by the source's
`_apply_array_spatial12_lowfilling_simple`): one annihilation on each
species, a factor `2`, and the global sign `(-1) ** (nalpha - 1)`
attached to the alpha parity. -/
def lowfillingAB (n na nb : ℕ) (c : ℕ → ℕ → K) (i j : ℕ) : ℕ → ℕ → K :=
  fun ta tb => ∑ sa ∈ dets n na, ∑ sb ∈ dets n nb,
    if annOk1 i sa ∧ annTgt1 i sa = ta ∧ annOk1 j sb ∧ annTgt1 j sb = tb then
      2 * ((-1 : K) ^ (na - 1) * annSign1 n i sa) * annSign1 n j sb * c sa sb
    else 0

/-- 2-body spatial application, low-filling (sparse) path,
`FqeData._apply_array_spatial12_lowfilling` (embedded following the
explicit-loop variant `_apply_array_spatial12_lowfilling_simple` of the
source, which spells out the external kernels): the 1-body part, then
the same-spin pair blocks (guarded by `nalpha - 2 >= 0` /
`nbeta - 2 >= 0`) contracted against `h2ecomp`, and the mixed-spin
block (guarded by `nalpha - 1 >= 0 and nbeta - 1 >= 0`) contracted
against `h2e`. -/
def apply_array_spatial12_lowfilling (n na nb : ℕ)
    (h1e : ℕ → ℕ → K) (h2e : ℕ → ℕ → ℕ → ℕ → K) (c : ℕ → ℕ → K) : ℕ → ℕ → K :=
  fun p q =>
    apply_array_spatial1 n na nb h1e c p q
    + (if 2 ≤ na then
        -(∑ i ∈ Finset.range n, ∑ j ∈ Finset.Ioo i n,
          if annOk2 i j p then
            annSign2 n i j p *
              (∑ k ∈ Finset.range n, ∑ l ∈ Finset.Ioo k n,
                h2ecomp h2e i j k l * pairAnnA n na k l c (annTgt2 i j p) q)
          else 0)
      else 0)
    + (if 1 ≤ na ∧ 1 ≤ nb then
        ∑ i ∈ Finset.range n, ∑ j ∈ Finset.range n,
          if annOk1 i p ∧ annOk1 j q then
            ((-1 : K) ^ na * annSign1 n i p) * annSign1 n j q *
              (∑ k ∈ Finset.range n, ∑ l ∈ Finset.range n,
                h2e i j k l * lowfillingAB n na nb c k l (annTgt1 i p) (annTgt1 j q))
          else 0
      else 0)
    + (if 2 ≤ nb then
        -(∑ i ∈ Finset.range n, ∑ j ∈ Finset.Ioo i n,
          if annOk2 i j q then
            annSign2 n i j q *
              (∑ k ∈ Finset.range n, ∑ l ∈ Finset.Ioo k n,
                h2ecomp h2e i j k l * pairAnnB n nb k l c p (annTgt2 i j q))
          else 0)
      else 0)

/-- The low-filling dispatch threshold, `self._low_thresh = 0.3`.  The
source compares the integer occupation against `norb * 0.3` in IEEE
double arithmetic; for every `norb` the double product either equals
the exact rational `norb * 3/10` or undershoots it by less than the gap
to the next smaller integer, so the comparison of an integer against it
coincides with the exact rational comparison used here. -/
def low_thresh : ℚ := 3 / 10

/-- 2-body spatial application with the occupation-dependent strategy
dispatch of `FqeData._apply_array_spatial12`. -/
def apply_array_spatial12 (n na nb : ℕ)
    (h1e : ℕ → ℕ → K) (h2e : ℕ → ℕ → ℕ → ℕ → K) (c : ℕ → ℕ → K) : ℕ → ℕ → K :=
  if (na : ℚ) < n * low_thresh ∧ (nb : ℚ) < n * low_thresh then
    apply_array_spatial12_lowfilling n na nb h1e h2e c
  else
    apply_array_spatial12_halffilling n na nb h1e h2e c

/-! ### 1- and 2-particle RDMs, `FqeData.rdm12` -/

/-- The 2-RDM of the half-filling path,
`FqeData._rdm12_halffilling_blocked`: the negated `(1,2,0,3)`-transpose
of the D-vector self-overlap, with the local (pre-transpose) 1-RDM
accumulator added on the coincident middle indices
(`rdm2[:, i, i, :] += rdm1` for `i < norb`, where `rdm1` at that point
is the accumulator `Σ conj(dvec[x, w]) * coeff` and only the returned
1-RDM is transposed), so the correction entry at `(x, w)` is the
returned 1-RDM entry `(w, x)`. -/
def rdm2_halffilling (n na nb : ℕ) (c : ℕ → ℕ → K) : ℕ → ℕ → ℕ → ℕ → K :=
  fun x y z w =>
    -(∑ t ∈ dets n na, ∑ u ∈ dets n nb,
      star (calculate_dvec_spatial n na nb c z x t u)
        * calculate_dvec_spatial n na nb c y w t u)
    + (if y = z ∧ y < n then rdm1 n na nb c w x else 0)

/-- Same-spin (alpha) packed block of the low-filling 2-RDM: overlap of
two pair-annihilation intermediates. -/
def lowrdmAA (n na nb : ℕ) (c : ℕ → ℕ → K) (i j k l : ℕ) : K :=
  ∑ t ∈ dets n (na - 2), ∑ u ∈ dets n nb,
    star (pairAnnA n na i j c t u) * pairAnnA n na k l c t u

/-- Same-spin (beta) packed block of the low-filling 2-RDM. -/
def lowrdmBB (n na nb : ℕ) (c : ℕ → ℕ → K) (i j k l : ℕ) : K :=
  ∑ t ∈ dets n na, ∑ u ∈ dets n (nb - 2),
    star (pairAnnB n nb i j c t u) * pairAnnB n nb k l c t u

/-- Mixed-spin unpacked block of the low-filling 2-RDM: overlap of two
mixed annihilation intermediates; the kernel's factor 2 is compensated
by 0.25 (see the source comment in `_rdm12_lowfilling`). -/
def lowrdmAB (n na nb : ℕ) (c : ℕ → ℕ → K) (i j k l : ℕ) : K :=
  (4 : K)⁻¹ * ∑ t ∈ dets n (na - 1), ∑ u ∈ dets n (nb - 1),
    star (lowfillingAB n na nb c i j t u) * lowfillingAB n na nb c k l t u

/-- The `1.0 if i < j else -1.0` packing parity of the low-filling
reassembly loop. -/
def pind (i j : ℕ) : K := if i < j then 1 else -1

/-- The 2-RDM of the low-filling path, `FqeData._rdm12_lowfilling`
(embedded following its explicit-loop variant
`_rdm12_lowfilling_simple` together with the kernel content shown by
`_apply_array12_lowfillingab`): the final reassembly
`out[i,j,k,l] -= outunpack[i,j,k,l] + outunpack[j,i,l,k]` and
`out[i,j,k,l] -= outpack[pk(i,j), pk(k,l)] * parity`, where the packed
table has the alpha and beta same-spin blocks accumulated (under their
occupation guards) and its diagonal-pair rows and columns are never
written. -/
def rdm2_lowfilling (n na nb : ℕ) (c : ℕ → ℕ → K) : ℕ → ℕ → ℕ → ℕ → K :=
  fun i j k l =>
    -(if 1 ≤ na ∧ 1 ≤ nb then
        lowrdmAB n na nb c i j k l + lowrdmAB n na nb c j i l k
      else 0)
    - pind i j * pind k l *
      (if min i j ≠ max i j ∧ min k l ≠ max k l then
        (if 2 ≤ na then lowrdmAA n na nb c (min i j) (max i j) (min k l) (max k l) else 0)
        + (if 2 ≤ nb then lowrdmBB n na nb c (min i j) (max i j) (min k l) (max k l) else 0)
      else 0)

/-- 1- and 2-particle RDMs with the occupation-dependent strategy
dispatch of `FqeData.rdm12` (the bra and the ket are the same state:
`bradata = None`).  Both strategies return `rdm1` for the 1-particle
part. -/
def rdm12 (n na nb : ℕ) (c : ℕ → ℕ → K) : (ℕ → ℕ → K) × (ℕ → ℕ → ℕ → ℕ → K) :=
  if (na : ℚ) < n * low_thresh ∧ (nb : ℚ) < n * low_thresh then
    (rdm1 n na nb c, rdm2_lowfilling n na nb c)
  else
    (rdm1 n na nb c, rdm2_halffilling n na nb c)

/-! ### Elementary creation and annihilation operators

The maps above are compositions of elementary creation/annihilation
steps with `count_bits_above` parities.  The following gather forms of
a single step (reading the unique source determinant from the target)
let the scatter sums be rewritten compositionally. -/

/-- Gather form of the creation operator for orbital `i`: the target
has bit `i` set, the source is the target with bit `i` cleared, and the
sign counts the set bits above `i` (equal in source and target). -/
def cre (n i : ℕ) (v : ℕ → K) : ℕ → K := fun t =>
  if t.testBit i = true then (-1 : K) ^ cba n t i * v (t ^^^ 2 ^ i) else 0

/-- Gather form of the annihilation operator for orbital `i`. -/
def ann (n i : ℕ) (v : ℕ → K) : ℕ → K := fun t =>
  if t.testBit i = false then (-1 : K) ^ cba n t i * v (t ^^^ 2 ^ i) else 0

/-- Toggling bit `j` shifts the count of bits above `i` by one exactly
when `i < j < n`; the direction depends on whether bit `j` was set. -/
theorem cba_toggle_of_gt {n s j : ℕ} (i : ℕ) (hj : j < n) (hij : i < j) :
    cba n (s ^^^ 2 ^ j) i = if s.testBit j then cba n s i - 1 else cba n s i + 1 := by
  have key : ∀ u : ℕ, u.testBit j = false → cba n (u ^^^ 2 ^ j) i = cba n u i + 1 := by
    intro u hu
    have hset : (Finset.range n).filter (fun x => i < x ∧ (u ^^^ 2 ^ j).testBit x)
        = insert j ((Finset.range n).filter (fun x => i < x ∧ u.testBit x)) := by
      ext x
      rw [Finset.mem_insert, Finset.mem_filter, Finset.mem_filter]
      constructor
      · rintro ⟨hxr, hxi, hxb⟩
        rw [testBit_toggle] at hxb
        by_cases hxj : x = j
        · exact Or.inl hxj
        · rw [if_neg hxj] at hxb
          exact Or.inr ⟨hxr, hxi, hxb⟩
      · rintro (hxj | ⟨hxr, hxi, hxb⟩)
        · subst hxj
          refine ⟨Finset.mem_range.2 hj, hij, ?_⟩
          rw [testBit_toggle, if_pos rfl, hu]
          rfl
        · refine ⟨hxr, hxi, ?_⟩
          have hxj : x ≠ j := fun h' => by
            rw [h', hu] at hxb
            exact Bool.false_ne_true hxb
          rw [testBit_toggle, if_neg hxj]
          exact hxb
    rw [cba, hset, Finset.card_insert_of_not_mem, ← cba]
    intro hmem
    rw [Finset.mem_filter] at hmem
    have := hmem.2.2
    rw [hu] at this
    exact Bool.false_ne_true this
  by_cases hb : s.testBit j = true
  · rw [if_pos hb]
    have hu : (s ^^^ 2 ^ j).testBit j = false := by
      rw [testBit_toggle, if_pos rfl, hb]; rfl
    have hk := key (s ^^^ 2 ^ j) hu
    rw [Nat.xor_assoc, Nat.xor_self, Nat.xor_zero] at hk
    omega
  · rw [if_neg hb]
    exact key s (by simpa using hb)

theorem toggle_toggle (s i : ℕ) : s ^^^ 2 ^ i ^^^ 2 ^ i = s := by
  rw [Nat.xor_assoc, Nat.xor_self, Nat.xor_zero]

theorem toggle_comm (s i j : ℕ) : s ^^^ 2 ^ i ^^^ 2 ^ j = s ^^^ 2 ^ j ^^^ 2 ^ i := by
  rw [Nat.xor_assoc, Nat.xor_assoc, Nat.xor_comm (2 ^ i)]

theorem testBit_toggle_ne {i j : ℕ} (s : ℕ) (h : i ≠ j) :
    (s ^^^ 2 ^ j).testBit i = s.testBit i := by
  rw [testBit_toggle, if_neg h]

theorem neg_one_pow_succ (a : ℕ) : (-1 : K) ^ (a + 1) = -((-1 : K) ^ a) := by
  rw [pow_succ]
  ring

/-- The composite `a_i a†_i` is the projection onto bit `i` being
clear. -/
theorem ann_cre_self (n i : ℕ) (v : ℕ → K) (t : ℕ) :
    ann n i (cre n i v) t = if t.testBit i = false then v t else 0 := by
  simp only [ann, cre]
  by_cases h : t.testBit i = false
  · rw [if_pos h, if_pos h]
    have hset : (t ^^^ 2 ^ i).testBit i = true := by
      rw [testBit_toggle, if_pos rfl, h]; rfl
    rw [if_pos hset, toggle_toggle, cba_toggle (le_refl i), ← mul_assoc, ← pow_add,
      ← two_mul, pow_mul, neg_one_sq, one_pow, one_mul]
  · rw [if_neg h, if_neg h]

/-- The composite `a†_i a_i` is the projection onto bit `i` being
set. -/
theorem cre_ann_self (n i : ℕ) (v : ℕ → K) (t : ℕ) :
    cre n i (ann n i v) t = if t.testBit i = true then v t else 0 := by
  simp only [ann, cre]
  by_cases h : t.testBit i = true
  · rw [if_pos h, if_pos h]
    have hunset : (t ^^^ 2 ^ i).testBit i = false := by
      rw [testBit_toggle, if_pos rfl, h]; rfl
    rw [if_pos hunset, toggle_toggle, cba_toggle (le_refl i), ← mul_assoc, ← pow_add,
      ← two_mul, pow_mul, neg_one_sq, one_pow, one_mul]
  · rw [if_neg h, if_neg h]

theorem cre_cre_self (n i : ℕ) (v : ℕ → K) (t : ℕ) : cre n i (cre n i v) t = 0 := by
  simp only [cre]
  by_cases h : t.testBit i = true
  · have hunset : (t ^^^ 2 ^ i).testBit i = false := by
      rw [testBit_toggle, if_pos rfl, h]; rfl
    rw [if_pos h, if_neg (by simp [hunset]), mul_zero]
  · rw [if_neg h]

theorem ann_ann_self (n i : ℕ) (v : ℕ → K) (t : ℕ) : ann n i (ann n i v) t = 0 := by
  simp only [ann]
  by_cases h : t.testBit i = false
  · have hset : (t ^^^ 2 ^ i).testBit i = true := by
      rw [testBit_toggle, if_pos rfl, h]; rfl
    rw [if_pos h, if_neg (by simp [hset]), mul_zero]
  · rw [if_neg h]

/-- The number operator: summing `a†_i a_i` over all orbitals counts the
electrons. -/
theorem sum_cre_ann (n : ℕ) (v : ℕ → K) (t : ℕ) :
    ∑ i ∈ Finset.range n, cre n i (ann n i v) t = (occCount n t : K) * v t := by
  rw [Finset.sum_congr rfl (fun i _ => cre_ann_self n i v t), occCount_eq_sum]
  push_cast
  rw [Finset.sum_mul]
  refine Finset.sum_congr rfl fun i _ => ?_
  by_cases h : t.testBit i <;> simp [h]

/-- Annihilation operators for distinct orbitals anticommute. -/
theorem ann_ann_comm {n i j : ℕ} (hi : i < n) (hj : j < n) (hij : i ≠ j)
    (v : ℕ → K) (t : ℕ) : ann n i (ann n j v) t = -(ann n j (ann n i v) t) := by
  simp only [ann]
  by_cases h1 : t.testBit i = false
  · by_cases h2 : t.testBit j = false
    · rw [if_pos h1, if_pos h2, if_pos (by rw [testBit_toggle_ne _ (Ne.symm hij)]; exact h2),
        if_pos (by rw [testBit_toggle_ne _ hij]; exact h1),
        toggle_comm t j i]
      rcases Nat.lt_or_ge i j with hlt | hge
      · rw [cba_toggle (le_of_lt hlt), cba_toggle_of_gt i hj hlt, if_neg (by simp [h2]),
          neg_one_pow_succ]
        ring
      · have hlt : j < i := by omega
        rw [cba_toggle (le_of_lt hlt), cba_toggle_of_gt j hi hlt, if_neg (by simp [h1]),
          neg_one_pow_succ]
        ring
    · rw [if_neg h2, if_pos h1,
        if_neg (by rw [testBit_toggle_ne _ (Ne.symm hij)]; exact h2), mul_zero, neg_zero]
  · by_cases h2 : t.testBit j = false
    · rw [if_neg h1, if_pos h2, if_neg (by rw [testBit_toggle_ne _ hij]; exact h1),
        mul_zero, neg_zero]
    · rw [if_neg h1, if_neg h2, neg_zero]

/-- Creation operators for distinct orbitals anticommute. -/
theorem cre_cre_comm {n i j : ℕ} (hi : i < n) (hj : j < n) (hij : i ≠ j)
    (v : ℕ → K) (t : ℕ) : cre n i (cre n j v) t = -(cre n j (cre n i v) t) := by
  simp only [cre]
  by_cases h1 : t.testBit i = true
  · by_cases h2 : t.testBit j = true
    · rw [if_pos h1, if_pos h2, if_pos (by rw [testBit_toggle_ne _ (Ne.symm hij)]; exact h2),
        if_pos (by rw [testBit_toggle_ne _ hij]; exact h1),
        toggle_comm t j i]
      rcases Nat.lt_or_ge i j with hlt | hge
      · have hmid : (t ^^^ 2 ^ j).testBit j = false := by
          rw [testBit_toggle, if_pos rfl, h2]; rfl
        have hkey : cba n t i = cba n (t ^^^ 2 ^ j) i + 1 := by
          have hcb := @cba_toggle_of_gt n (t ^^^ 2 ^ j) j i hj hlt
          rw [toggle_toggle] at hcb
          rw [hmid] at hcb
          rw [if_neg Bool.false_ne_true] at hcb
          omega
        rw [cba_toggle (le_of_lt hlt), hkey, neg_one_pow_succ]
        ring
      · have hlt : j < i := by omega
        have hmid : (t ^^^ 2 ^ i).testBit i = false := by
          rw [testBit_toggle, if_pos rfl, h1]; rfl
        have hkey : cba n t j = cba n (t ^^^ 2 ^ i) j + 1 := by
          have hcb := @cba_toggle_of_gt n (t ^^^ 2 ^ i) i j hi hlt
          rw [toggle_toggle] at hcb
          rw [hmid] at hcb
          rw [if_neg Bool.false_ne_true] at hcb
          omega
        rw [cba_toggle (le_of_lt hlt), hkey, neg_one_pow_succ]
        ring
    · rw [if_neg h2, if_pos h1,
        if_neg (by rw [testBit_toggle_ne _ (Ne.symm hij)]; exact h2), mul_zero, neg_zero]
  · by_cases h2 : t.testBit j = true
    · rw [if_neg h1, if_pos h2, if_neg (by rw [testBit_toggle_ne _ hij]; exact h1),
        mul_zero, neg_zero]
    · rw [if_neg h1, if_neg h2, neg_zero]

/-- Annihilation and creation for distinct orbitals anticommute. -/
theorem ann_cre_comm {n i j : ℕ} (hi : i < n) (hj : j < n) (hij : i ≠ j)
    (v : ℕ → K) (t : ℕ) : ann n i (cre n j v) t = -(cre n j (ann n i v) t) := by
  simp only [ann, cre]
  by_cases h1 : t.testBit i = false
  · by_cases h2 : t.testBit j = true
    · rw [if_pos h1, if_pos h2, if_pos (by rw [testBit_toggle_ne _ (Ne.symm hij)]; exact h2),
        if_pos (by rw [testBit_toggle_ne _ hij]; exact h1), toggle_comm t j i]
      rcases Nat.lt_or_ge i j with hlt | hge
      · have hmid : (t ^^^ 2 ^ j).testBit j = false := by
          rw [testBit_toggle, if_pos rfl, h2]; rfl
        have hkey : cba n t i = cba n (t ^^^ 2 ^ j) i + 1 := by
          have hcb := @cba_toggle_of_gt n (t ^^^ 2 ^ j) j i hj hlt
          rw [toggle_toggle] at hcb
          rw [hmid] at hcb
          rw [if_neg Bool.false_ne_true] at hcb
          omega
        rw [cba_toggle (le_of_lt hlt), hkey, neg_one_pow_succ]
        ring
      · have hlt : j < i := by omega
        rw [cba_toggle (le_of_lt hlt), cba_toggle_of_gt j hi hlt, if_neg (by simp [h1]),
          neg_one_pow_succ]
        ring
    · rw [if_neg h2, if_pos h1,
        if_neg (by rw [testBit_toggle_ne _ (Ne.symm hij)]; exact h2), mul_zero, neg_zero]
  · by_cases h2 : t.testBit j = true
    · rw [if_neg h1, if_pos h2,
        if_neg (by rw [testBit_toggle_ne _ hij]; exact h1), mul_zero, neg_zero]
    · rw [if_neg h1, if_neg h2, neg_zero]


theorem star_neg_one_pow (m : ℕ) : star ((-1 : K) ^ m) = (-1 : K) ^ m := by
  rw [star_pow, star_neg, star_one]

/-- A partial-occupation reindexing: summing over the determinants with
bit `i` set is the same as summing over the determinants of one fewer
electron with bit `i` clear, through the bit toggle. -/
theorem sum_toggle_bij (n k i : ℕ) (hi : i < n) (hk : 1 ≤ k) (f : ℕ → K) :
    ∑ s ∈ (dets n k).filter (fun s => s.testBit i = true), f s
      = ∑ t ∈ (dets n (k - 1)).filter (fun t => t.testBit i = false), f (t ^^^ 2 ^ i) := by
  refine Finset.sum_nbij' (fun s => s ^^^ 2 ^ i) (fun t => t ^^^ 2 ^ i) ?_ ?_ ?_ ?_ ?_
  · intro s hs
    dsimp only
    rw [Finset.mem_filter, mem_dets] at hs ⊢
    obtain ⟨⟨hlt, hocc⟩, hbit⟩ := hs
    refine ⟨⟨toggle_lt hlt hi, ?_⟩, ?_⟩
    · have := occCount_toggle_true hi hbit
      omega
    · rw [testBit_toggle, if_pos rfl, hbit]
      rfl
  · intro t htm
    dsimp only
    rw [Finset.mem_filter, mem_dets] at htm ⊢
    obtain ⟨⟨hlt, hocc⟩, hbit⟩ := htm
    refine ⟨⟨toggle_lt hlt hi, ?_⟩, ?_⟩
    · have := occCount_toggle_false hi hbit
      omega
    · rw [testBit_toggle, if_pos rfl, hbit]
      rfl
  · intro s _
    dsimp only
    exact toggle_toggle s i
  · intro t _
    dsimp only
    exact toggle_toggle t i
  · intro s _
    dsimp only
    rw [toggle_toggle]

/-- Adjointness of annihilation and creation with respect to the
conjugated pairing over the configuration sets. -/
theorem ann_adjoint (n k i : ℕ) (hi : i < n) (hk : 1 ≤ k) (v w : ℕ → K) :
    ∑ t ∈ dets n (k - 1), star (ann n i v t) * w t
      = ∑ s ∈ dets n k, star (v s) * cre n i w s := by
  have lhs_eq : ∑ t ∈ dets n (k - 1), star (ann n i v t) * w t
      = ∑ t ∈ (dets n (k - 1)).filter (fun t => t.testBit i = false),
          (-1 : K) ^ cba n t i * star (v (t ^^^ 2 ^ i)) * w t := by
    rw [Finset.sum_filter]
    refine Finset.sum_congr rfl fun t _ => ?_
    rw [ann]
    by_cases hb : t.testBit i = false
    · rw [if_pos hb, if_pos hb, star_mul', star_neg_one_pow]
    · rw [if_neg hb, if_neg hb, star_zero, zero_mul]
  have rhs_eq : ∑ s ∈ dets n k, star (v s) * cre n i w s
      = ∑ s ∈ (dets n k).filter (fun s => s.testBit i = true),
          (-1 : K) ^ cba n s i * star (v s) * w (s ^^^ 2 ^ i) := by
    rw [Finset.sum_filter]
    refine Finset.sum_congr rfl fun s _ => ?_
    rw [cre]
    by_cases hb : s.testBit i = true
    · rw [if_pos hb, if_pos hb]
      ring
    · rw [if_neg hb, if_neg hb, mul_zero]
  rw [lhs_eq, rhs_eq, sum_toggle_bij n k i hi hk]
  refine Finset.sum_congr rfl fun t htm => ?_
  rw [Finset.mem_filter] at htm
  rw [toggle_toggle, cba_toggle (le_refl i)]

/-- A slice of the adjoint fold is the excitation operator itself in
gather form: scattering through the transposed map `(j, i)` from the
source side applies `a^dag_i a_j`. -/
theorem fold_term_eq (n i j : ℕ) (w : ℕ → K) (p : ℕ) :
    (if excOk j i p then excSign n j i p * w (excTgt j i p) else 0)
      = cre n i (ann n j w) p := by
  simp only [cre, ann]
  by_cases hip : p.testBit i = true
  · by_cases hjp : (p ^^^ 2 ^ i).testBit j = false
    · have hok : excOk j i p := by
        refine ⟨hip, ?_⟩
        by_cases hji : j = i
        · exact Or.inl hji
        · right
          rw [← testBit_toggle_ne p hji]
          exact hjp
      rw [if_pos hok, if_pos hip, if_pos hjp, excSign, excPar,
        excTgt_eq_double_toggle, pow_add]
      ring
    · have hok : ¬ excOk j i p := by
        rintro ⟨_, hcase | hcase⟩
        · subst hcase
          apply hjp
          rw [testBit_toggle, if_pos rfl, hip]
          rfl
        · apply hjp
          by_cases hji : j = i
          · subst hji
            rw [testBit_toggle, if_pos rfl, hip]
            rfl
          · rw [testBit_toggle_ne p hji]
            exact hcase
      rw [if_neg hok, if_pos hip, if_neg hjp, mul_zero]
  · have hok : ¬ excOk j i p := fun h => hip h.1
    rw [if_neg hok, if_neg hip]

/-- Gather form of the excitation map action: at a valid target
determinant, the scatter sum reduces to the unique source. -/
theorem exc1_eq_gather (n k i j : ℕ) (hi : i < n) (hj : j < n) (v : ℕ → K) {t : ℕ}
    (ht : t ∈ dets n k) :
    exc1 n k i j v t = if excOk j i t then excSign n j i t * v (excTgt j i t) else 0 := by
  rw [exc1]
  by_cases hok : excOk j i t
  · rw [Finset.sum_eq_single (excTgt j i t), if_pos hok]
    · rw [if_pos ⟨excOk_rev hok, excTgt_rev j i t⟩]
      rw [excSign_rev n j i t]
    · intro s _ hne
      rw [if_neg]
      rintro ⟨_, htgt⟩
      apply hne
      have h2 : excTgt j i (excTgt i j s) = excTgt j i t := by rw [htgt]
      rw [excTgt_rev] at h2
      rw [← h2]
    · intro hcon
      exact absurd (excTgt_mem_dets hj hi ht hok) hcon
  · rw [if_neg hok]
    apply Finset.sum_eq_zero
    intro s _
    rw [if_neg]
    rintro ⟨hok2, htgt⟩
    apply hok
    rw [← htgt]
    exact excOk_rev hok2

/-- The excitation operator is the composite of a creation and an
annihilation step. -/
theorem exc1_apply (n k i j : ℕ) (hi : i < n) (hj : j < n) (v : ℕ → K) {t : ℕ}
    (ht : t ∈ dets n k) : exc1 n k i j v t = cre n i (ann n j v) t := by
  rw [exc1_eq_gather n k i j hi hj v ht, fold_term_eq]


/-! ### The contraction identity of the 2-RDM -/

/-- Half-filling 2-RDM: tracing the second against the fourth index
gives minus `N` times the returned 1-RDM plus the transposed entry of
the returned 1-RDM (the pre-transpose accumulator added by the
correction loop). -/
theorem rdm2_halffilling_trace (n na nb : ℕ) (c : ℕ → ℕ → K) {a b : ℕ}
    (hb : b < n) :
    ∑ i ∈ Finset.range n, rdm2_halffilling n na nb c a i b i
      = -(((na + nb : ℕ) : K) * rdm1 n na nb c a b) + rdm1 n na nb c b a := by
  unfold rdm2_halffilling
  rw [Finset.sum_add_distrib]
  have piece2 : ∑ i ∈ Finset.range n,
      (if i = b ∧ i < n then rdm1 n na nb c i a else 0) = rdm1 n na nb c b a := by
    have hcongr : ∀ i ∈ Finset.range n,
        (if i = b ∧ i < n then rdm1 n na nb c i a else 0)
          = if i = b then rdm1 n na nb c i a else 0 := by
      intro i hi
      by_cases h : i = b
      · rw [if_pos ⟨h, Finset.mem_range.1 hi⟩, if_pos h]
      · rw [if_neg (fun hc => h hc.1), if_neg h]
    rw [Finset.sum_congr rfl hcongr, Finset.sum_ite_eq', if_pos (Finset.mem_range.2 hb)]
  have piece1 : ∑ i ∈ Finset.range n,
      -(∑ t ∈ dets n na, ∑ u ∈ dets n nb,
        star (calculate_dvec_spatial n na nb c b a t u)
          * calculate_dvec_spatial n na nb c i i t u)
      = -(((na + nb : ℕ) : K) * rdm1 n na nb c a b) := by
    rw [Finset.sum_neg_distrib]
    congr 1
    rw [Finset.sum_comm]
    rw [Finset.sum_congr rfl fun t ht => Finset.sum_comm]
    rw [rdm1, Finset.mul_sum]
    refine Finset.sum_congr rfl fun t ht => ?_
    rw [Finset.mul_sum]
    refine Finset.sum_congr rfl fun u hu => ?_
    rw [← Finset.mul_sum, dvec_diag_sum n na nb c ht hu]
    ring
  rw [piece1, piece2]


/-! ### Gather forms of the low-filling transition maps -/

theorem ann1_gather (n k i : ℕ) (hi : i < n) (hk : 1 ≤ k) (v : ℕ → K) {t : ℕ}
    (ht : t ∈ dets n (k - 1)) :
    (∑ s ∈ dets n k, if annOk1 i s ∧ annTgt1 i s = t then annSign1 n i s * v s else 0)
      = ann n i v t := by
  rw [ann]
  by_cases hb : t.testBit i = false
  · rw [Finset.sum_eq_single (t ^^^ 2 ^ i), if_pos hb]
    · have hsrc : (t ^^^ 2 ^ i).testBit i = true := by
        rw [testBit_toggle, if_pos rfl, hb]; rfl
      rw [if_pos ⟨hsrc, toggle_toggle t i⟩, annSign1, cba_toggle (le_refl i)]
    · intro s _ hne
      rw [if_neg]
      rintro ⟨_, htgt⟩
      apply hne
      rw [annTgt1] at htgt
      have := congrArg (fun x => x ^^^ 2 ^ i) htgt
      dsimp only at this
      rwa [toggle_toggle] at this
    · intro hcon
      exfalso
      apply hcon
      rw [mem_dets] at ht ⊢
      constructor
      · exact toggle_lt ht.1 hi
      · have := occCount_toggle_false hi hb
        omega
  · rw [if_neg hb]
    apply Finset.sum_eq_zero
    intro s _
    rw [if_neg]
    rintro ⟨hok, htgt⟩
    apply hb
    rw [annTgt1] at htgt
    rw [← htgt, testBit_toggle, if_pos rfl, hok]
    rfl

theorem pairAnn_gather (n k i j : ℕ) (hi : i < n) (hj : j < n) (hij : i ≠ j)
    (hk : 2 ≤ k) (v : ℕ → K) {t : ℕ} (ht : t ∈ dets n (k - 2)) :
    (∑ s ∈ dets n k, if annOk2 i j s ∧ annTgt2 i j s = t then annSign2 n i j s * v s else 0)
      = ann n j (ann n i v) t := by
  simp only [ann]
  by_cases hbj : t.testBit j = false
  · by_cases hbi : (t ^^^ 2 ^ j).testBit i = false
    · rw [if_pos hbj, if_pos hbi]
      rw [Finset.sum_eq_single (t ^^^ 2 ^ j ^^^ 2 ^ i)]
      · have hsi : (t ^^^ 2 ^ j ^^^ 2 ^ i).testBit i = true := by
          rw [testBit_toggle, if_pos rfl, hbi]; rfl
        have hsj : (t ^^^ 2 ^ j ^^^ 2 ^ i).testBit j = true := by
          rw [testBit_toggle_ne _ (Ne.symm hij), testBit_toggle, if_pos rfl, hbj]; rfl
        have htgt : annTgt2 i j (t ^^^ 2 ^ j ^^^ 2 ^ i) = t := by
          rw [annTgt2, toggle_toggle, toggle_toggle]
        rw [if_pos ⟨⟨hsi, hsj⟩, htgt⟩, annSign2, annPar2, toggle_toggle,
          cba_toggle (le_refl i), cba_toggle (le_refl j), pow_add]
        ring
      · intro s _ hne
        rw [if_neg]
        rintro ⟨_, htgt⟩
        apply hne
        rw [annTgt2] at htgt
        have hs : t ^^^ 2 ^ j ^^^ 2 ^ i = s := by
          rw [← htgt, Nat.xor_assoc (s ^^^ 2 ^ i), Nat.xor_self, Nat.xor_zero,
            toggle_toggle]
        exact hs.symm
      · intro hcon
        exfalso
        apply hcon
        rw [mem_dets] at ht ⊢
        have hmid : (t ^^^ 2 ^ j ^^^ 2 ^ i).testBit i = true := by
          rw [testBit_toggle, if_pos rfl, hbi]; rfl
        constructor
        · exact toggle_lt (toggle_lt ht.1 hj) hi
        · have h1 := occCount_toggle_false hj hbj
          have h2 := occCount_toggle_false hi hbi
          omega
    · rw [if_pos hbj, if_neg hbi, mul_zero]
      apply Finset.sum_eq_zero
      intro s _
      rw [if_neg]
      rintro ⟨⟨hoki, hokj⟩, htgt⟩
      apply hbi
      rw [annTgt2] at htgt
      have hs : t ^^^ 2 ^ j ^^^ 2 ^ i = s := by
        rw [← htgt, Nat.xor_assoc (s ^^^ 2 ^ i), Nat.xor_self, Nat.xor_zero,
          toggle_toggle]
      rw [← hs, testBit_toggle, if_pos rfl] at hoki
      simpa using hoki
  · rw [if_neg hbj]
    apply Finset.sum_eq_zero
    intro s _
    rw [if_neg]
    rintro ⟨⟨hoki, hokj⟩, htgt⟩
    apply hbj
    rw [annTgt2] at htgt
    rw [← htgt, testBit_toggle, if_pos rfl, testBit_toggle_ne _ (Ne.symm hij), hokj]
    rfl


/-- Row and column annihilations act on independent axes and commute. -/
theorem ann_row_col_comm (n x i : ℕ) (c : ℕ → ℕ → K) (ta tb : ℕ) :
    ann n x (fun s => ann n i (fun u => c s u) tb) ta
      = ann n i (fun u => ann n x (fun s => c s u) ta) tb := by
  simp only [ann]
  by_cases h1 : ta.testBit x = false
  · by_cases h2 : tb.testBit i = false
    · rw [if_pos h1, if_pos h2, if_pos h2, if_pos h1]
      ring
    · rw [if_pos h1, if_neg h2, if_neg h2, mul_zero]
  · by_cases h2 : tb.testBit i = false
    · rw [if_neg h1, if_pos h2, if_neg h1, mul_zero]
    · rw [if_neg h1, if_neg h2]

/-- Gather form of the mixed-spin low-filling intermediate: one
annihilation on each species with the kernel's factor and global
sign. -/
theorem lowfillingAB_apply (n na nb i j : ℕ) (hi : i < n) (hj : j < n)
    (hna : 1 ≤ na) (hnb : 1 ≤ nb) (c : ℕ → ℕ → K) {ta tb : ℕ}
    (hta : ta ∈ dets n (na - 1)) (htb : tb ∈ dets n (nb - 1)) :
    lowfillingAB n na nb c i j ta tb
      = 2 * (-1 : K) ^ (na - 1) * ann n i (fun s => ann n j (fun u => c s u) tb) ta := by
  rw [lowfillingAB]
  have step1 : ∀ sa ∈ dets n na,
      (∑ sb ∈ dets n nb,
        if annOk1 i sa ∧ annTgt1 i sa = ta ∧ annOk1 j sb ∧ annTgt1 j sb = tb
        then 2 * ((-1 : K) ^ (na - 1) * annSign1 n i sa) * annSign1 n j sb * c sa sb
        else 0)
      = (2 * (-1 : K) ^ (na - 1)) *
          (if annOk1 i sa ∧ annTgt1 i sa = ta
            then annSign1 n i sa * ann n j (fun u => c sa u) tb else 0) := by
    intro sa _
    by_cases hA : annOk1 i sa ∧ annTgt1 i sa = ta
    · rw [if_pos hA, ← ann1_gather n nb j hj hnb (fun u => c sa u) htb,
        Finset.mul_sum, Finset.mul_sum]
      refine Finset.sum_congr rfl fun sb _ => ?_
      by_cases hB : annOk1 j sb ∧ annTgt1 j sb = tb
      · rw [if_pos hB, if_pos ⟨hA.1, hA.2, hB.1, hB.2⟩]
        ring
      · rw [if_neg hB, if_neg (fun hc => hB ⟨hc.2.2.1, hc.2.2.2⟩), mul_zero, mul_zero]
    · rw [if_neg hA, mul_zero]
      apply Finset.sum_eq_zero
      intro sb _
      rw [if_neg (fun hc => hA ⟨hc.1, hc.2.1⟩)]
  rw [Finset.sum_congr rfl step1, ← Finset.mul_sum,
    ann1_gather n na i hi hna (fun s => ann n j (fun u => c s u) tb) hta]


theorem star_double_sign_mul (m : ℕ) (x y : K) :
    star (2 * (-1 : K) ^ m * x) * (2 * (-1 : K) ^ m * y) = 4 * (star x * y) := by
  rw [star_mul', star_mul', star_neg_one_pow]
  have h2 : star (2 : K) = 2 := by
    rw [show (2 : K) = (1 : K) + 1 by norm_num, star_add, star_one]
  rw [h2]
  have hsq : (-1 : K) ^ m * (-1 : K) ^ m = 1 := by
    rw [← pow_add]
    exact Even.neg_one_pow ⟨m, rfl⟩
  have hring : 2 * (-1 : K) ^ m * star x * (2 * (-1 : K) ^ m * y)
      = 4 * ((-1 : K) ^ m * (-1 : K) ^ m) * (star x * y) := by ring
  rw [hring, hsq, mul_one]

/-- Tracing the beta orbital of the mixed low-filling block against
itself gives `nbeta` copies of the row excitation overlap. -/
theorem lowrdmAB_trace_col [CharZero K] (n na nb : ℕ) (c : ℕ → ℕ → K) {a b : ℕ}
    (ha : a < n) (hb : b < n) (hna : 1 ≤ na) (hnb : 1 ≤ nb) :
    ∑ i ∈ Finset.range n, lowrdmAB n na nb c a i b i
      = (nb : K) * ∑ sa ∈ dets n na, ∑ sb ∈ dets n nb,
          star (c sa sb) * cre n a (ann n b (fun s => c s sb)) sa := by
  have step1 : ∀ i ∈ Finset.range n, lowrdmAB n na nb c a i b i
      = ∑ ta ∈ dets n (na - 1), ∑ tb ∈ dets n (nb - 1),
          star (ann n i (fun u => ann n a (fun s => c s u) ta) tb)
            * ann n i (fun u => ann n b (fun s => c s u) ta) tb := by
    intro i hi
    rw [Finset.mem_range] at hi
    rw [lowrdmAB]
    have key : ∀ ta ∈ dets n (na - 1),
        (∑ tb ∈ dets n (nb - 1),
          star (lowfillingAB n na nb c a i ta tb) * lowfillingAB n na nb c b i ta tb)
        = 4 * ∑ tb ∈ dets n (nb - 1),
            star (ann n i (fun u => ann n a (fun s => c s u) ta) tb)
              * ann n i (fun u => ann n b (fun s => c s u) ta) tb := by
      intro ta hta
      rw [Finset.mul_sum]
      refine Finset.sum_congr rfl fun tb htb => ?_
      rw [lowfillingAB_apply n na nb a i ha hi hna hnb c hta htb,
        lowfillingAB_apply n na nb b i hb hi hna hnb c hta htb,
        ann_row_col_comm n a i c ta tb, ann_row_col_comm n b i c ta tb,
        star_double_sign_mul]
    rw [Finset.sum_congr rfl key, ← Finset.mul_sum, ← mul_assoc,
      inv_mul_cancel₀ (by norm_num : (4 : K) ≠ 0), one_mul]
  rw [Finset.sum_congr rfl step1, Finset.sum_comm]
  have step2 : ∀ ta ∈ dets n (na - 1),
      (∑ i ∈ Finset.range n, ∑ tb ∈ dets n (nb - 1),
        star (ann n i (fun u => ann n a (fun s => c s u) ta) tb)
          * ann n i (fun u => ann n b (fun s => c s u) ta) tb)
      = (nb : K) * ∑ sb ∈ dets n nb,
          star (ann n a (fun s => c s sb) ta) * ann n b (fun s => c s sb) ta := by
    intro ta hta
    have adj : ∀ i ∈ Finset.range n,
        (∑ tb ∈ dets n (nb - 1),
          star (ann n i (fun u => ann n a (fun s => c s u) ta) tb)
            * ann n i (fun u => ann n b (fun s => c s u) ta) tb)
        = ∑ sb ∈ dets n nb,
            star (ann n a (fun s => c s sb) ta)
              * cre n i (ann n i (fun u => ann n b (fun s => c s u) ta)) sb := by
      intro i hi
      rw [Finset.mem_range] at hi
      exact ann_adjoint n nb i hi hnb (fun u => ann n a (fun s => c s u) ta)
        (ann n i (fun u => ann n b (fun s => c s u) ta))
    rw [Finset.sum_congr rfl adj, Finset.sum_comm, Finset.mul_sum]
    refine Finset.sum_congr rfl fun sb hsb => ?_
    rw [← Finset.mul_sum, sum_cre_ann]
    have hocc : occCount n sb = nb := (mem_dets.mp hsb).2
    rw [hocc]
    ring
  have step3 : (∑ ta ∈ dets n (na - 1), ∑ sb ∈ dets n nb,
      star (ann n a (fun s => c s sb) ta) * ann n b (fun s => c s sb) ta)
      = ∑ sa ∈ dets n na, ∑ sb ∈ dets n nb,
          star (c sa sb) * cre n a (ann n b (fun s => c s sb)) sa := by
    rw [Finset.sum_comm]
    rw [Finset.sum_congr rfl fun sb hsb =>
      ann_adjoint n na a ha hna (fun s => c s sb) (ann n b (fun s => c s sb))]
    exact Finset.sum_comm
  rw [Finset.sum_congr rfl step2, ← Finset.mul_sum, step3]


/-- Tracing the alpha orbital of the mixed low-filling block against
itself gives `nalpha` copies of the column excitation overlap. -/
theorem lowrdmAB_trace_row [CharZero K] (n na nb : ℕ) (c : ℕ → ℕ → K) {a b : ℕ}
    (ha : a < n) (hb : b < n) (hna : 1 ≤ na) (hnb : 1 ≤ nb) :
    ∑ i ∈ Finset.range n, lowrdmAB n na nb c i a i b
      = (na : K) * ∑ sa ∈ dets n na, ∑ sb ∈ dets n nb,
          star (c sa sb) * cre n a (ann n b (fun u => c sa u)) sb := by
  have step1 : ∀ i ∈ Finset.range n, lowrdmAB n na nb c i a i b
      = ∑ tb ∈ dets n (nb - 1), ∑ ta ∈ dets n (na - 1),
          star (ann n i (fun s => ann n a (fun u => c s u) tb) ta)
            * ann n i (fun s => ann n b (fun u => c s u) tb) ta := by
    intro i hi
    rw [Finset.mem_range] at hi
    rw [lowrdmAB]
    have key : ∀ ta ∈ dets n (na - 1),
        (∑ tb ∈ dets n (nb - 1),
          star (lowfillingAB n na nb c i a ta tb) * lowfillingAB n na nb c i b ta tb)
        = 4 * ∑ tb ∈ dets n (nb - 1),
            star (ann n i (fun s => ann n a (fun u => c s u) tb) ta)
              * ann n i (fun s => ann n b (fun u => c s u) tb) ta := by
      intro ta hta
      rw [Finset.mul_sum]
      refine Finset.sum_congr rfl fun tb htb => ?_
      rw [lowfillingAB_apply n na nb i a hi ha hna hnb c hta htb,
        lowfillingAB_apply n na nb i b hi hb hna hnb c hta htb,
        star_double_sign_mul]
    rw [Finset.sum_congr rfl key, ← Finset.mul_sum, ← mul_assoc,
      inv_mul_cancel₀ (by norm_num : (4 : K) ≠ 0), one_mul, Finset.sum_comm]
  rw [Finset.sum_congr rfl step1, Finset.sum_comm]
  have step2 : ∀ tb ∈ dets n (nb - 1),
      (∑ i ∈ Finset.range n, ∑ ta ∈ dets n (na - 1),
        star (ann n i (fun s => ann n a (fun u => c s u) tb) ta)
          * ann n i (fun s => ann n b (fun u => c s u) tb) ta)
      = (na : K) * ∑ sa ∈ dets n na,
          star (ann n a (fun u => c sa u) tb) * ann n b (fun u => c sa u) tb := by
    intro tb htb
    have adj : ∀ i ∈ Finset.range n,
        (∑ ta ∈ dets n (na - 1),
          star (ann n i (fun s => ann n a (fun u => c s u) tb) ta)
            * ann n i (fun s => ann n b (fun u => c s u) tb) ta)
        = ∑ sa ∈ dets n na,
            star (ann n a (fun u => c sa u) tb)
              * cre n i (ann n i (fun s => ann n b (fun u => c s u) tb)) sa := by
      intro i hi
      rw [Finset.mem_range] at hi
      exact ann_adjoint n na i hi hna (fun s => ann n a (fun u => c s u) tb)
        (ann n i (fun s => ann n b (fun u => c s u) tb))
    rw [Finset.sum_congr rfl adj, Finset.sum_comm, Finset.mul_sum]
    refine Finset.sum_congr rfl fun sa hsa => ?_
    rw [← Finset.mul_sum, sum_cre_ann]
    have hocc : occCount n sa = na := (mem_dets.mp hsa).2
    rw [hocc]
    ring
  have step3 : (∑ tb ∈ dets n (nb - 1), ∑ sa ∈ dets n na,
      star (ann n a (fun u => c sa u) tb) * ann n b (fun u => c sa u) tb)
      = ∑ sa ∈ dets n na, ∑ sb ∈ dets n nb,
          star (c sa sb) * cre n a (ann n b (fun u => c sa u)) sb := by
    rw [Finset.sum_comm]
    exact Finset.sum_congr rfl fun sa hsa =>
      ann_adjoint n nb a ha hnb (fun u => c sa u) (ann n b (fun u => c sa u))
  rw [Finset.sum_congr rfl step2, ← Finset.mul_sum, step3]


theorem star_pind (i j : ℕ) : star (pind i j : K) = pind i j := by
  rw [pind]
  split_ifs
  · exact star_one K
  · rw [star_neg, star_one]

/-- The reassembly parity times the packed (sorted) alpha pair block is
the unsorted pair of annihilations. -/
theorem pind_pairAnnA (n na : ℕ) (hna : 2 ≤ na) (c : ℕ → ℕ → K) {x i : ℕ}
    (hx : x < n) (hi : i < n) (hxi : x ≠ i) {t : ℕ} (ht : t ∈ dets n (na - 2)) (q : ℕ) :
    (pind x i : K) * pairAnnA n na (min x i) (max x i) c t q
      = ann n i (ann n x (fun s => c s q)) t := by
  have hgather : ∀ p r : ℕ, p < n → r < n → p ≠ r →
      pairAnnA n na p r c t q = ann n r (ann n p (fun s => c s q)) t := by
    intro p r hp hr hpr
    exact pairAnn_gather n na p r hp hr hpr hna (fun s => c s q) ht
  rcases Nat.lt_or_ge x i with hlt | hge
  · rw [pind, if_pos hlt, one_mul, min_eq_left (le_of_lt hlt), max_eq_right (le_of_lt hlt)]
    exact hgather x i hx hi hxi
  · have hlt' : i < x := by omega
    rw [pind, if_neg (by omega), min_eq_right (le_of_lt hlt'), max_eq_left (le_of_lt hlt'),
      hgather i x hi hx (Ne.symm hxi), ann_ann_comm hx hi hxi]
    ring

/-- The reassembly parity times the packed (sorted) beta pair block is
the unsorted pair of annihilations. -/
theorem pind_pairAnnB (n nb : ℕ) (hnb : 2 ≤ nb) (c : ℕ → ℕ → K) {x i : ℕ}
    (hx : x < n) (hi : i < n) (hxi : x ≠ i) (p : ℕ) {t : ℕ} (ht : t ∈ dets n (nb - 2)) :
    (pind x i : K) * pairAnnB n nb (min x i) (max x i) c p t
      = ann n i (ann n x (fun u => c p u)) t := by
  have hgather : ∀ r w : ℕ, r < n → w < n → r ≠ w →
      pairAnnB n nb r w c p t = ann n w (ann n r (fun u => c p u)) t := by
    intro r w hr hw hrw
    exact pairAnn_gather n nb r w hr hw hrw hnb (fun u => c p u) ht
  rcases Nat.lt_or_ge x i with hlt | hge
  · rw [pind, if_pos hlt, one_mul, min_eq_left (le_of_lt hlt), max_eq_right (le_of_lt hlt)]
    exact hgather x i hx hi hxi
  · have hlt' : i < x := by omega
    rw [pind, if_neg (by omega), min_eq_right (le_of_lt hlt'), max_eq_left (le_of_lt hlt'),
      hgather i x hi hx (Ne.symm hxi), ann_ann_comm hx hi hxi]
    ring


/-- Tracing the packed same-spin alpha block through the reassembly
parities gives `nalpha - 1` copies of the row excitation overlap. -/
theorem lowrdmAA_trace (n na nb : ℕ) (c : ℕ → ℕ → K) {a b : ℕ}
    (ha : a < n) (hb : b < n) (hna : 2 ≤ na) :
    ∑ i ∈ Finset.range n, (pind a i : K) * pind b i *
      (if min a i ≠ max a i ∧ min b i ≠ max b i then
        lowrdmAA n na nb c (min a i) (max a i) (min b i) (max b i) else 0)
      = ((na - 1 : ℕ) : K) * ∑ sa ∈ dets n na, ∑ sb ∈ dets n nb,
          star (c sa sb) * cre n a (ann n b (fun s => c s sb)) sa := by
  have hna1 : 1 ≤ na - 1 := by omega
  have step1 : ∀ i ∈ Finset.range n, (pind a i : K) * pind b i *
      (if min a i ≠ max a i ∧ min b i ≠ max b i then
        lowrdmAA n na nb c (min a i) (max a i) (min b i) (max b i) else 0)
      = ∑ t ∈ dets n (na - 2), ∑ u ∈ dets n nb,
          star (ann n i (ann n a (fun s => c s u)) t)
            * ann n i (ann n b (fun s => c s u)) t := by
    intro i hi
    rw [Finset.mem_range] at hi
    by_cases hA : a = i
    · subst hA
      rw [if_neg (by simp), mul_zero]
      symm
      apply Finset.sum_eq_zero
      intro t _
      apply Finset.sum_eq_zero
      intro u _
      rw [ann_ann_self, star_zero, zero_mul]
    · by_cases hB : b = i
      · subst hB
        rw [if_neg (by simp), mul_zero]
        symm
        apply Finset.sum_eq_zero
        intro t _
        apply Finset.sum_eq_zero
        intro u _
        rw [ann_ann_self, mul_zero]
      · have hg : min a i ≠ max a i ∧ min b i ≠ max b i := by omega
        rw [if_pos hg, lowrdmAA, Finset.mul_sum]
        refine Finset.sum_congr rfl fun t ht => ?_
        rw [Finset.mul_sum]
        refine Finset.sum_congr rfl fun u hu => ?_
        have e1 := pind_pairAnnA n na hna c ha hi hA ht u
        have e2 := pind_pairAnnA n na hna c hb hi hB ht u
        calc (pind a i : K) * pind b i *
            (star (pairAnnA n na (min a i) (max a i) c t u)
              * pairAnnA n na (min b i) (max b i) c t u)
            = star ((pind a i : K) * pairAnnA n na (min a i) (max a i) c t u)
                * ((pind b i : K) * pairAnnA n na (min b i) (max b i) c t u) := by
              rw [star_mul', star_pind]
              ring
          _ = star (ann n i (ann n a (fun s => c s u)) t)
                * ann n i (ann n b (fun s => c s u)) t := by
              rw [e1, e2]
  rw [Finset.sum_congr rfl step1, show na - 2 = na - 1 - 1 from by omega]
  have stepA : ∀ i ∈ Finset.range n,
      (∑ t ∈ dets n (na - 1 - 1), ∑ u ∈ dets n nb,
        star (ann n i (ann n a (fun s => c s u)) t)
          * ann n i (ann n b (fun s => c s u)) t)
      = ∑ u ∈ dets n nb, ∑ s ∈ dets n (na - 1),
          star (ann n a (fun x => c x u) s)
            * cre n i (ann n i (ann n b (fun x => c x u))) s := by
    intro i hi
    rw [Finset.mem_range] at hi
    rw [Finset.sum_comm]
    refine Finset.sum_congr rfl fun u hu => ?_
    exact ann_adjoint n (na - 1) i hi hna1 (ann n a (fun x => c x u))
      (ann n i (ann n b (fun x => c x u)))
  rw [Finset.sum_congr rfl stepA, Finset.sum_comm]
  have stepB : ∀ u ∈ dets n nb,
      (∑ i ∈ Finset.range n, ∑ s ∈ dets n (na - 1),
        star (ann n a (fun x => c x u) s)
          * cre n i (ann n i (ann n b (fun x => c x u))) s)
      = ((na - 1 : ℕ) : K) * ∑ s ∈ dets n (na - 1),
          star (ann n a (fun x => c x u) s) * ann n b (fun x => c x u) s := by
    intro u hu
    rw [Finset.sum_comm, Finset.mul_sum]
    refine Finset.sum_congr rfl fun s hs => ?_
    rw [← Finset.mul_sum, sum_cre_ann]
    have hocc : occCount n s = na - 1 := (mem_dets.mp hs).2
    rw [hocc]
    ring
  rw [Finset.sum_congr rfl stepB, ← Finset.mul_sum]
  congr 1
  rw [Finset.sum_congr rfl fun u hu =>
    ann_adjoint n na a ha (by omega : 1 ≤ na) (fun x => c x u) (ann n b (fun x => c x u))]
  exact Finset.sum_comm


/-- Tracing the packed same-spin beta block through the reassembly
parities gives `nbeta - 1` copies of the column excitation overlap. -/
theorem lowrdmBB_trace (n na nb : ℕ) (c : ℕ → ℕ → K) {a b : ℕ}
    (ha : a < n) (hb : b < n) (hnb : 2 ≤ nb) :
    ∑ i ∈ Finset.range n, (pind a i : K) * pind b i *
      (if min a i ≠ max a i ∧ min b i ≠ max b i then
        lowrdmBB n na nb c (min a i) (max a i) (min b i) (max b i) else 0)
      = ((nb - 1 : ℕ) : K) * ∑ sa ∈ dets n na, ∑ sb ∈ dets n nb,
          star (c sa sb) * cre n a (ann n b (fun u => c sa u)) sb := by
  have hnb1 : 1 ≤ nb - 1 := by omega
  have step1 : ∀ i ∈ Finset.range n, (pind a i : K) * pind b i *
      (if min a i ≠ max a i ∧ min b i ≠ max b i then
        lowrdmBB n na nb c (min a i) (max a i) (min b i) (max b i) else 0)
      = ∑ t ∈ dets n na, ∑ u ∈ dets n (nb - 2),
          star (ann n i (ann n a (fun x => c t x)) u)
            * ann n i (ann n b (fun x => c t x)) u := by
    intro i hi
    rw [Finset.mem_range] at hi
    by_cases hA : a = i
    · subst hA
      rw [if_neg (by simp), mul_zero]
      symm
      apply Finset.sum_eq_zero
      intro t _
      apply Finset.sum_eq_zero
      intro u _
      rw [ann_ann_self, star_zero, zero_mul]
    · by_cases hB : b = i
      · subst hB
        rw [if_neg (by simp), mul_zero]
        symm
        apply Finset.sum_eq_zero
        intro t _
        apply Finset.sum_eq_zero
        intro u _
        rw [ann_ann_self, mul_zero]
      · have hg : min a i ≠ max a i ∧ min b i ≠ max b i := by omega
        rw [if_pos hg, lowrdmBB, Finset.mul_sum]
        refine Finset.sum_congr rfl fun t ht => ?_
        rw [Finset.mul_sum]
        refine Finset.sum_congr rfl fun u hu => ?_
        have e1 := pind_pairAnnB n nb hnb c ha hi hA t hu
        have e2 := pind_pairAnnB n nb hnb c hb hi hB t hu
        calc (pind a i : K) * pind b i *
            (star (pairAnnB n nb (min a i) (max a i) c t u)
              * pairAnnB n nb (min b i) (max b i) c t u)
            = star ((pind a i : K) * pairAnnB n nb (min a i) (max a i) c t u)
                * ((pind b i : K) * pairAnnB n nb (min b i) (max b i) c t u) := by
              rw [star_mul', star_pind]
              ring
          _ = star (ann n i (ann n a (fun x => c t x)) u)
                * ann n i (ann n b (fun x => c t x)) u := by
              rw [e1, e2]
  rw [Finset.sum_congr rfl step1, show nb - 2 = nb - 1 - 1 from by omega]
  have stepA : ∀ i ∈ Finset.range n,
      (∑ t ∈ dets n na, ∑ u ∈ dets n (nb - 1 - 1),
        star (ann n i (ann n a (fun x => c t x)) u)
          * ann n i (ann n b (fun x => c t x)) u)
      = ∑ t ∈ dets n na, ∑ s ∈ dets n (nb - 1),
          star (ann n a (fun x => c t x) s)
            * cre n i (ann n i (ann n b (fun x => c t x))) s := by
    intro i hi
    rw [Finset.mem_range] at hi
    refine Finset.sum_congr rfl fun t ht => ?_
    exact ann_adjoint n (nb - 1) i hi hnb1 (ann n a (fun x => c t x))
      (ann n i (ann n b (fun x => c t x)))
  rw [Finset.sum_congr rfl stepA, Finset.sum_comm]
  have stepB : ∀ t ∈ dets n na,
      (∑ i ∈ Finset.range n, ∑ s ∈ dets n (nb - 1),
        star (ann n a (fun x => c t x) s)
          * cre n i (ann n i (ann n b (fun x => c t x))) s)
      = ((nb - 1 : ℕ) : K) * ∑ s ∈ dets n (nb - 1),
          star (ann n a (fun x => c t x) s) * ann n b (fun x => c t x) s := by
    intro t ht
    rw [Finset.sum_comm, Finset.mul_sum]
    refine Finset.sum_congr rfl fun s hs => ?_
    rw [← Finset.mul_sum, sum_cre_ann]
    have hocc : occCount n s = nb - 1 := (mem_dets.mp hs).2
    rw [hocc]
    ring
  rw [Finset.sum_congr rfl stepB, ← Finset.mul_sum]
  congr 1
  exact Finset.sum_congr rfl fun t ht =>
    ann_adjoint n nb a ha (by omega : 1 ≤ nb) (fun x => c t x) (ann n b (fun x => c t x))


/-- The 1-RDM as a sum of a row and a column excitation overlap. -/
theorem rdm1_eq_cre_ann (n na nb : ℕ) (c : ℕ → ℕ → K) {a b : ℕ}
    (ha : a < n) (hb : b < n) :
    rdm1 n na nb c a b
      = (∑ sa ∈ dets n na, ∑ sb ∈ dets n nb,
          star (c sa sb) * cre n a (ann n b (fun s => c s sb)) sa)
      + ∑ sa ∈ dets n na, ∑ sb ∈ dets n nb,
          star (c sa sb) * cre n a (ann n b (fun u => c sa u)) sb := by
  rw [rdm1]
  have expand : ∀ t ∈ dets n na,
      (∑ q ∈ dets n nb, star (calculate_dvec_spatial n na nb c b a t q) * c t q)
      = (∑ q ∈ dets n nb, star (exc1 n na b a (fun s => c s q) t) * c t q)
        + ∑ q ∈ dets n nb, star (exc1 n nb b a (fun s => c t s) q) * c t q := by
    intro t ht
    rw [← Finset.sum_add_distrib]
    refine Finset.sum_congr rfl fun q hq => ?_
    simp only [calculate_dvec_spatial, dveca, dvecb]
    rw [star_add, add_mul]
  rw [Finset.sum_congr rfl expand, Finset.sum_add_distrib]
  congr 1
  · rw [Finset.sum_comm]
    have per_q : ∀ q ∈ dets n nb,
        (∑ t ∈ dets n na, star (exc1 n na b a (fun s => c s q) t) * c t q)
        = ∑ s ∈ dets n na, star (c s q) * cre n a (ann n b (fun x => c x q)) s := by
      intro q hq
      rw [exc1_adjoint n na b a (fun s => c s q) (fun t => c t q) hb ha]
      refine Finset.sum_congr rfl fun s hs => ?_
      rw [exc1_apply n na a b ha hb (fun t => c t q) hs]
    rw [Finset.sum_congr rfl per_q]
    exact Finset.sum_comm
  · refine Finset.sum_congr rfl fun t ht => ?_
    rw [exc1_adjoint n nb b a (fun s => c t s) (fun q => c t q) hb ha]
    refine Finset.sum_congr rfl fun s hs => ?_
    rw [exc1_apply n nb a b ha hb (fun q => c t q) hs]


theorem testBit_of_mem_dets_zero {n sa a : ℕ} (ha : a < n) (hsa : sa ∈ dets n 0) :
    sa.testBit a = false := by
  have h0 : occCount n sa = 0 := (mem_dets.mp hsa).2
  rw [occCount, Finset.card_eq_zero] at h0
  by_contra hc
  simp only [Bool.not_eq_false] at hc
  have hmem : a ∈ (Finset.range n).filter (fun i => sa.testBit i) :=
    Finset.mem_filter.mpr ⟨Finset.mem_range.mpr ha, hc⟩
  rw [h0] at hmem
  exact absurd hmem (Finset.not_mem_empty a)

theorem lowfilling_trace_scalar (na nb : ℕ) (R C : K)
    (hR0 : na = 0 → R = 0) (hC0 : nb = 0 → C = 0) :
    -(if 1 ≤ na ∧ 1 ≤ nb then (nb : K) * R + (na : K) * C else 0)
      - ((if 2 ≤ na then ((na - 1 : ℕ) : K) * R else 0)
        + (if 2 ≤ nb then ((nb - 1 : ℕ) : K) * C else 0))
      = -((((na + nb : ℕ) : K) - 1) * (R + C)) := by
  by_cases hgab : 1 ≤ na ∧ 1 ≤ nb
  · have h1a := hgab.1
    have h1b := hgab.2
    rw [if_pos hgab]
    by_cases h2a : 2 ≤ na <;> by_cases h2b : 2 ≤ nb
    · rw [if_pos h2a, if_pos h2b, Nat.cast_sub h1a, Nat.cast_sub h1b, Nat.cast_add]
      push_cast
      ring
    · have hnb1 : nb = 1 := by omega
      subst hnb1
      rw [if_pos h2a, if_neg h2b, Nat.cast_sub h1a, Nat.cast_add, Nat.cast_one]
      ring
    · have hna1 : na = 1 := by omega
      subst hna1
      rw [if_neg h2a, if_pos h2b, Nat.cast_sub h1b, Nat.cast_add, Nat.cast_one]
      ring
    · have hna1 : na = 1 := by omega
      have hnb1 : nb = 1 := by omega
      subst hna1
      subst hnb1
      rw [if_neg h2a, if_neg h2b]
      norm_num
  · rw [if_neg hgab]
    have hor : na = 0 ∨ nb = 0 := by omega
    rcases hor with h0a | h0b
    · subst h0a
      rw [hR0 rfl, if_neg (by omega : ¬ 2 ≤ (0 : ℕ))]
      by_cases h2b : 2 ≤ nb
      · rw [if_pos h2b, Nat.cast_sub (by omega : 1 ≤ nb)]
        push_cast
        ring
      · rw [if_neg h2b]
        have : nb = 0 ∨ nb = 1 := by omega
        rcases this with h | h
        · subst h
          rw [hC0 rfl]
          norm_num
        · subst h
          norm_num
    · subst h0b
      rw [hC0 rfl]
      by_cases h2a : 2 ≤ na
      · rw [if_pos h2a, if_neg (by omega : ¬ 2 ≤ (0 : ℕ)), Nat.cast_sub (by omega : 1 ≤ na)]
        push_cast
        ring
      · rw [if_neg h2a, if_neg (by omega : ¬ 2 ≤ (0 : ℕ))]
        have : na = 0 ∨ na = 1 := by omega
        rcases this with h | h
        · subst h
          rw [hR0 rfl]
          norm_num
        · subst h
          norm_num


/-- Low-filling 2-RDM: tracing the second against the fourth index gives
minus `(N - 1)` times the 1-RDM. -/
theorem rdm2_lowfilling_trace [CharZero K] (n na nb : ℕ) (c : ℕ → ℕ → K) {a b : ℕ}
    (ha : a < n) (hb : b < n) :
    ∑ i ∈ Finset.range n, rdm2_lowfilling n na nb c a i b i
      = -((((na + nb : ℕ) : K) - 1) * rdm1 n na nb c a b) := by
  have point : ∀ i ∈ Finset.range n, rdm2_lowfilling n na nb c a i b i
      = -(if 1 ≤ na ∧ 1 ≤ nb then
            lowrdmAB n na nb c a i b i + lowrdmAB n na nb c i a i b else 0)
        - ((if 2 ≤ na then (pind a i : K) * pind b i *
              (if min a i ≠ max a i ∧ min b i ≠ max b i then
                lowrdmAA n na nb c (min a i) (max a i) (min b i) (max b i) else 0) else 0)
          + (if 2 ≤ nb then (pind a i : K) * pind b i *
              (if min a i ≠ max a i ∧ min b i ≠ max b i then
                lowrdmBB n na nb c (min a i) (max a i) (min b i) (max b i) else 0) else 0)) := by
    intro i _
    rw [rdm2_lowfilling]
    split_ifs <;> ring
  rw [Finset.sum_congr rfl point, Finset.sum_sub_distrib, Finset.sum_add_distrib]
  have part1 : (∑ i ∈ Finset.range n,
      -(if 1 ≤ na ∧ 1 ≤ nb then
          lowrdmAB n na nb c a i b i + lowrdmAB n na nb c i a i b else 0))
      = -(if 1 ≤ na ∧ 1 ≤ nb then
          (nb : K) * (∑ sa ∈ dets n na, ∑ sb ∈ dets n nb,
            star (c sa sb) * cre n a (ann n b (fun s => c s sb)) sa)
          + (na : K) * ∑ sa ∈ dets n na, ∑ sb ∈ dets n nb,
            star (c sa sb) * cre n a (ann n b (fun u => c sa u)) sb else 0) := by
    by_cases hgab : 1 ≤ na ∧ 1 ≤ nb
    · simp only [if_pos hgab]
      rw [Finset.sum_neg_distrib, Finset.sum_add_distrib,
        lowrdmAB_trace_col n na nb c ha hb hgab.1 hgab.2,
        lowrdmAB_trace_row n na nb c ha hb hgab.1 hgab.2]
    · simp only [if_neg hgab, neg_zero, Finset.sum_const_zero]
  have part2a : (∑ i ∈ Finset.range n,
      (if 2 ≤ na then (pind a i : K) * pind b i *
        (if min a i ≠ max a i ∧ min b i ≠ max b i then
          lowrdmAA n na nb c (min a i) (max a i) (min b i) (max b i) else 0) else 0))
      = (if 2 ≤ na then ((na - 1 : ℕ) : K) *
          ∑ sa ∈ dets n na, ∑ sb ∈ dets n nb,
            star (c sa sb) * cre n a (ann n b (fun s => c s sb)) sa else 0) := by
    by_cases h2a : 2 ≤ na
    · simp only [if_pos h2a]
      exact lowrdmAA_trace n na nb c ha hb h2a
    · simp only [if_neg h2a, Finset.sum_const_zero]
  have part2b : (∑ i ∈ Finset.range n,
      (if 2 ≤ nb then (pind a i : K) * pind b i *
        (if min a i ≠ max a i ∧ min b i ≠ max b i then
          lowrdmBB n na nb c (min a i) (max a i) (min b i) (max b i) else 0) else 0))
      = (if 2 ≤ nb then ((nb - 1 : ℕ) : K) *
          ∑ sa ∈ dets n na, ∑ sb ∈ dets n nb,
            star (c sa sb) * cre n a (ann n b (fun u => c sa u)) sb else 0) := by
    by_cases h2b : 2 ≤ nb
    · simp only [if_pos h2b]
      exact lowrdmBB_trace n na nb c ha hb h2b
    · simp only [if_neg h2b, Finset.sum_const_zero]
  rw [part1, part2a, part2b, rdm1_eq_cre_ann n na nb c ha hb]
  apply lowfilling_trace_scalar
  · intro h0
    subst h0
    apply Finset.sum_eq_zero
    intro sa hsa
    apply Finset.sum_eq_zero
    intro sb _
    rw [cre, if_neg (by rw [testBit_of_mem_dets_zero ha hsa]; exact Bool.false_ne_true),
      mul_zero]
  · intro h0
    subst h0
    apply Finset.sum_eq_zero
    intro sa _
    apply Finset.sum_eq_zero
    intro sb hsb
    rw [cre, if_neg (by rw [testBit_of_mem_dets_zero ha hsb]; exact Bool.false_ne_true),
      mul_zero]


/-- C5: the coincident-index contraction of the 2-RDM returned by
`rdm12` equals minus `(nalpha + nbeta)` times the returned 1-RDM plus a
correction entry of the returned 1-RDM that depends on the strategy: the
low-filling path contributes the entry `(a, b)` (giving the clean
`-(N - 1)` identity), while the executed half-filling path contributes
the transposed entry `(b, a)` — its correction loop adds the
pre-transpose 1-RDM accumulator, unlike the reference implementation
kept in the source comments. -/
theorem claim_C5 (n na nb : ℕ) (c : ℕ → ℕ → ℂ) {a b : ℕ}
    (ha : a < n) (hb : b < n) :
    ∑ i ∈ Finset.range n, (rdm12 n na nb c).2 a i b i
      = -(((na + nb : ℕ) : ℂ) * (rdm12 n na nb c).1 a b)
        + (if (na : ℚ) < n * low_thresh ∧ (nb : ℚ) < n * low_thresh
            then (rdm12 n na nb c).1 a b else (rdm12 n na nb c).1 b a) := by
  rw [rdm12]
  by_cases hd : (na : ℚ) < n * low_thresh ∧ (nb : ℚ) < n * low_thresh
  · rw [if_pos hd, if_pos hd]
    dsimp only
    rw [rdm2_lowfilling_trace n na nb c ha hb]
    ring
  · rw [if_neg hd, if_neg hd]
    dsimp only
    exact rdm2_halffilling_trace n na nb c hb

theorem claim_C5_witness :
    ((0 < 1 ∧ 0 < 1) ∧
      ∑ i ∈ Finset.range 1, (rdm12 1 1 0 (fun _ _ => (1 : ℂ))).2 0 i 0 i
        = -(((1 + 0 : ℕ) : ℂ) * (rdm12 1 1 0 (fun _ _ => (1 : ℂ))).1 0 0)
          + (if ((1 : ℕ) : ℚ) < (1 : ℕ) * low_thresh
                ∧ ((0 : ℕ) : ℚ) < (1 : ℕ) * low_thresh
              then (rdm12 1 1 0 (fun _ _ => (1 : ℂ))).1 0 0
              else (rdm12 1 1 0 (fun _ _ => (1 : ℂ))).1 0 0)) :=
  ⟨⟨Nat.zero_lt_one, Nat.zero_lt_one⟩,
    claim_C5 1 1 0 (fun _ _ => (1 : ℂ)) Nat.zero_lt_one Nat.zero_lt_one⟩

theorem claim_C5_counterexample :
    ¬ (∑ i ∈ Finset.range 2,
          (rdm12 2 1 0 (fun s _ => if s = 1 then (1 : ℂ) else Complex.I)).2 0 i 1 i
        = -((((1 + 0 : ℕ) : ℂ) - 1) *
            (rdm12 2 1 0 (fun s _ => if s = 1 then (1 : ℂ) else Complex.I)).1 0 1)) := by
  intro heq
  have hdisp : rdm12 2 1 0 (fun s _ => if s = 1 then (1 : ℂ) else Complex.I)
      = (rdm1 2 1 0 (fun s _ => if s = 1 then (1 : ℂ) else Complex.I),
         rdm2_halffilling 2 1 0 (fun s _ => if s = 1 then (1 : ℂ) else Complex.I)) := by
    rw [rdm12, if_neg (by norm_num [low_thresh])]
  rw [hdisp] at heq
  dsimp only at heq
  have htr := @rdm2_halffilling_trace ℂ _ _ 2 1 0
    (fun s _ => if s = 1 then (1 : ℂ) else Complex.I) 0 1 (by omega)
  rw [htr] at heq
  have h01 : rdm1 2 1 0 (fun s _ => if s = 1 then (1 : ℂ) else Complex.I) 0 1
      = Complex.I := by
    rw [rdm1, show dets 2 1 = {1, 2} from by decide, show dets 2 0 = {0} from by decide]
    simp [calculate_dvec_spatial, dveca, dvecb, exc1,
      show dets 2 1 = {1, 2} from by decide, show dets 2 0 = {0} from by decide,
      show excOk 1 0 1 from by decide, show ¬ excOk 1 0 2 from by decide,
      show ¬ excOk 1 0 0 from by decide, show excTgt 1 0 1 = 2 from by decide,
      show (excSign 2 1 0 1 : ℂ) = 1 from by
        rw [excSign, show excPar 2 1 0 1 = 0 from by decide, pow_zero]]
  have h10 : rdm1 2 1 0 (fun s _ => if s = 1 then (1 : ℂ) else Complex.I) 1 0
      = -Complex.I := by
    rw [rdm1, show dets 2 1 = {1, 2} from by decide, show dets 2 0 = {0} from by decide]
    simp [calculate_dvec_spatial, dveca, dvecb, exc1,
      show dets 2 1 = {1, 2} from by decide, show dets 2 0 = {0} from by decide,
      show excOk 0 1 2 from by decide, show ¬ excOk 0 1 1 from by decide,
      show ¬ excOk 0 1 0 from by decide, show excTgt 0 1 2 = 1 from by decide,
      show (excSign 2 0 1 2 : ℂ) = 1 from by
        rw [excSign, show excPar 2 0 1 2 = 0 from by decide, pow_zero]]
  rw [h01, h10] at heq
  simp [Complex.ext_iff] at heq


/-- C3: the 2-body apply and `rdm12` take the low-filling path exactly
when both occupations are strictly below `0.3` of the orbital count,
and the half-filling path otherwise. -/
theorem claim_C3 (n na nb : ℕ) (h1e : ℕ → ℕ → ℂ) (h2e : ℕ → ℕ → ℕ → ℕ → ℂ)
    (c : ℕ → ℕ → ℂ) :
    (apply_array_spatial12 n na nb h1e h2e c
      = if (na : ℚ) < (3 / 10) * n ∧ (nb : ℚ) < (3 / 10) * n
        then apply_array_spatial12_lowfilling n na nb h1e h2e c
        else apply_array_spatial12_halffilling n na nb h1e h2e c)
    ∧ rdm12 n na nb c
      = if (na : ℚ) < (3 / 10) * n ∧ (nb : ℚ) < (3 / 10) * n
        then (rdm1 n na nb c, rdm2_lowfilling n na nb c)
        else (rdm1 n na nb c, rdm2_halffilling n na nb c) := by
  have hcond : ((na : ℚ) < n * low_thresh ∧ (nb : ℚ) < n * low_thresh)
      ↔ ((na : ℚ) < (3 / 10) * n ∧ (nb : ℚ) < (3 / 10) * n) := by
    rw [low_thresh, mul_comm]
  rw [apply_array_spatial12, rdm12, if_congr hcond rfl rfl, if_congr hcond rfl rfl]
  exact ⟨rfl, rfl⟩


theorem cre_zero_fun (n i y : ℕ) : cre n i (fun _ => (0 : K)) y = 0 := by
  simp [cre]

/-- Summing the same-species excitation `E_ij` applied twice over all
orbital pairs collapses to the number operator: off-diagonal pairs
vanish by anticommutation, diagonal pairs are idempotent projections. -/
theorem sum_fold_samespin (n : ℕ) (v : ℕ → K) (t : ℕ) :
    ∑ i ∈ Finset.range n, ∑ j ∈ Finset.range n,
      cre n i (ann n j (fun x => cre n i (ann n j v) x)) t
      = (occCount n t : K) * v t := by
  have hstep : ∀ i ∈ Finset.range n,
      (∑ j ∈ Finset.range n, cre n i (ann n j (fun x => cre n i (ann n j v) x)) t)
      = cre n i (ann n i v) t := by
    intro i hi
    rw [Finset.mem_range] at hi
    refine (Finset.sum_eq_single i ?_ ?_).trans ?_
    · intro j hj hji
      rw [Finset.mem_range] at hj
      have hzero : ∀ y, ann n j (fun x => cre n i (ann n j v) x) y = 0 := by
        intro y
        rw [ann_cre_comm hj hi hji (ann n j v) y]
        have hin : (fun x => ann n j (ann n j v) x) = fun _ => (0 : K) :=
          funext fun x => ann_ann_self n j v x
        rw [show ann n j (ann n j v) = fun _ => (0 : K) from hin, cre_zero_fun, neg_zero]
      rw [show (ann n j (fun x => cre n i (ann n j v) x)) = fun _ => (0 : K) from
        funext hzero, cre_zero_fun]
    · intro hnot
      exact absurd (Finset.mem_range.mpr hi) hnot
    · rw [cre_ann_self]
      by_cases h : t.testBit i = true
      · rw [if_pos h]
      · rw [if_neg h, cre_ann_self, if_neg h]
  rw [Finset.sum_congr rfl hstep, sum_cre_ann]


/-- C6: the D-vector round trip does not reproduce the coefficients:
folding the D-vector back through
`FqeData._calculate_coeff_spatial_with_dvec` applies every excitation
`E_ij` twice, which collapses to `(nalpha + nbeta)` copies of the
original coefficients plus two species-crossing overlap terms (the
claimed exact reproduction fails, see the counterexample). -/
theorem claim_C6 (n na nb : ℕ) (c : ℕ → ℕ → ℂ) {p q : ℕ}
    (hp : p ∈ dets n na) (hq : q ∈ dets n nb) :
    calculate_coeff_spatial_with_dvec n (calculate_dvec_spatial n na nb c) p q
      = ((na + nb : ℕ) : ℂ) * c p q
        + ((∑ i ∈ Finset.range n, ∑ j ∈ Finset.range n,
            cre n i (ann n j (fun x => exc1 n nb i j (fun y => c x y) q)) p)
          + ∑ i ∈ Finset.range n, ∑ j ∈ Finset.range n,
            cre n i (ann n j (fun y => exc1 n na i j (fun x => c x y) p)) q) := by
  simp only [calculate_coeff_spatial_with_dvec, calculate_dvec_spatial, dveca, dvecb]
  have per : ∀ i ∈ Finset.range n, ∀ j ∈ Finset.range n,
      ((if excOk j i p then excSign n j i p *
          (exc1 n na i j (fun s => c s q) (excTgt j i p)
            + exc1 n nb i j (fun s => c (excTgt j i p) s) q) else 0)
        + (if excOk j i q then excSign n j i q *
          (exc1 n na i j (fun s => c s (excTgt j i q)) p
            + exc1 n nb i j (fun s => c p s) (excTgt j i q)) else 0))
      = ((cre n i (ann n j (fun x => cre n i (ann n j (fun s => c s q)) x)) p
          + cre n i (ann n j (fun x => exc1 n nb i j (fun y => c x y) q)) p)
        + (cre n i (ann n j (fun y => exc1 n na i j (fun x => c x y) p)) q
          + cre n i (ann n j (fun y => cre n i (ann n j (fun s => c p s)) y)) q)) := by
    intro i hi j hj
    rw [Finset.mem_range] at hi hj
    have split1 : (if excOk j i p then excSign n j i p *
        (exc1 n na i j (fun s => c s q) (excTgt j i p)
          + exc1 n nb i j (fun s => c (excTgt j i p) s) q) else 0)
        = (if excOk j i p then excSign n j i p
            * exc1 n na i j (fun s => c s q) (excTgt j i p) else 0)
          + (if excOk j i p then excSign n j i p
            * exc1 n nb i j (fun s => c (excTgt j i p) s) q else 0) := by
      by_cases hok : excOk j i p
      · rw [if_pos hok, if_pos hok, if_pos hok, mul_add]
      · rw [if_neg hok, if_neg hok, if_neg hok, add_zero]
    have split2 : (if excOk j i q then excSign n j i q *
        (exc1 n na i j (fun s => c s (excTgt j i q)) p
          + exc1 n nb i j (fun s => c p s) (excTgt j i q)) else 0)
        = (if excOk j i q then excSign n j i q
            * exc1 n na i j (fun s => c s (excTgt j i q)) p else 0)
          + (if excOk j i q then excSign n j i q
            * exc1 n nb i j (fun s => c p s) (excTgt j i q) else 0) := by
      by_cases hok : excOk j i q
      · rw [if_pos hok, if_pos hok, if_pos hok, mul_add]
      · rw [if_neg hok, if_neg hok, if_neg hok, add_zero]
    have hA : (if excOk j i p then excSign n j i p
        * exc1 n na i j (fun s => c s q) (excTgt j i p) else 0)
        = cre n i (ann n j (fun x => cre n i (ann n j (fun s => c s q)) x)) p := by
      have hcongr : (if excOk j i p then excSign n j i p
          * exc1 n na i j (fun s => c s q) (excTgt j i p) else 0)
          = (if excOk j i p then excSign n j i p
            * (fun x => cre n i (ann n j (fun s => c s q)) x) (excTgt j i p) else 0) := by
        by_cases hok : excOk j i p
        · rw [if_pos hok, if_pos hok,
            exc1_apply n na i j hi hj (fun s => c s q) (excTgt_mem_dets hj hi hp hok)]
        · rw [if_neg hok, if_neg hok]
      exact hcongr.trans
        (fold_term_eq n i j (fun x => cre n i (ann n j (fun s => c s q)) x) p)
    have hB : (if excOk j i p then excSign n j i p
        * exc1 n nb i j (fun s => c (excTgt j i p) s) q else 0)
        = cre n i (ann n j (fun x => exc1 n nb i j (fun y => c x y) q)) p :=
      fold_term_eq n i j (fun x => exc1 n nb i j (fun y => c x y) q) p
    have hC : (if excOk j i q then excSign n j i q
        * exc1 n na i j (fun s => c s (excTgt j i q)) p else 0)
        = cre n i (ann n j (fun y => exc1 n na i j (fun x => c x y) p)) q :=
      fold_term_eq n i j (fun y => exc1 n na i j (fun x => c x y) p) q
    have hD : (if excOk j i q then excSign n j i q
        * exc1 n nb i j (fun s => c p s) (excTgt j i q) else 0)
        = cre n i (ann n j (fun y => cre n i (ann n j (fun s => c p s)) y)) q := by
      have hcongr : (if excOk j i q then excSign n j i q
          * exc1 n nb i j (fun s => c p s) (excTgt j i q) else 0)
          = (if excOk j i q then excSign n j i q
            * (fun y => cre n i (ann n j (fun s => c p s)) y) (excTgt j i q) else 0) := by
        by_cases hok : excOk j i q
        · rw [if_pos hok, if_pos hok,
            exc1_apply n nb i j hi hj (fun s => c p s) (excTgt_mem_dets hj hi hq hok)]
        · rw [if_neg hok, if_neg hok]
      exact hcongr.trans
        (fold_term_eq n i j (fun y => cre n i (ann n j (fun s => c p s)) y) q)
    rw [split1, split2, hA, hB, hC, hD]
  rw [Finset.sum_congr rfl fun i hi => Finset.sum_congr rfl fun j hj => per i hi j hj]
  simp only [Finset.sum_add_distrib]
  have hAval : (∑ i ∈ Finset.range n, ∑ j ∈ Finset.range n,
      cre n i (ann n j (fun x => cre n i (ann n j (fun s => c s q)) x)) p)
      = (na : ℂ) * c p q := by
    rw [sum_fold_samespin n (fun s => c s q) p, (mem_dets.mp hp).2]
  have hDval : (∑ i ∈ Finset.range n, ∑ j ∈ Finset.range n,
      cre n i (ann n j (fun y => cre n i (ann n j (fun s => c p s)) y)) q)
      = (nb : ℂ) * c p q := by
    rw [sum_fold_samespin n (fun s => c p s) q, (mem_dets.mp hq).2]
  rw [hAval, hDval]
  push_cast
  ring


theorem claim_C6_witness :
    ((1 ∈ dets 1 1 ∧ 0 ∈ dets 1 0) ∧
      calculate_coeff_spatial_with_dvec 1
          (calculate_dvec_spatial 1 1 0 (fun _ _ => (1 : ℂ))) 1 0
        = ((1 + 0 : ℕ) : ℂ) * 1
          + ((∑ i ∈ Finset.range 1, ∑ j ∈ Finset.range 1,
              cre 1 i (ann 1 j (fun x => exc1 1 0 i j (fun _ => (1 : ℂ)) 0)) 1)
            + ∑ i ∈ Finset.range 1, ∑ j ∈ Finset.range 1,
              cre 1 i (ann 1 j (fun y => exc1 1 1 i j (fun _ => (1 : ℂ)) 1)) 0)) :=
  ⟨⟨by decide, by decide⟩, claim_C6 1 1 0 (fun _ _ => (1 : ℂ)) (by decide) (by decide)⟩

theorem claim_C6_counterexample :
    ¬ (calculate_coeff_spatial_with_dvec 1
        (calculate_dvec_spatial 1 1 1 (fun _ _ => (1 : ℂ))) 1 1 = 1) := by
  have hok : excOk 0 0 1 := ⟨by decide, Or.inl rfl⟩
  have hsgn : excSign 1 0 0 1 = (1 : ℂ) := by
    rw [excSign, show excPar 1 0 0 1 = 0 from by decide, pow_zero]
  have hd : calculate_dvec_spatial 1 1 1 (fun _ _ => (1 : ℂ)) 0 0 1 1 = 2 := by
    simp only [calculate_dvec_spatial, dveca, dvecb, exc1]
    rw [show dets 1 1 = {1} from by decide, Finset.sum_singleton,
      if_pos ⟨hok, show excTgt 0 0 1 = 1 from by decide⟩, hsgn]
    norm_num
  intro h
  simp only [calculate_coeff_spatial_with_dvec] at h
  rw [Finset.sum_range_one, Finset.sum_range_one, if_pos hok,
    show excTgt 0 0 1 = 1 from by decide, if_pos hok, hd, hsgn] at h
  norm_num at h


/-! ### Sector metadata, hashing and copying

`FqeData.__hash__` hashes the pair `(nele, m_s)`; `ax_plus_y` asserts
only `hash(self) == hash(other)`.  `__copy__` and `__deepcopy__` pass
the `FciGraph` core by reference and copy the coefficient array into a
fresh buffer.  Python object identity is modelled by reference indices
into a store of coefficient buffers. -/

/-- A Sector State's metadata and coefficients, as the constructor
arguments of `FqeData` (`nalpha`, `nbeta`, orbital count, coefficient
array). -/
structure FqeDataS (K : Type) where
  norb : ℕ
  nalpha : ℕ
  nbeta : ℕ
  coeff : ℕ → ℕ → K

/-- The total electron count `self._nele = nalpha + nbeta`. -/
def fqe_nele (d : FqeDataS K) : ℕ := d.nalpha + d.nbeta

/-- The spin projection `self._m_s = nalpha - nbeta` (an integer). -/
def fqe_m_s (d : FqeDataS K) : ℤ := (d.nalpha : ℤ) - d.nbeta

/-- The hash key of `FqeData.__hash__`: the pair `(nele, m_s)` (the
Python `hash` of the tuple is modelled by the tuple itself). -/
def fqe_hash (d : FqeDataS K) : ℕ × ℤ := (fqe_nele d, fqe_m_s d)

/-- The compatibility precondition asserted by `FqeData.ax_plus_y`:
equality of the two states' hash values. -/
def ax_plus_y_ok (d1 d2 : FqeDataS K) : Prop := fqe_hash d1 = fqe_hash d2

/-- The update performed by `FqeData.ax_plus_y`:
`self.coeff += sval * from_data.coeff`. -/
def ax_plus_y (sval : K) (d1 d2 : FqeDataS K) : FqeDataS K :=
  { d1 with coeff := fun p q => d1.coeff p q + sval * d2.coeff p q }

/-- C9: the `ax_plus_y` precondition compares only the hash of
`(nele, m_s)`: it passes for any two states with equal electron count
and spin projection, and in particular does not check the orbital
count (hence not the coefficient-array shape). -/
theorem claim_C9 :
    (∀ d1 d2 : FqeDataS ℂ, fqe_nele d1 = fqe_nele d2 → fqe_m_s d1 = fqe_m_s d2 →
      ax_plus_y_ok d1 d2)
    ∧ ∃ d1 d2 : FqeDataS ℂ, ax_plus_y_ok d1 d2 ∧ d1.norb ≠ d2.norb := by
  constructor
  · intro d1 d2 h1 h2
    rw [ax_plus_y_ok, fqe_hash, fqe_hash, h1, h2]
  · refine ⟨⟨1, 0, 0, fun _ _ => 0⟩, ⟨2, 0, 0, fun _ _ => 0⟩, rfl, ?_⟩
    decide

theorem claim_C9_witness :
    ax_plus_y_ok (⟨3, 1, 1, fun _ _ => 0⟩ : FqeDataS ℂ) ⟨5, 1, 1, fun _ _ => 0⟩ :=
  claim_C9.1 ⟨3, 1, 1, fun _ _ => 0⟩ ⟨5, 1, 1, fun _ _ => 0⟩ rfl rfl

/-- A store of coefficient buffers: allocation counter and buffer
contents (buffers at indices below `next` are live). -/
structure Store (K : Type) where
  next : ℕ
  coeffs : ℕ → (ℕ → ℕ → K)

/-- A Sector State held by reference: the shared `FciGraph` core as a
reference, and the coefficient buffer as a store index. -/
structure FqeDataRef where
  graphRef : ℕ
  coeffRef : ℕ

/-- `FqeData.__copy__` and `FqeData.__deepcopy__`: construct a new
state passing `self._core` (the Index Graph) by reference, and copy the
coefficient values into a freshly allocated buffer
(`new_data.coeff[:, :] = self.coeff[:, :]`). -/
def copy_fqe (st : Store K) (d : FqeDataRef) : Store K × FqeDataRef :=
  (⟨st.next + 1,
    fun r => if r = st.next then st.coeffs d.coeffRef else st.coeffs r⟩,
   ⟨d.graphRef, st.next⟩)

/-- In-place overwrite of a state's coefficient buffer. -/
def set_coeff (st : Store K) (d : FqeDataRef) (c : ℕ → ℕ → K) : Store K :=
  ⟨st.next, fun r => if r = d.coeffRef then c else st.coeffs r⟩

/-- C10: copying a Sector State shares the Index Graph by reference but
allocates an independent coefficient buffer holding the same values;
overwriting the copy's coefficients afterwards leaves the original's
coefficients unchanged. -/
theorem claim_C10 (st : Store ℂ) (d : FqeDataRef) (hd : d.coeffRef < st.next) :
    ((copy_fqe st d).2.graphRef = d.graphRef
      ∧ (copy_fqe st d).2.coeffRef ≠ d.coeffRef)
    ∧ ((copy_fqe st d).1.coeffs (copy_fqe st d).2.coeffRef = st.coeffs d.coeffRef
      ∧ ∀ c : ℕ → ℕ → ℂ,
          (set_coeff (copy_fqe st d).1 (copy_fqe st d).2 c).coeffs d.coeffRef
            = st.coeffs d.coeffRef) := by
  refine ⟨⟨rfl, ?_⟩, ?_, ?_⟩
  · intro h
    simp only [copy_fqe] at h
    omega
  · simp [copy_fqe]
  · intro c
    simp only [copy_fqe, set_coeff]
    rw [if_neg (by omega), if_neg (by omega)]

theorem claim_C10_witness :
    (0 : ℕ) < 1 ∧
    (((copy_fqe (⟨1, fun _ => fun _ _ => 0⟩ : Store ℂ) ⟨0, 0⟩).2.graphRef = 0
        ∧ (copy_fqe (⟨1, fun _ => fun _ _ => 0⟩ : Store ℂ) ⟨0, 0⟩).2.coeffRef ≠ 0)
      ∧ ((copy_fqe (⟨1, fun _ => fun _ _ => 0⟩ : Store ℂ) ⟨0, 0⟩).1.coeffs
            (copy_fqe (⟨1, fun _ => fun _ _ => 0⟩ : Store ℂ) ⟨0, 0⟩).2.coeffRef
          = (⟨1, fun _ => fun _ _ => 0⟩ : Store ℂ).coeffs 0
        ∧ ∀ c : ℕ → ℕ → ℂ,
            (set_coeff (copy_fqe (⟨1, fun _ => fun _ _ => 0⟩ : Store ℂ) ⟨0, 0⟩).1
                (copy_fqe (⟨1, fun _ => fun _ _ => 0⟩ : Store ℂ) ⟨0, 0⟩).2 c).coeffs 0
              = (⟨1, fun _ => fun _ _ => 0⟩ : Store ℂ).coeffs 0)) :=
  ⟨Nat.zero_lt_one, claim_C10 ⟨1, fun _ => fun _ _ => 0⟩ ⟨0, 0⟩ Nat.zero_lt_one⟩


/-! ### In-place application and its failure modes, `FqeData.apply_inplace`

The operator tuple is a list of square dense tensors (a `k`-body tensor
is carried with its axis length, standing for the numpy `shape`
`(dim,) * 2k`).  `apply_inplace` asserts `5 > len(array) > 0`, reads
`spatial = array[0].shape[0] == norb` and dispatches; each dispatched
routine asserts the tensor shapes it checks at entry (`_apply_array_spatial1`
checks `(norb, norb)`; the 12 routines check both tensors; the 123 and
1234 routines assert only the highest-body tensor) and returns a fully
assembled output array, which `apply_inplace` then assigns to
`self.coeff` in a single store.  The five dense kernels not embedded
elsewhere in this development (`spin12`, both `123`s, both `1234`s) are
abstracted as function parameters; the checking and assignment
structure does not depend on them. -/

inductive ApplyOp (K : Type) where
  | op1 : ℕ → (ℕ → ℕ → K) → ApplyOp K
  | op2 : ℕ → (ℕ → ℕ → ℕ → ℕ → K) → ApplyOp K
  | op3 : ℕ → (ℕ → ℕ → ℕ → ℕ → ℕ → ℕ → K) → ApplyOp K
  | op4 : ℕ → (ℕ → ℕ → ℕ → ℕ → ℕ → ℕ → ℕ → ℕ → K) → ApplyOp K

/-- `array[k].shape[0]`: the axis length of a stored square tensor. -/
def ApplyOp.dim0 : ApplyOp K → ℕ
  | .op1 d _ => d
  | .op2 d _ => d
  | .op3 d _ => d
  | .op4 d _ => d

section ApplyInplace

variable [DecidableEq K]

/-- `FqeData.apply_inplace`: the length assert, the spatial/spin-orbital
dispatch on `array[0].shape[0] == norb`, the entry shape asserts of the
dispatched routines, and the computation of the fully assembled new
coefficient array.  A failed assert is the `Except.error` case. -/
def apply_inplace (n na nb : ℕ)
    (spin12K : (ℕ → ℕ → K) → (ℕ → ℕ → ℕ → ℕ → K) → (ℕ → ℕ → K) → ℕ → ℕ → K)
    (spatial123K spin123K :
      ApplyOp K → ApplyOp K → (ℕ → ℕ → ℕ → ℕ → ℕ → ℕ → K) → (ℕ → ℕ → K) → ℕ → ℕ → K)
    (spatial1234K spin1234K :
      ApplyOp K → ApplyOp K → ApplyOp K
        → (ℕ → ℕ → ℕ → ℕ → ℕ → ℕ → ℕ → ℕ → K) → (ℕ → ℕ → K) → ℕ → ℕ → K)
    (arr : List (ApplyOp K)) (c : ℕ → ℕ → K) : Except Unit (ℕ → ℕ → K) :=
  if 0 < arr.length ∧ arr.length < 5 then
    match arr with
    | [t0] =>
      if t0.dim0 = n then
        match t0 with
        | .op1 d v => if d = n then .ok (apply_array_spatial1 n na nb v c) else .error ()
        | _ => .error ()
      else
        match t0 with
        | .op1 d v => if d = 2 * n then .ok (apply_array_spin1 n na nb v c) else .error ()
        | _ => .error ()
    | [t0, t1] =>
      if t0.dim0 = n then
        match t0, t1 with
        | .op1 d1 v1, .op2 d2 v2 =>
          if d1 = n ∧ d2 = n
            then .ok (apply_array_spatial12 n na nb v1 v2 c) else .error ()
        | _, _ => .error ()
      else
        match t0, t1 with
        | .op1 d1 v1, .op2 d2 v2 =>
          if d1 = 2 * n ∧ d2 = 2 * n then .ok (spin12K v1 v2 c) else .error ()
        | _, _ => .error ()
    | [t0, t1, t2] =>
      if t0.dim0 = n then
        match t2 with
        | .op3 d3 v3 => if d3 = n then .ok (spatial123K t0 t1 v3 c) else .error ()
        | _ => .error ()
      else
        match t2 with
        | .op3 d3 v3 => if d3 = 2 * n then .ok (spin123K t0 t1 v3 c) else .error ()
        | _ => .error ()
    | [t0, t1, t2, t3] =>
      if t0.dim0 = n then
        match t3 with
        | .op4 d4 v4 => if d4 = n then .ok (spatial1234K t0 t1 t2 v4 c) else .error ()
        | _ => .error ()
      else
        match t3 with
        | .op4 d4 v4 => if d4 = 2 * n then .ok (spin1234K t0 t1 t2 v4 c) else .error ()
        | _ => .error ()
    | _ => .error ()
  else .error ()

/-- The coefficient attribute after `apply_inplace`: a raised assert
propagates before the assignment `self.coeff = ...` executes, so the
attribute holds either the old array or the fully assembled new one. -/
def apply_inplace_state (n na nb : ℕ)
    (spin12K : (ℕ → ℕ → K) → (ℕ → ℕ → ℕ → ℕ → K) → (ℕ → ℕ → K) → ℕ → ℕ → K)
    (spatial123K spin123K :
      ApplyOp K → ApplyOp K → (ℕ → ℕ → ℕ → ℕ → ℕ → ℕ → K) → (ℕ → ℕ → K) → ℕ → ℕ → K)
    (spatial1234K spin1234K :
      ApplyOp K → ApplyOp K → ApplyOp K
        → (ℕ → ℕ → ℕ → ℕ → ℕ → ℕ → ℕ → ℕ → K) → (ℕ → ℕ → K) → ℕ → ℕ → K)
    (arr : List (ApplyOp K)) (c : ℕ → ℕ → K) : ℕ → ℕ → K :=
  match apply_inplace n na nb spin12K spatial123K spin123K spatial1234K spin1234K arr c with
  | .error _ => c
  | .ok cnew => cnew

end ApplyInplace

/-- C8: `apply_inplace` is atomic: an operator tuple of unsupported
length is rejected, a tensor failing its dispatched shape assert is
rejected (shown for the 1-body tensor against both conventions), every
rejection leaves the coefficient attribute unchanged, and on success
the attribute is exactly the fully assembled new array. -/
theorem claim_C8 (n na nb : ℕ)
    (k12 : (ℕ → ℕ → ℂ) → (ℕ → ℕ → ℕ → ℕ → ℂ) → (ℕ → ℕ → ℂ) → ℕ → ℕ → ℂ)
    (k123a k123b :
      ApplyOp ℂ → ApplyOp ℂ → (ℕ → ℕ → ℕ → ℕ → ℕ → ℕ → ℂ) → (ℕ → ℕ → ℂ) → ℕ → ℕ → ℂ)
    (k1234a k1234b :
      ApplyOp ℂ → ApplyOp ℂ → ApplyOp ℂ
        → (ℕ → ℕ → ℕ → ℕ → ℕ → ℕ → ℕ → ℕ → ℂ) → (ℕ → ℕ → ℂ) → ℕ → ℕ → ℂ)
    (arr : List (ApplyOp ℂ)) (c : ℕ → ℕ → ℂ) :
    (¬ (0 < arr.length ∧ arr.length < 5) →
      apply_inplace n na nb k12 k123a k123b k1234a k1234b arr c = Except.error ())
    ∧ (∀ (d : ℕ) (v : ℕ → ℕ → ℂ), d ≠ n → d ≠ 2 * n →
      apply_inplace n na nb k12 k123a k123b k1234a k1234b [ApplyOp.op1 d v] c
        = Except.error ())
    ∧ (apply_inplace n na nb k12 k123a k123b k1234a k1234b arr c = Except.error () →
      apply_inplace_state n na nb k12 k123a k123b k1234a k1234b arr c = c)
    ∧ (∀ cnew, apply_inplace n na nb k12 k123a k123b k1234a k1234b arr c = Except.ok cnew →
      apply_inplace_state n na nb k12 k123a k123b k1234a k1234b arr c = cnew) := by
  refine ⟨?_, ?_, ?_, ?_⟩
  · intro h
    simp only [apply_inplace, if_neg h]
  · intro d v hd hd2
    simp [apply_inplace, ApplyOp.dim0, hd, hd2]
  · intro herr
    simp only [apply_inplace_state, herr]
  · intro cnew hok
    simp only [apply_inplace_state, hok]

theorem claim_C8_witness :
    apply_inplace 1 1 0 (fun _ _ c => c) (fun _ _ _ c => c) (fun _ _ _ c => c)
        (fun _ _ _ _ c => c) (fun _ _ _ _ c => c) ([] : List (ApplyOp ℂ)) (fun _ _ => 0)
      = Except.error () :=
  (claim_C8 1 1 0 (fun _ _ c => c) (fun _ _ _ c => c) (fun _ _ _ c => c)
    (fun _ _ _ _ c => c) (fun _ _ _ _ c => c) [] (fun _ _ => 0)).1 (by decide)


/-! ### Individual n-body operators, `FqeData.apply_individual_nbody`

Each species' mapping is built by `make_mapping_each`: a source string
passes the occupation check (read on the original string), then the
annihilation list and the creation list are processed in reversed list
order, accumulating a `count_bits_above` parity before each bit update.
The scatter `out[targeta, targetb] = coeff * paritya * parityb *
self[sourcea, sourceb]` is modelled as a gather sum over sources
(distinct checked sources reach distinct targets, so the numpy fancy
assignment writes each output entry at most once); entries not written
stay at the `fill(0.0)` value, which the empty sum reproduces, also
when one species map is empty. -/

/-- `unset_bit`: clear bit `i`. -/
def unset_bit (s i : ℕ) : ℕ := if s.testBit i = true then s ^^^ 2 ^ i else s

/-- `set_bit`: set bit `i`. -/
def set_bit (s i : ℕ) : ℕ := if s.testBit i = true then s else s ^^^ 2 ^ i

/-- The annihilation loop `for i in reversed(undag)`: the head of the
list is processed last; each step adds `count_bits_above(current, i)`
to the parity and then clears bit `i`. -/
def run_undag (n : ℕ) : List ℕ → ℕ → ℕ × ℕ
  | [], s => (s, 0)
  | i :: rest, s =>
    let r := run_undag n rest s
    (unset_bit r.1 i, r.2 + cba n r.1 i)

/-- The creation loop `for i in reversed(dag)`. -/
def run_dag (n : ℕ) : List ℕ → ℕ → ℕ × ℕ
  | [], s => (s, 0)
  | i :: rest, s =>
    let r := run_dag n rest s
    (set_bit r.1 i, r.2 + cba n r.1 i)

/-- Target string and accumulated parity of one species' mapping: the
annihilation loop runs first, then the creation loop. -/
def nbody_run (n : ℕ) (dag undag : List ℕ) (s : ℕ) : ℕ × ℕ :=
  let ru := run_undag n undag s
  let rd := run_dag n dag ru.1
  (rd.1, ru.2 + rd.2)

/-- The occupation check of `make_mapping_each`, read on the original
string: all annihilated orbitals occupied, and every created orbital
either also annihilated or unoccupied. -/
def nbody_check (dag undag : List ℕ) (s : ℕ) : Prop :=
  (∀ i ∈ undag, s.testBit i = true) ∧ ∀ i ∈ dag, i ∈ undag ∨ s.testBit i = false

instance nbody_check_dec (dag undag : List ℕ) (s : ℕ) : Decidable (nbody_check dag undag s) :=
  decidable_of_iff
    ((∀ i ∈ undag, s.testBit i = true) ∧ ∀ i ∈ dag, i ∈ undag ∨ s.testBit i = false)
    Iff.rfl

/-- `FqeData.apply_individual_nbody` as a gather: the output at a
target pair sums `coeff * paritya * parityb * self[sourcea, sourceb]`
over the checked sources mapping there. -/
def apply_individual_nbody (n na nb : ℕ) (co : K) (daga undaga dagb undagb : List ℕ)
    (c : ℕ → ℕ → K) : ℕ → ℕ → K :=
  fun ta tb => ∑ sa ∈ dets n na, ∑ sb ∈ dets n nb,
    if nbody_check daga undaga sa ∧ (nbody_run n daga undaga sa).1 = ta
        ∧ nbody_check dagb undagb sb ∧ (nbody_run n dagb undagb sb).1 = tb
    then co * ((-1 : K) ^ (nbody_run n daga undaga sa).2)
        * ((-1 : K) ^ (nbody_run n dagb undagb sb).2) * c sa sb
    else 0

theorem testBit_unset_bit (s i j : ℕ) :
    (unset_bit s i).testBit j = if j = i then false else s.testBit j := by
  rw [unset_bit]
  by_cases hb : s.testBit i = true
  · rw [if_pos hb, testBit_toggle]
    by_cases hj : j = i
    · rw [if_pos hj, if_pos hj, hb]
      rfl
    · rw [if_neg hj, if_neg hj]
  · rw [if_neg hb]
    by_cases hj : j = i
    · rw [if_pos hj, hj]
      simpa using hb
    · rw [if_neg hj]

theorem testBit_set_bit (s i j : ℕ) :
    (set_bit s i).testBit j = if j = i then true else s.testBit j := by
  rw [set_bit]
  by_cases hb : s.testBit i = true
  · rw [if_pos hb]
    by_cases hj : j = i
    · rw [if_pos hj, hj, hb]
    · rw [if_neg hj]
  · rw [if_neg hb, testBit_toggle]
    by_cases hj : j = i
    · rw [if_pos hj, if_pos hj, (by simpa using hb : s.testBit i = false)]
      rfl
    · rw [if_neg hj, if_neg hj]

theorem run_undag_testBit (n : ℕ) : ∀ (l : List ℕ) (s j : ℕ),
    ((run_undag n l s).1).testBit j = if j ∈ l then false else s.testBit j := by
  intro l
  induction l with
  | nil => intro s j; rw [run_undag, if_neg (List.not_mem_nil j)]
  | cons i rest ih =>
    intro s j
    rw [run_undag]
    rw [testBit_unset_bit, ih]
    by_cases hj : j = i
    · rw [if_pos hj, if_pos (by rw [hj]; exact List.mem_cons_self i rest)]
    · rw [if_neg hj]
      by_cases hr : j ∈ rest
      · rw [if_pos hr, if_pos (List.mem_cons_of_mem i hr)]
      · rw [if_neg hr, if_neg (by simp [hj, hr])]

theorem run_dag_testBit (n : ℕ) : ∀ (l : List ℕ) (s j : ℕ),
    ((run_dag n l s).1).testBit j = if j ∈ l then true else s.testBit j := by
  intro l
  induction l with
  | nil => intro s j; rw [run_dag, if_neg (List.not_mem_nil j)]
  | cons i rest ih =>
    intro s j
    rw [run_dag]
    rw [testBit_set_bit, ih]
    by_cases hj : j = i
    · rw [if_pos hj, if_pos (by rw [hj]; exact List.mem_cons_self i rest)]
    · rw [if_neg hj]
      by_cases hr : j ∈ rest
      · rw [if_pos hr, if_pos (List.mem_cons_of_mem i hr)]
      · rw [if_neg hr, if_neg (by simp [hj, hr])]

theorem nbody_run_testBit (n : ℕ) (dag undag : List ℕ) (s j : ℕ) :
    ((nbody_run n dag undag s).1).testBit j
      = if j ∈ dag then true else if j ∈ undag then false else s.testBit j := by
  rw [nbody_run]
  rw [run_dag_testBit, run_undag_testBit]


theorem unset_bit_lt_two_pow {s i n : ℕ} (hs : s < 2 ^ n) (hi : i < n) :
    unset_bit s i < 2 ^ n := by
  rw [unset_bit]
  by_cases hb : s.testBit i = true
  · rw [if_pos hb]
    exact Nat.xor_lt_two_pow hs (Nat.pow_lt_pow_right (by norm_num) hi)
  · rw [if_neg hb]
    exact hs

theorem set_bit_lt_two_pow {s i n : ℕ} (hs : s < 2 ^ n) (hi : i < n) :
    set_bit s i < 2 ^ n := by
  rw [set_bit]
  by_cases hb : s.testBit i = true
  · rw [if_pos hb]
    exact hs
  · rw [if_neg hb]
    exact Nat.xor_lt_two_pow hs (Nat.pow_lt_pow_right (by norm_num) hi)

theorem run_undag_lt_two_pow (n : ℕ) : ∀ (l : List ℕ) (s : ℕ), (∀ i ∈ l, i < n) →
    s < 2 ^ n → (run_undag n l s).1 < 2 ^ n := by
  intro l
  induction l with
  | nil => intro s _ hs; exact hs
  | cons i rest ih =>
    intro s hl hs
    rw [run_undag]
    exact unset_bit_lt_two_pow
      (ih s (fun v hv => hl v (List.mem_cons_of_mem i hv)) hs)
      (hl i (List.mem_cons_self i rest))

theorem run_dag_lt_two_pow (n : ℕ) : ∀ (l : List ℕ) (s : ℕ), (∀ i ∈ l, i < n) →
    s < 2 ^ n → (run_dag n l s).1 < 2 ^ n := by
  intro l
  induction l with
  | nil => intro s _ hs; exact hs
  | cons i rest ih =>
    intro s hl hs
    rw [run_dag]
    exact set_bit_lt_two_pow
      (ih s (fun v hv => hl v (List.mem_cons_of_mem i hv)) hs)
      (hl i (List.mem_cons_self i rest))

theorem nbody_run_lt_two_pow {n : ℕ} {dag undag : List ℕ} {s : ℕ}
    (hd : ∀ i ∈ dag, i < n) (hu : ∀ i ∈ undag, i < n) (hs : s < 2 ^ n) :
    (nbody_run n dag undag s).1 < 2 ^ n := by
  rw [nbody_run]
  exact run_dag_lt_two_pow n dag _ hd (run_undag_lt_two_pow n undag s hu hs)

theorem list_length_eq_sum {n : ℕ} (l : List ℕ) (hn : ∀ i ∈ l, i < n) (hnd : l.Nodup) :
    (∑ j ∈ Finset.range n, if j ∈ l then 1 else 0) = l.length := by
  rw [← Finset.card_filter]
  rw [show (Finset.range n).filter (fun j => j ∈ l) = l.toFinset from ?_]
  · exact List.toFinset_card_of_nodup hnd
  · ext j
    rw [Finset.mem_filter, Finset.mem_range, List.mem_toFinset]
    exact ⟨fun h => h.2, fun h => ⟨hn j h, h⟩⟩

/-- The target occupation: each annihilated orbital was occupied and
each created orbital (not also annihilated) was empty, so the
occupation changes by the difference of the list lengths. -/
theorem occCount_nbody_run {n : ℕ} {dag undag : List ℕ} {s : ℕ}
    (hd : ∀ i ∈ dag, i < n) (hu : ∀ i ∈ undag, i < n)
    (hnd : dag.Nodup) (hnu : undag.Nodup)
    (hchk : nbody_check dag undag s) :
    occCount n (nbody_run n dag undag s).1 + undag.length
      = occCount n s + dag.length := by
  have hsum : (∑ j ∈ Finset.range n,
      ((if (nbody_run n dag undag s).1.testBit j then 1 else 0)
        + (if j ∈ undag then 1 else 0)))
      = ∑ j ∈ Finset.range n,
        ((if s.testBit j then 1 else 0) + (if j ∈ dag then 1 else 0)) := by
    refine Finset.sum_congr rfl fun j _ => ?_
    rw [nbody_run_testBit]
    by_cases hjd : j ∈ dag <;> by_cases hju : j ∈ undag
    · simp [hjd, hju, hchk.1 j hju]
    · have hsb : s.testBit j = false := by
        rcases hchk.2 j hjd with h | h
        · exact absurd h hju
        · exact h
      simp [hjd, hju, hsb]
    · simp [hjd, hju, hchk.1 j hju]
    · simp [hjd, hju]
  rw [occCount_eq_sum, occCount_eq_sum,
    ← list_length_eq_sum undag hu hnu, ← list_length_eq_sum dag hd hnd,
    ← Finset.sum_add_distrib, ← Finset.sum_add_distrib, hsum]

/-- Every forward target passes the inverse string's occupation check. -/
theorem nbody_check_rev {n : ℕ} {dag undag : List ℕ} {s : ℕ}
    (hchk : nbody_check dag undag s) :
    nbody_check undag dag (nbody_run n dag undag s).1 := by
  constructor
  · intro i hi
    rw [nbody_run_testBit, if_pos hi]
  · intro i hi
    by_cases hjd : i ∈ dag
    · exact Or.inl hjd
    · right
      rw [nbody_run_testBit, if_neg hjd, if_pos hi]

/-- The inverse string maps the forward target back to the source. -/
theorem nbody_run_rev {n : ℕ} {dag undag : List ℕ} {s : ℕ}
    (hchk : nbody_check dag undag s) :
    (nbody_run n undag dag (nbody_run n dag undag s).1).1 = s := by
  apply Nat.eq_of_testBit_eq
  intro j
  rw [nbody_run_testBit, nbody_run_testBit]
  by_cases hju : j ∈ undag
  · rw [if_pos hju]
    exact (hchk.1 j hju).symm
  · rw [if_neg hju]
    by_cases hjd : j ∈ dag
    · rw [if_pos hjd]
      rcases hchk.2 j hjd with h | h
      · exact absurd h hju
      · exact h.symm
    · rw [if_neg hjd, if_neg hjd, if_neg hju]

theorem nbody_run_mem_dets {n k : ℕ} {dag undag : List ℕ} {s : ℕ}
    (hd : ∀ i ∈ dag, i < n) (hu : ∀ i ∈ undag, i < n)
    (hnd : dag.Nodup) (hnu : undag.Nodup) (hlen : dag.length = undag.length)
    (hs : s ∈ dets n k) (hchk : nbody_check dag undag s) :
    (nbody_run n dag undag s).1 ∈ dets n k := by
  rw [mem_dets] at hs ⊢
  refine ⟨nbody_run_lt_two_pow hd hu hs.1, ?_⟩
  have hocc := occCount_nbody_run hd hu hnd hnu hchk
  omega


theorem unset_bit_toggle {x u v : ℕ} (h : v ≠ u) :
    unset_bit (x ^^^ 2 ^ u) v = unset_bit x v ^^^ 2 ^ u := by
  rw [unset_bit, unset_bit, testBit_toggle_ne x h]
  by_cases hb : x.testBit v = true
  · rw [if_pos hb, if_pos hb, toggle_comm]
  · rw [if_neg hb, if_neg hb]

theorem set_bit_toggle {x u v : ℕ} (h : v ≠ u) :
    set_bit (x ^^^ 2 ^ u) v = set_bit x v ^^^ 2 ^ u := by
  rw [set_bit, set_bit, testBit_toggle_ne x h]
  by_cases hb : x.testBit v = true
  · rw [if_pos hb, if_pos hb]
  · rw [if_neg hb, if_neg hb, toggle_comm]

/-- Toggling a bit changes `count_bits_above` by one exactly at the
lower read positions, so modulo two it adds an indicator. -/
theorem cba_toggle_par {n : ℕ} (x u v : ℕ) (hu : u < n) :
    ((cba n (x ^^^ 2 ^ u) v : ℕ) : ZMod 2)
      = (cba n x v : ZMod 2) + (if v < u then 1 else 0) := by
  rcases Nat.lt_or_ge v u with hlt | hge
  · rw [if_pos hlt, cba_toggle_of_gt v hu hlt]
    by_cases hb : x.testBit u = true
    · rw [if_pos hb]
      have h1 : 1 ≤ cba n x v := by
        rw [cba]
        refine Finset.card_pos.mpr ⟨u, ?_⟩
        rw [Finset.mem_filter, Finset.mem_range]
        exact ⟨hu, hlt, hb⟩
      rw [Nat.cast_sub h1, Nat.cast_one, sub_eq_add_neg,
        (by decide : (-(1 : ZMod 2)) = 1)]
    · rw [if_neg hb]
      push_cast
      ring
  · rw [if_neg (by omega), cba_toggle hge, add_zero]

theorem run_dag_fst_toggle (n : ℕ) : ∀ (l : List ℕ) (x u : ℕ), u ∉ l →
    (run_dag n l (x ^^^ 2 ^ u)).1 = (run_dag n l x).1 ^^^ 2 ^ u := by
  intro l
  induction l with
  | nil => intro x u _; rw [run_dag, run_dag]
  | cons v rest ih =>
    intro x u hul
    have hvu : v ≠ u := fun he => hul (he ▸ List.mem_cons_self v rest)
    rw [run_dag, run_dag]
    dsimp only
    rw [ih x u (fun hm => hul (List.mem_cons_of_mem v hm)), set_bit_toggle hvu]

theorem run_undag_fst_toggle (n : ℕ) : ∀ (l : List ℕ) (x u : ℕ), u ∉ l →
    (run_undag n l (x ^^^ 2 ^ u)).1 = (run_undag n l x).1 ^^^ 2 ^ u := by
  intro l
  induction l with
  | nil => intro x u _; rw [run_undag, run_undag]
  | cons v rest ih =>
    intro x u hul
    have hvu : v ≠ u := fun he => hul (he ▸ List.mem_cons_self v rest)
    rw [run_undag, run_undag]
    dsimp only
    rw [ih x u (fun hm => hul (List.mem_cons_of_mem v hm)), unset_bit_toggle hvu]

theorem run_dag_snd_toggle (n : ℕ) : ∀ (l : List ℕ) (x u : ℕ), u < n → u ∉ l →
    ((run_dag n l (x ^^^ 2 ^ u)).2 : ZMod 2)
      = ((run_dag n l x).2 : ZMod 2) + ((l.countP (fun v => decide (v < u)) : ℕ) : ZMod 2) := by
  intro l
  induction l with
  | nil => intro x u _ _; rw [run_dag, run_dag]; simp
  | cons v rest ih =>
    intro x u hu hul
    have hur : u ∉ rest := fun hm => hul (List.mem_cons_of_mem v hm)
    rw [run_dag, run_dag]
    dsimp only
    rw [Nat.cast_add, Nat.cast_add, ih x u hu hur, run_dag_fst_toggle n rest x u hur,
      cba_toggle_par _ u v hu, List.countP_cons]
    push_cast
    simp only [decide_eq_true_eq]
    ring

theorem run_undag_snd_toggle (n : ℕ) : ∀ (l : List ℕ) (x u : ℕ), u < n → u ∉ l →
    ((run_undag n l (x ^^^ 2 ^ u)).2 : ZMod 2)
      = ((run_undag n l x).2 : ZMod 2) + ((l.countP (fun v => decide (v < u)) : ℕ) : ZMod 2) := by
  intro l
  induction l with
  | nil => intro x u _ _; rw [run_undag, run_undag]; simp
  | cons v rest ih =>
    intro x u hu hul
    have hur : u ∉ rest := fun hm => hul (List.mem_cons_of_mem v hm)
    rw [run_undag, run_undag]
    dsimp only
    rw [Nat.cast_add, Nat.cast_add, ih x u hu hur, run_undag_fst_toggle n rest x u hur,
      cba_toggle_par _ u v hu, List.countP_cons]
    push_cast
    simp only [decide_eq_true_eq]
    ring

theorem run_undag_cons_toggle (n u : ℕ) (rest : List ℕ) (s : ℕ)
    (hsu : s.testBit u = true) (hur : u ∉ rest) :
    (run_undag n (u :: rest) s).1 = (run_undag n rest s).1 ^^^ 2 ^ u := by
  rw [run_undag]
  dsimp only
  rw [unset_bit, if_pos (by rw [run_undag_testBit, if_neg hur]; exact hsu)]

theorem run_dag_cons_toggle (n u : ℕ) (rest : List ℕ) (r : ℕ)
    (hru : r.testBit u = false) (hur : u ∉ rest) :
    (run_dag n (u :: rest) r).1 = (run_dag n rest r).1 ^^^ 2 ^ u := by
  rw [run_dag]
  dsimp only
  rw [set_bit, if_neg (by rw [run_dag_testBit, if_neg hur, hru]; exact Bool.false_ne_true)]

theorem run_dag_run_undag_restore (n : ℕ) (l : List ℕ) (s : ℕ)
    (hset : ∀ v ∈ l, s.testBit v = true) :
    (run_dag n l ((run_undag n l s).1)).1 = s := by
  apply Nat.eq_of_testBit_eq
  intro j
  rw [run_dag_testBit, run_undag_testBit]
  by_cases hj : j ∈ l
  · rw [if_pos hj]
    exact (hset j hj).symm
  · rw [if_neg hj, if_neg hj]

theorem run_undag_run_dag_restore (n : ℕ) (l : List ℕ) (r : ℕ)
    (hclear : ∀ v ∈ l, r.testBit v = false) :
    (run_undag n l ((run_dag n l r).1)).1 = r := by
  apply Nat.eq_of_testBit_eq
  intro j
  rw [run_undag_testBit, run_dag_testBit]
  by_cases hj : j ∈ l
  · rw [if_pos hj]
    exact (hclear j hj).symm
  · rw [if_neg hj, if_neg hj]

theorem cba_run_undag_par (n : ℕ) : ∀ (l : List ℕ) (s u : ℕ), (∀ v ∈ l, v < n) →
    l.Nodup → (∀ v ∈ l, s.testBit v = true) →
    ((cba n ((run_undag n l s).1) u : ℕ) : ZMod 2)
      = (cba n s u : ZMod 2) + ((l.countP (fun v => decide (u < v)) : ℕ) : ZMod 2) := by
  intro l
  induction l with
  | nil => intro s u _ _ _; rw [run_undag]; simp
  | cons v rest ih =>
    intro s u hln hnd hset
    have hvn : v < n := hln v (List.mem_cons_self v rest)
    have hvr : v ∉ rest := (List.nodup_cons.mp hnd).1
    rw [run_undag_cons_toggle n v rest s (hset v (List.mem_cons_self v rest)) hvr,
      cba_toggle_par _ v u hvn,
      ih s u (fun w hw => hln w (List.mem_cons_of_mem v hw)) (List.nodup_cons.mp hnd).2
        (fun w hw => hset w (List.mem_cons_of_mem v hw)),
      List.countP_cons]
    push_cast
    simp only [decide_eq_true_eq]
    ring

theorem cba_run_dag_par (n : ℕ) : ∀ (l : List ℕ) (r u : ℕ), (∀ v ∈ l, v < n) →
    l.Nodup → (∀ v ∈ l, r.testBit v = false) →
    ((cba n ((run_dag n l r).1) u : ℕ) : ZMod 2)
      = (cba n r u : ZMod 2) + ((l.countP (fun v => decide (u < v)) : ℕ) : ZMod 2) := by
  intro l
  induction l with
  | nil => intro r u _ _ _; rw [run_dag]; simp
  | cons v rest ih =>
    intro r u hln hnd hclear
    have hvn : v < n := hln v (List.mem_cons_self v rest)
    have hvr : v ∉ rest := (List.nodup_cons.mp hnd).1
    rw [run_dag_cons_toggle n v rest r (hclear v (List.mem_cons_self v rest)) hvr,
      cba_toggle_par _ v u hvn,
      ih r u (fun w hw => hln w (List.mem_cons_of_mem v hw)) (List.nodup_cons.mp hnd).2
        (fun w hw => hclear w (List.mem_cons_of_mem v hw)),
      List.countP_cons]
    push_cast
    simp only [decide_eq_true_eq]
    ring


/-- Parity of the number of unordered pairs of a `k`-element set. -/
def pairParity : ℕ → ZMod 2
  | 0 => 0
  | k + 1 => pairParity k + (k : ZMod 2)

theorem countP_lt_add_gt (u : ℕ) : ∀ l : List ℕ, (∀ v ∈ l, v ≠ u) →
    l.countP (fun v => decide (v < u)) + l.countP (fun v => decide (u < v)) = l.length := by
  intro l
  induction l with
  | nil => intro _; simp
  | cons v rest ih =>
    intro h
    have hv := h v (List.mem_cons_self v rest)
    have hih := ih fun w hw => h w (List.mem_cons_of_mem v hw)
    rw [List.countP_cons, List.countP_cons, List.length_cons]
    rcases Nat.lt_or_ge v u with hlt | hge
    · rw [if_pos (by simpa using hlt), if_neg (by simp; omega)]
      omega
    · have hgt : u < v := by omega
      rw [if_neg (by simp; omega), if_pos (by simpa using hgt)]
      omega

/-- Annihilating a set of occupied orbitals and re-creating them in the
same list order accumulates the pair parity of the list. -/
theorem run_roundtrip_parity_undag (n : ℕ) : ∀ (l : List ℕ) (s : ℕ),
    (∀ v ∈ l, v < n) → l.Nodup → (∀ v ∈ l, s.testBit v = true) →
    (((run_undag n l s).2 + (run_dag n l ((run_undag n l s).1)).2 : ℕ) : ZMod 2)
      = pairParity l.length := by
  intro l
  induction l with
  | nil =>
    intro s _ _ _
    rw [run_undag, run_dag]
    simp [pairParity]
  | cons u rest ih =>
    intro s hln hnd hset
    have hu : u < n := hln u (List.mem_cons_self u rest)
    have hur : u ∉ rest := (List.nodup_cons.mp hnd).1
    have hrn : ∀ v ∈ rest, v < n := fun v hv => hln v (List.mem_cons_of_mem u hv)
    have hrd : rest.Nodup := (List.nodup_cons.mp hnd).2
    have hrs : ∀ v ∈ rest, s.testBit v = true :=
      fun v hv => hset v (List.mem_cons_of_mem u hv)
    have hsu : s.testBit u = true := hset u (List.mem_cons_self u rest)
    have hstate := run_undag_cons_toggle n u rest s hsu hur
    have hU : (run_undag n (u :: rest) s).2
        = (run_undag n rest s).2 + cba n (run_undag n rest s).1 u := by
      rw [run_undag]
    have hD : (run_dag n (u :: rest) ((run_undag n (u :: rest) s).1)).2
        = (run_dag n rest ((run_undag n (u :: rest) s).1)).2
          + cba n (run_dag n rest ((run_undag n (u :: rest) s).1)).1 u := by
      rw [run_dag]
    rw [hU, hD, hstate, Nat.cast_add, Nat.cast_add, Nat.cast_add,
      run_dag_snd_toggle n rest _ u hu hur,
      run_dag_fst_toggle n rest _ u hur,
      run_dag_run_undag_restore n rest s hrs,
      cba_toggle (le_refl u),
      cba_run_undag_par n rest s u hrn hrd hrs]
    have hih := ih s hrn hrd hrs
    rw [Nat.cast_add] at hih
    have hcnt : ((rest.countP (fun v => decide (v < u)) : ℕ) : ZMod 2)
        + ((rest.countP (fun v => decide (u < v)) : ℕ) : ZMod 2)
        = ((rest.length : ℕ) : ZMod 2) := by
      rw [← Nat.cast_add,
        countP_lt_add_gt u rest (fun v hv he => hur (he ▸ hv))]
    rw [List.length_cons, pairParity]
    linear_combination hih + hcnt + CharTwo.add_self_eq_zero ((cba n s u : ℕ) : ZMod 2)

/-- Creating a set of empty orbitals and re-annihilating them in the
same list order accumulates the pair parity of the list. -/
theorem run_roundtrip_parity_dag (n : ℕ) : ∀ (l : List ℕ) (r : ℕ),
    (∀ v ∈ l, v < n) → l.Nodup → (∀ v ∈ l, r.testBit v = false) →
    (((run_dag n l r).2 + (run_undag n l ((run_dag n l r).1)).2 : ℕ) : ZMod 2)
      = pairParity l.length := by
  intro l
  induction l with
  | nil =>
    intro r _ _ _
    rw [run_undag, run_dag]
    simp [pairParity]
  | cons u rest ih =>
    intro r hln hnd hclear
    have hu : u < n := hln u (List.mem_cons_self u rest)
    have hur : u ∉ rest := (List.nodup_cons.mp hnd).1
    have hrn : ∀ v ∈ rest, v < n := fun v hv => hln v (List.mem_cons_of_mem u hv)
    have hrd : rest.Nodup := (List.nodup_cons.mp hnd).2
    have hrs : ∀ v ∈ rest, r.testBit v = false :=
      fun v hv => hclear v (List.mem_cons_of_mem u hv)
    have hru : r.testBit u = false := hclear u (List.mem_cons_self u rest)
    have hstate := run_dag_cons_toggle n u rest r hru hur
    have hD : (run_dag n (u :: rest) r).2
        = (run_dag n rest r).2 + cba n (run_dag n rest r).1 u := by
      rw [run_dag]
    have hU : (run_undag n (u :: rest) ((run_dag n (u :: rest) r).1)).2
        = (run_undag n rest ((run_dag n (u :: rest) r).1)).2
          + cba n (run_undag n rest ((run_dag n (u :: rest) r).1)).1 u := by
      rw [run_undag]
    rw [hD, hU, hstate, Nat.cast_add, Nat.cast_add, Nat.cast_add,
      run_undag_snd_toggle n rest _ u hu hur,
      run_undag_fst_toggle n rest _ u hur,
      run_undag_run_dag_restore n rest r hrs,
      cba_toggle (le_refl u),
      cba_run_dag_par n rest r u hrn hrd hrs]
    have hih := ih r hrn hrd hrs
    rw [Nat.cast_add] at hih
    have hcnt : ((rest.countP (fun v => decide (v < u)) : ℕ) : ZMod 2)
        + ((rest.countP (fun v => decide (u < v)) : ℕ) : ZMod 2)
        = ((rest.length : ℕ) : ZMod 2) := by
      rw [← Nat.cast_add,
        countP_lt_add_gt u rest (fun v hv he => hur (he ▸ hv))]
    rw [List.length_cons, pairParity]
    linear_combination hih + hcnt + CharTwo.add_self_eq_zero ((cba n r u : ℕ) : ZMod 2)


/-- The forward and inverse mapping parities of an individual n-body
operator with equally long creation and annihilation lists cancel. -/
theorem nbody_parity_even {n : ℕ} {dag undag : List ℕ} {s : ℕ}
    (hd : ∀ i ∈ dag, i < n) (hu : ∀ i ∈ undag, i < n)
    (hnd : dag.Nodup) (hnu : undag.Nodup)
    (hlen : dag.length = undag.length)
    (hchk : nbody_check dag undag s) :
    Even ((nbody_run n dag undag s).2
      + (nbody_run n undag dag (nbody_run n dag undag s).1).2) := by
  have hx0clear : ∀ v ∈ dag, ((run_undag n undag s).1).testBit v = false := by
    intro v hv
    rw [run_undag_testBit]
    by_cases hvu : v ∈ undag
    · rw [if_pos hvu]
    · rw [if_neg hvu]
      rcases hchk.2 v hv with h | h
      · exact absurd h hvu
      · exact h
  have hrestore : (run_undag n dag ((run_dag n dag ((run_undag n undag s).1)).1)).1
      = (run_undag n undag s).1 := run_undag_run_dag_restore n dag _ hx0clear
  have hUS := run_roundtrip_parity_undag n undag s hu hnu hchk.1
  have hSU := run_roundtrip_parity_dag n dag ((run_undag n undag s).1) hd hnd hx0clear
  rw [even_iff_two_dvd, ← ZMod.natCast_zmod_eq_zero_iff_dvd]
  simp only [nbody_run]
  rw [hrestore]
  push_cast
  push_cast at hUS hSU
  have hpp : pairParity dag.length + pairParity undag.length = 0 := by
    rw [hlen]
    exact CharTwo.add_self_eq_zero _
  linear_combination hUS + hSU + hpp


/-- Composing one species' mapping with the mapping of the inverse
string collapses to the occupation projection: sources that fail the
check are annihilated, sources that pass return with cancelling
parities. -/
theorem nbody_collapse (n k : ℕ) (dag undag : List ℕ)
    (hd : ∀ i ∈ dag, i < n) (hu : ∀ i ∈ undag, i < n)
    (hnd : dag.Nodup) (hnu : undag.Nodup) (hlen : dag.length = undag.length)
    (w : ℕ → K) {t : ℕ} (ht : t ∈ dets n k) :
    (∑ x ∈ dets n k, ∑ s ∈ dets n k,
      if (nbody_check undag dag x ∧ (nbody_run n undag dag x).1 = t)
          ∧ nbody_check dag undag s ∧ (nbody_run n dag undag s).1 = x
      then ((-1 : K) ^ (nbody_run n undag dag x).2)
        * ((-1 : K) ^ (nbody_run n dag undag s).2) * w s
      else 0)
      = if nbody_check dag undag t then w t else 0 := by
  rw [Finset.sum_comm]
  by_cases hcht : nbody_check dag undag t
  · rw [if_pos hcht]
    refine (Finset.sum_eq_single t ?_ ?_).trans ?_
    · intro s _ hne
      apply Finset.sum_eq_zero
      intro x _
      rw [if_neg]
      rintro ⟨⟨hb1, hb2⟩, hf1, hf2⟩
      subst hf2
      rw [nbody_run_rev hf1] at hb2
      exact hne hb2
    · intro hnot
      exact absurd ht hnot
    · refine (Finset.sum_eq_single ((nbody_run n dag undag t).1) ?_ ?_).trans ?_
      · intro x _ hne
        rw [if_neg]
        rintro ⟨_, _, hf2⟩
        exact hne hf2.symm
      · intro hnot
        exact absurd (nbody_run_mem_dets hd hu hnd hnu hlen ht hcht) hnot
      · rw [if_pos ⟨⟨nbody_check_rev hcht, nbody_run_rev hcht⟩, hcht, rfl⟩, ← pow_add]
        have heven := nbody_parity_even hd hu hnd hnu hlen hcht
        rw [Even.neg_one_pow (by rwa [Nat.add_comm] at heven), one_mul]
  · rw [if_neg hcht]
    apply Finset.sum_eq_zero
    intro s _
    apply Finset.sum_eq_zero
    intro x _
    rw [if_neg]
    rintro ⟨⟨hb1, hb2⟩, hf1, hf2⟩
    subst hf2
    rw [nbody_run_rev hf1] at hb2
    exact hcht (hb2 ▸ hf1)


/-- The scatter over both species factors into nested per-species
gathers. -/
theorem apply_individual_nbody_eq (n na nb : ℕ) (co : K)
    (daga undaga dagb undagb : List ℕ) (c : ℕ → ℕ → K) (ta tb : ℕ) :
    apply_individual_nbody n na nb co daga undaga dagb undagb c ta tb
      = co * ∑ sa ∈ dets n na,
          (if nbody_check daga undaga sa ∧ (nbody_run n daga undaga sa).1 = ta
          then ((-1 : K) ^ (nbody_run n daga undaga sa).2) *
            ∑ sb ∈ dets n nb,
              (if nbody_check dagb undagb sb ∧ (nbody_run n dagb undagb sb).1 = tb
              then ((-1 : K) ^ (nbody_run n dagb undagb sb).2) * c sa sb else 0)
          else 0) := by
  rw [apply_individual_nbody, Finset.mul_sum]
  refine Finset.sum_congr rfl fun sa _ => ?_
  by_cases hA : nbody_check daga undaga sa ∧ (nbody_run n daga undaga sa).1 = ta
  · rw [if_pos hA, Finset.mul_sum, Finset.mul_sum]
    refine Finset.sum_congr rfl fun sb _ => ?_
    by_cases hB : nbody_check dagb undagb sb ∧ (nbody_run n dagb undagb sb).1 = tb
    · rw [if_pos hB, if_pos ⟨hA.1, hA.2, hB.1, hB.2⟩]
      ring
    · rw [if_neg hB, if_neg (fun hc => hB ⟨hc.2.2.1, hc.2.2.2⟩), mul_zero, mul_zero]
  · rw [if_neg hA, mul_zero]
    apply Finset.sum_eq_zero
    intro sb _
    rw [if_neg (fun hc => hA ⟨hc.1, hc.2.1⟩)]

/-- C7: applying `apply_individual_nbody` and then the inverse string
(creation and annihilation lists swapped per species) returns `c1 * c2`
times the occupation projection of the original wavefunction: the
fermionic parities of the two calls cancel, but determinants that fail
the operator's occupation check are annihilated, not restored (the
claimed unconditional recovery fails, see the counterexample). -/
theorem claim_C7 (n na nb : ℕ) (c1 c2 : ℂ) (daga undaga dagb undagb : List ℕ)
    (hda : ∀ i ∈ daga, i < n) (hua : ∀ i ∈ undaga, i < n)
    (hdb : ∀ i ∈ dagb, i < n) (hub : ∀ i ∈ undagb, i < n)
    (hnda : daga.Nodup) (hnua : undaga.Nodup)
    (hndb : dagb.Nodup) (hnub : undagb.Nodup)
    (hlena : daga.length = undaga.length) (hlenb : dagb.length = undagb.length)
    (c : ℕ → ℕ → ℂ) {ta tb : ℕ} (hta : ta ∈ dets n na) (htb : tb ∈ dets n nb) :
    apply_individual_nbody n na nb c2 undaga daga undagb dagb
        (apply_individual_nbody n na nb c1 daga undaga dagb undagb c) ta tb
      = c1 * c2 * (if nbody_check daga undaga ta ∧ nbody_check dagb undagb tb
          then c ta tb else 0) := by
  rw [apply_individual_nbody_eq]
  simp only [apply_individual_nbody_eq]
  have key : ∀ x ∈ dets n na,
      (∑ y ∈ dets n nb,
        if nbody_check undagb dagb y ∧ (nbody_run n undagb dagb y).1 = tb
        then ((-1 : ℂ) ^ (nbody_run n undagb dagb y).2) *
          (c1 * ∑ sa ∈ dets n na,
            (if nbody_check daga undaga sa ∧ (nbody_run n daga undaga sa).1 = x
            then ((-1 : ℂ) ^ (nbody_run n daga undaga sa).2) *
              ∑ sb ∈ dets n nb,
                (if nbody_check dagb undagb sb ∧ (nbody_run n dagb undagb sb).1 = y
                then ((-1 : ℂ) ^ (nbody_run n dagb undagb sb).2) * c sa sb else 0)
            else 0))
        else 0)
      = c1 * ∑ sa ∈ dets n na,
          (if nbody_check daga undaga sa ∧ (nbody_run n daga undaga sa).1 = x
          then ((-1 : ℂ) ^ (nbody_run n daga undaga sa).2) *
            (if nbody_check dagb undagb tb then c sa tb else 0)
          else 0) := by
    intro x _
    have flat : (∑ y ∈ dets n nb,
        if nbody_check undagb dagb y ∧ (nbody_run n undagb dagb y).1 = tb
        then ((-1 : ℂ) ^ (nbody_run n undagb dagb y).2) *
          (c1 * ∑ sa ∈ dets n na,
            (if nbody_check daga undaga sa ∧ (nbody_run n daga undaga sa).1 = x
            then ((-1 : ℂ) ^ (nbody_run n daga undaga sa).2) *
              ∑ sb ∈ dets n nb,
                (if nbody_check dagb undagb sb ∧ (nbody_run n dagb undagb sb).1 = y
                then ((-1 : ℂ) ^ (nbody_run n dagb undagb sb).2) * c sa sb else 0)
            else 0))
        else 0)
        = ∑ y ∈ dets n nb, ∑ sa ∈ dets n na,
            (if (nbody_check daga undaga sa ∧ (nbody_run n daga undaga sa).1 = x)
                ∧ nbody_check undagb dagb y ∧ (nbody_run n undagb dagb y).1 = tb
            then c1 * ((-1 : ℂ) ^ (nbody_run n daga undaga sa).2)
              * ((-1 : ℂ) ^ (nbody_run n undagb dagb y).2) *
              ∑ sb ∈ dets n nb,
                (if nbody_check dagb undagb sb ∧ (nbody_run n dagb undagb sb).1 = y
                then ((-1 : ℂ) ^ (nbody_run n dagb undagb sb).2) * c sa sb else 0)
            else 0) := by
      refine Finset.sum_congr rfl fun y _ => ?_
      by_cases hB' : nbody_check undagb dagb y ∧ (nbody_run n undagb dagb y).1 = tb
      · rw [if_pos hB', Finset.mul_sum, Finset.mul_sum]
        refine Finset.sum_congr rfl fun sa _ => ?_
        by_cases hA : nbody_check daga undaga sa ∧ (nbody_run n daga undaga sa).1 = x
        · rw [if_pos hA, if_pos ⟨hA, hB'⟩]
          ring
        · rw [if_neg hA, if_neg (fun hc => hA hc.1), mul_zero, mul_zero]
      · rw [if_neg hB']
        symm
        apply Finset.sum_eq_zero
        intro sa _
        rw [if_neg (fun hc => hB' hc.2)]
    rw [flat, Finset.sum_comm, Finset.mul_sum]
    refine Finset.sum_congr rfl fun sa _ => ?_
    by_cases hA : nbody_check daga undaga sa ∧ (nbody_run n daga undaga sa).1 = x
    · have inner : (∑ y ∈ dets n nb,
          if (nbody_check daga undaga sa ∧ (nbody_run n daga undaga sa).1 = x)
              ∧ nbody_check undagb dagb y ∧ (nbody_run n undagb dagb y).1 = tb
          then c1 * ((-1 : ℂ) ^ (nbody_run n daga undaga sa).2)
            * ((-1 : ℂ) ^ (nbody_run n undagb dagb y).2) *
            ∑ sb ∈ dets n nb,
              (if nbody_check dagb undagb sb ∧ (nbody_run n dagb undagb sb).1 = y
              then ((-1 : ℂ) ^ (nbody_run n dagb undagb sb).2) * c sa sb else 0)
          else 0)
          = (c1 * ((-1 : ℂ) ^ (nbody_run n daga undaga sa).2)) *
            ∑ y ∈ dets n nb, ∑ sb ∈ dets n nb,
              (if (nbody_check undagb dagb y ∧ (nbody_run n undagb dagb y).1 = tb)
                  ∧ nbody_check dagb undagb sb ∧ (nbody_run n dagb undagb sb).1 = y
              then ((-1 : ℂ) ^ (nbody_run n undagb dagb y).2)
                * ((-1 : ℂ) ^ (nbody_run n dagb undagb sb).2) * c sa sb
              else 0) := by
        rw [Finset.mul_sum]
        refine Finset.sum_congr rfl fun y _ => ?_
        by_cases hB' : nbody_check undagb dagb y ∧ (nbody_run n undagb dagb y).1 = tb
        · rw [if_pos ⟨hA, hB'⟩, Finset.mul_sum, Finset.mul_sum]
          refine Finset.sum_congr rfl fun sb _ => ?_
          by_cases hB : nbody_check dagb undagb sb ∧ (nbody_run n dagb undagb sb).1 = y
          · rw [if_pos hB, if_pos ⟨hB', hB⟩]
            ring
          · rw [if_neg hB, if_neg (fun hc => hB hc.2), mul_zero, mul_zero]
        · rw [if_neg (fun hc => hB' hc.2)]
          symm
          apply mul_eq_zero_of_right
          apply Finset.sum_eq_zero
          intro sb _
          rw [if_neg (fun hc => hB' hc.1)]
      rw [inner,
        nbody_collapse n nb dagb undagb hdb hub hndb hnub hlenb (fun sb => c sa sb) htb,
        if_pos hA]
      ring
    · rw [if_neg hA, mul_zero]
      apply Finset.sum_eq_zero
      intro y _
      rw [if_neg (fun hc => hA hc.1)]
  have step2 : ∀ x ∈ dets n na,
      (if nbody_check undaga daga x ∧ (nbody_run n undaga daga x).1 = ta
      then ((-1 : ℂ) ^ (nbody_run n undaga daga x).2) *
        (∑ y ∈ dets n nb,
          if nbody_check undagb dagb y ∧ (nbody_run n undagb dagb y).1 = tb
          then ((-1 : ℂ) ^ (nbody_run n undagb dagb y).2) *
            (c1 * ∑ sa ∈ dets n na,
              (if nbody_check daga undaga sa ∧ (nbody_run n daga undaga sa).1 = x
              then ((-1 : ℂ) ^ (nbody_run n daga undaga sa).2) *
                ∑ sb ∈ dets n nb,
                  (if nbody_check dagb undagb sb ∧ (nbody_run n dagb undagb sb).1 = y
                  then ((-1 : ℂ) ^ (nbody_run n dagb undagb sb).2) * c sa sb else 0)
              else 0))
          else 0)
      else 0)
      = c1 * ∑ sa ∈ dets n na,
          (if (nbody_check undaga daga x ∧ (nbody_run n undaga daga x).1 = ta)
              ∧ nbody_check daga undaga sa ∧ (nbody_run n daga undaga sa).1 = x
          then ((-1 : ℂ) ^ (nbody_run n undaga daga x).2)
            * ((-1 : ℂ) ^ (nbody_run n daga undaga sa).2) *
            (if nbody_check dagb undagb tb then c sa tb else 0)
          else 0) := by
    intro x hx
    by_cases hA' : nbody_check undaga daga x ∧ (nbody_run n undaga daga x).1 = ta
    · rw [if_pos hA', key x hx, Finset.mul_sum, Finset.mul_sum, Finset.mul_sum]
      refine Finset.sum_congr rfl fun sa _ => ?_
      by_cases hA : nbody_check daga undaga sa ∧ (nbody_run n daga undaga sa).1 = x
      · rw [if_pos hA, if_pos (show (nbody_check undaga daga x
            ∧ (nbody_run n undaga daga x).1 = ta)
            ∧ nbody_check daga undaga sa ∧ (nbody_run n daga undaga sa).1 = x
          from ⟨hA', hA⟩)]
        ring
      · rw [if_neg hA, if_neg (fun hc => hA hc.2), mul_zero, mul_zero]
    · rw [if_neg hA']
      symm
      apply mul_eq_zero_of_right
      apply Finset.sum_eq_zero
      intro sa _
      rw [if_neg (fun hc => hA' hc.1)]
  rw [Finset.sum_congr rfl step2, ← Finset.mul_sum,
    nbody_collapse n na daga undaga hda hua hnda hnua hlena
      (fun sa => if nbody_check dagb undagb tb then c sa tb else 0) hta]
  by_cases h1 : nbody_check daga undaga ta <;> by_cases h2 : nbody_check dagb undagb tb
  · rw [if_pos h1, if_pos h2, if_pos ⟨h1, h2⟩]
    ring
  · rw [if_pos h1, if_neg h2, if_neg (fun hc => h2 hc.2)]
    ring
  · rw [if_neg h1, if_neg (fun hc => h1 hc.1)]
    ring
  · rw [if_neg h1, if_neg (fun hc => h1 hc.1)]
    ring


theorem claim_C7_witness :
    ((1 ∈ dets 1 1) ∧ (0 ∈ dets 1 0) ∧ ([0] : List ℕ).Nodup)
    ∧ apply_individual_nbody 1 1 0 1 [0] [0] [] []
        (apply_individual_nbody 1 1 0 1 [0] [0] [] [] (fun _ _ => (1 : ℂ))) 1 0
      = 1 * 1 * (if nbody_check [0] [0] 1 ∧ nbody_check [] [] 0
          then (1 : ℂ) else 0) :=
  ⟨⟨by decide, by decide, by decide⟩,
    claim_C7 1 1 0 1 1 [0] [0] [] [] (by decide) (by decide) (by decide) (by decide)
      (by decide) (by decide) (by decide) (by decide) rfl rfl (fun _ _ => 1)
      (by decide) (by decide)⟩

theorem claim_C7_counterexample :
    ¬ ∃ z : ℂ, ∀ ta tb : ℕ,
      apply_individual_nbody 2 1 0 1 [0] [0] [] []
          (apply_individual_nbody 2 1 0 1 [0] [0] [] [] (fun _ _ => (1 : ℂ))) ta tb
        = z * 1 := by
  have hdets1 : dets 2 1 = {1, 2} := by decide
  have hdets0 : dets 2 0 = {0} := by decide
  have hchk1 : nbody_check [0] [0] 1 := by decide
  have hchk2 : ¬ nbody_check [0] [0] 2 := by decide
  have hchkb : nbody_check ([] : List ℕ) [] 0 := by decide
  have hrun1 : nbody_run 2 [0] [0] 1 = (1, 0) := by decide
  have hrun0 : nbody_run 2 ([] : List ℕ) [] 0 = (0, 0) := by decide
  have hinner : ∀ x y : ℕ,
      apply_individual_nbody 2 1 0 1 [0] [0] [] [] (fun _ _ => (1 : ℂ)) x y
        = if 1 = x ∧ 0 = y then 1 else 0 := by
    intro x y
    rw [apply_individual_nbody, hdets1, hdets0, Finset.sum_insert (by decide),
      Finset.sum_singleton, Finset.sum_singleton, Finset.sum_singleton, hrun1, hrun0]
    rw [if_neg (show ¬ (nbody_check [0] [0] 2 ∧ (nbody_run 2 [0] [0] 2).1 = x
        ∧ nbody_check ([] : List ℕ) [] 0 ∧ ((0, 0) : ℕ × ℕ).1 = y)
      from fun hc => hchk2 hc.1), add_zero]
    by_cases hxy : 1 = x ∧ 0 = y
    · rw [if_pos ⟨hchk1, hxy.1, hchkb, hxy.2⟩, if_pos hxy]
      norm_num
    · rw [if_neg (fun hc => hxy ⟨hc.2.1, hc.2.2.2⟩), if_neg hxy]
  have hcomp : ∀ ta tb : ℕ,
      apply_individual_nbody 2 1 0 1 [0] [0] [] []
          (apply_individual_nbody 2 1 0 1 [0] [0] [] [] (fun _ _ => (1 : ℂ))) ta tb
        = if 1 = ta ∧ 0 = tb then 1 else 0 := by
    intro ta tb
    rw [apply_individual_nbody, hdets1, hdets0, Finset.sum_insert (by decide),
      Finset.sum_singleton, Finset.sum_singleton, Finset.sum_singleton, hrun1, hrun0]
    rw [if_neg (show ¬ (nbody_check [0] [0] 2 ∧ (nbody_run 2 [0] [0] 2).1 = ta
        ∧ nbody_check ([] : List ℕ) [] 0 ∧ ((0, 0) : ℕ × ℕ).1 = tb)
      from fun hc => hchk2 hc.1), add_zero, hinner 1 0]
    by_cases hxy : 1 = ta ∧ 0 = tb
    · rw [if_pos ⟨hchk1, hxy.1, hchkb, hxy.2⟩, if_pos hxy]
      norm_num
    · rw [if_neg (fun hc => hxy ⟨hc.2.1, hc.2.2.2⟩), if_neg hxy]
  rintro ⟨z, hz⟩
  have h1 := hz 1 0
  have h2 := hz 2 0
  rw [hcomp 1 0] at h1
  rw [hcomp 2 0] at h2
  rw [if_pos ⟨rfl, rfl⟩] at h1
  rw [if_neg (by decide)] at h2
  rw [← h1] at h2
  exact zero_ne_one h2


/-! ### Path equivalence of the 2-body apply

Both 2-body code paths are reduced to a common normal form: the 1-body
contraction, the normal-ordered two-creation/two-annihilation part, and
the species-crossing part. -/

theorem cre_sum {α : Type} (S : Finset α) (n i : ℕ) (g : α → ℕ → K) (p : ℕ) :
    cre n i (fun t => ∑ m ∈ S, g m t) p = ∑ m ∈ S, cre n i (g m) p := by
  simp only [cre]
  by_cases h : p.testBit i = true
  · rw [if_pos h, Finset.mul_sum]
    exact Finset.sum_congr rfl fun m _ => (if_pos h).symm
  · rw [if_neg h]
    symm
    exact Finset.sum_eq_zero fun m _ => if_neg h

theorem ann_sum {α : Type} (S : Finset α) (n i : ℕ) (g : α → ℕ → K) (p : ℕ) :
    ann n i (fun t => ∑ m ∈ S, g m t) p = ∑ m ∈ S, ann n i (g m) p := by
  simp only [ann]
  by_cases h : p.testBit i = false
  · rw [if_pos h, Finset.mul_sum]
    exact Finset.sum_congr rfl fun m _ => (if_pos h).symm
  · rw [if_neg h]
    symm
    exact Finset.sum_eq_zero fun m _ => if_neg h

theorem cre_smul (n i : ℕ) (a : K) (g : ℕ → K) (p : ℕ) :
    cre n i (fun t => a * g t) p = a * cre n i g p := by
  simp only [cre]
  by_cases h : p.testBit i = true
  · rw [if_pos h, if_pos h]
    ring
  · rw [if_neg h, if_neg h, mul_zero]

theorem ann_smul (n i : ℕ) (a : K) (g : ℕ → K) (p : ℕ) :
    ann n i (fun t => a * g t) p = a * ann n i g p := by
  simp only [ann]
  by_cases h : p.testBit i = false
  · rw [if_pos h, if_pos h]
    ring
  · rw [if_neg h, if_neg h, mul_zero]

theorem cre_add (n i : ℕ) (f g : ℕ → K) (p : ℕ) :
    cre n i (fun t => f t + g t) p = cre n i f p + cre n i g p := by
  simp only [cre]
  by_cases h : p.testBit i = true
  · rw [if_pos h, if_pos h, if_pos h]
    ring
  · rw [if_neg h, if_neg h, if_neg h, add_zero]

theorem ann_add (n i : ℕ) (f g : ℕ → K) (p : ℕ) :
    ann n i (fun t => f t + g t) p = ann n i f p + ann n i g p := by
  simp only [ann]
  by_cases h : p.testBit i = false
  · rw [if_pos h, if_pos h, if_pos h]
    ring
  · rw [if_neg h, if_neg h, if_neg h, add_zero]

theorem cre_sub (n i : ℕ) (f g : ℕ → K) (p : ℕ) :
    cre n i (fun t => f t - g t) p = cre n i f p - cre n i g p := by
  simp only [cre]
  by_cases h : p.testBit i = true
  · rw [if_pos h, if_pos h, if_pos h]
    ring
  · rw [if_neg h, if_neg h, if_neg h, sub_zero]

theorem cre_negf (n i : ℕ) (g : ℕ → K) (p : ℕ) :
    cre n i (fun t => -(g t)) p = -(cre n i g p) := by
  simp only [cre]
  by_cases h : p.testBit i = true
  · rw [if_pos h, if_pos h]
    ring
  · rw [if_neg h, if_neg h, neg_zero]

theorem ann_negf (n i : ℕ) (g : ℕ → K) (p : ℕ) :
    ann n i (fun t => -(g t)) p = -(ann n i g p) := by
  simp only [ann]
  by_cases h : p.testBit i = false
  · rw [if_pos h, if_pos h]
    ring
  · rw [if_neg h, if_neg h, neg_zero]

theorem cre_ann_sum {α : Type} (S : Finset α) (n i j : ℕ) (g : α → ℕ → K) (p : ℕ) :
    cre n i (ann n j (fun x => ∑ m ∈ S, g m x)) p
      = ∑ m ∈ S, cre n i (ann n j (g m)) p := by
  rw [show ann n j (fun x => ∑ m ∈ S, g m x) = fun y => ∑ m ∈ S, ann n j (g m) y from
    funext fun y => ann_sum S n j g y, cre_sum]

theorem cre_ann_smul (n i j : ℕ) (a : K) (g : ℕ → K) (p : ℕ) :
    cre n i (ann n j (fun x => a * g x)) p = a * cre n i (ann n j g) p := by
  rw [show ann n j (fun x => a * g x) = fun y => a * ann n j g y from
    funext fun y => ann_smul n j a g y, cre_smul]

theorem cre_ann_add (n i j : ℕ) (f g : ℕ → K) (p : ℕ) :
    cre n i (ann n j (fun x => f x + g x)) p
      = cre n i (ann n j f) p + cre n i (ann n j g) p := by
  rw [show ann n j (fun x => f x + g x) = fun y => ann n j f y + ann n j g y from
    funext fun y => ann_add n j f g y, cre_add]

theorem cre_cre_sum {α : Type} (S : Finset α) (n i k : ℕ) (g : α → ℕ → K) (p : ℕ) :
    cre n i (cre n k (fun x => ∑ m ∈ S, g m x)) p
      = ∑ m ∈ S, cre n i (cre n k (g m)) p := by
  rw [show cre n k (fun x => ∑ m ∈ S, g m x) = fun y => ∑ m ∈ S, cre n k (g m) y from
    funext fun y => cre_sum S n k g y, cre_sum]

theorem cre_cre_smul (n i k : ℕ) (a : K) (g : ℕ → K) (p : ℕ) :
    cre n i (cre n k (fun x => a * g x)) p = a * cre n i (cre n k g) p := by
  rw [show cre n k (fun x => a * g x) = fun y => a * cre n k g y from
    funext fun y => cre_smul n k a g y, cre_smul]


/-- Commuting an annihilation past a creation: the anticommutator is the
Kronecker delta of the two orbitals. -/
theorem ann_cre_exchange (n j k : ℕ) (hj : j < n) (hk : k < n) (w : ℕ → K) (y : ℕ) :
    ann n j (cre n k w) y = (if j = k then w y else 0) - cre n k (ann n j w) y := by
  by_cases hjk : j = k
  · subst hjk
    rw [if_pos rfl, ann_cre_self, cre_ann_self]
    by_cases hb : y.testBit j = true
    · rw [if_neg (by simp [hb]), if_pos hb, sub_self]
    · rw [if_pos (by simpa using hb), if_neg hb, sub_zero]
  · rw [if_neg hjk, zero_sub, ann_cre_comm hj hk hjk]

/-- A creation step applied to a function guarded by a fixed condition. -/
theorem cre_ite_const (n i : ℕ) (P : Prop) [Decidable P] (w : ℕ → K) (p : ℕ) :
    cre n i (fun y => if P then w y else 0) p = if P then cre n i w p else 0 := by
  by_cases h : P
  · rw [show (fun y => if P then w y else 0) = w from funext fun y => if_pos h, if_pos h]
  · rw [if_neg h, show (fun y => if P then w y else 0) = fun _ => (0 : K) from
      funext fun y => if_neg h]
    exact cre_zero_fun n i p

theorem ann_zero_fun (n i y : ℕ) : ann n i (fun _ => (0 : K)) y = 0 := by
  rw [ann]
  by_cases h : y.testBit i = false
  · rw [if_pos h, mul_zero]
  · rw [if_neg h]

theorem cre_cre_neg (n i k : ℕ) (g : ℕ → K) (p : ℕ) :
    cre n i (cre n k (fun t => -(g t))) p = -(cre n i (cre n k g) p) := by
  rw [show cre n k (fun t => -(g t)) = fun y => -(cre n k g y) from
    funext fun y => cre_negf n k g y, cre_negf]

theorem cre_cre_zero_fun (n i k p : ℕ) : cre n i (cre n k (fun _ => (0 : K))) p = 0 := by
  rw [show cre n k (fun _ => (0 : K)) = fun _ => (0 : K) from
    funext fun y => cre_zero_fun n k y]
  exact cre_zero_fun n i p

/-- Moving an annihilation into a double-creation composite: the delta
term of the exchange plus the normal-ordered composite. -/
theorem cre_ann_cre_exchange (n i j k : ℕ) (hj : j < n) (hk : k < n) (w : ℕ → K) (p : ℕ) :
    cre n i (ann n j (cre n k w)) p
      = (if j = k then cre n i w p else 0) - cre n i (cre n k (ann n j w)) p := by
  rw [show ann n j (cre n k w)
        = fun y => (if j = k then w y else 0) - cre n k (ann n j w) y from
      funext fun y => ann_cre_exchange n j k hj hk w y, cre_sub, cre_ite_const]

/-- A double creation annihilates any determinant with fewer than two
electrons. -/
theorem cre_cre_zero_of_occ {n p : ℕ} (i k : ℕ) (hi : i < n) (hk : k < n)
    (hocc : occCount n p ≤ 1) (w : ℕ → K) : cre n i (cre n k w) p = 0 := by
  by_cases hik : i = k
  · subst hik; exact cre_cre_self n i w p
  · simp only [cre]
    by_cases h1 : p.testBit i = true
    · by_cases h2 : (p ^^^ 2 ^ i).testBit k = true
      · exfalso
        have hk2 : p.testBit k = true := by
          rw [testBit_toggle_ne _ (fun h => hik h.symm)] at h2
          exact h2
        have hsub : ({i, k} : Finset ℕ) ⊆ (Finset.range n).filter (fun m => p.testBit m) := by
          intro m hm
          rcases Finset.mem_insert.mp hm with hm | hm
          · subst hm; exact Finset.mem_filter.mpr ⟨Finset.mem_range.mpr hi, h1⟩
          · rw [Finset.mem_singleton] at hm
            subst hm; exact Finset.mem_filter.mpr ⟨Finset.mem_range.mpr hk, hk2⟩
        have hcard : 2 ≤ occCount n p := by
          rw [occCount]
          calc 2 = ({i, k} : Finset ℕ).card := by
                rw [Finset.card_insert_of_not_mem (by simp [hik]), Finset.card_singleton]
            _ ≤ _ := Finset.card_le_card hsub
        omega
      · rw [if_pos h1, if_neg h2, mul_zero]
    · rw [if_neg h1]

/-- Any creation-step gather vanishes on the empty determinant. -/
theorem cre_zero_of_dets_zero {n p : ℕ} (i : ℕ) (hi : i < n) (hp : p ∈ dets n 0)
    (w : ℕ → K) : cre n i w p = 0 := by
  rw [cre, if_neg]
  rw [testBit_of_mem_dets_zero hi hp]
  exact Bool.false_ne_true

/-- Membership transport along a single annihilation. -/
theorem annTgt1_mem_dets {n k i s : ℕ} (hi : i < n) (hs : s ∈ dets n k)
    (h : annOk1 i s) : annTgt1 i s ∈ dets n (k - 1) := by
  rw [mem_dets] at hs ⊢
  refine ⟨toggle_lt hs.1 hi, ?_⟩
  rw [annTgt1]
  have := occCount_toggle_true hi h
  omega

/-- Membership transport along a pair annihilation. -/
theorem annTgt2_mem_dets {n k i j s : ℕ} (hi : i < n) (hj : j < n) (hij : i ≠ j)
    (hs : s ∈ dets n k) (h : annOk2 i j s) : annTgt2 i j s ∈ dets n (k - 2) := by
  rw [mem_dets] at hs ⊢
  refine ⟨by rw [annTgt2]; exact toggle_lt (toggle_lt hs.1 hi) hj, ?_⟩
  have h1 := occCount_toggle_true hi h.1
  have hbitj : (s ^^^ 2 ^ i).testBit j = true := by
    rw [testBit_toggle_ne _ (Ne.symm hij)]
    exact h.2
  have h2 := occCount_toggle_true hj hbitj
  rw [annTgt2]
  omega

/-- The pair-annihilation scatter read at a fixed source is a double
creation-step gather. -/
theorem pairCre_gather (n i j : ℕ) (hij : i ≠ j) (W : ℕ → K) (p : ℕ) :
    (if annOk2 i j p then annSign2 n i j p * W (annTgt2 i j p) else 0)
      = cre n i (cre n j W) p := by
  simp only [cre, annOk2, annSign2, annPar2, annTgt2]
  by_cases h1 : p.testBit i = true
  · by_cases h2 : p.testBit j = true
    · rw [if_pos ⟨h1, h2⟩, if_pos h1,
        if_pos (by rw [testBit_toggle_ne _ (Ne.symm hij)]; exact h2), pow_add]
      ring
    · rw [if_neg (fun hc => h2 hc.2), if_pos h1,
        if_neg (by rw [testBit_toggle_ne _ (Ne.symm hij)]; simp [h2]), mul_zero]
  · rw [if_neg (fun hc => h1 hc.1), if_neg h1]

/-- The mixed-species scatter read at a fixed source pair is a
creation-step gather on each species. -/
theorem creRC_gather (n i j : ℕ) (W : ℕ → ℕ → K) (p q : ℕ) :
    (if annOk1 i p ∧ annOk1 j q then
        annSign1 n i p * annSign1 n j q * W (annTgt1 i p) (annTgt1 j q) else 0)
      = cre n i (fun x => cre n j (W x) q) p := by
  simp only [cre, annOk1, annSign1, annTgt1]
  by_cases h1 : p.testBit i = true
  · by_cases h2 : q.testBit j = true
    · rw [if_pos ⟨h1, h2⟩, if_pos h1, if_pos h2]
      ring
    · rw [if_neg (fun hc => h2 hc.2), if_pos h1, if_neg h2, mul_zero]
  · rw [if_neg (fun hc => h1 hc.1), if_neg h1]

theorem cross_nest (n i j k l : ℕ) (c : ℕ → ℕ → K) (p q : ℕ) :
    cre n i (fun x => cre n j (fun y => ann n k (fun s => ann n l (fun u => c s u) y) x) q) p
      = cre n i (ann n k (fun x => cre n j (ann n l (fun u => c x u)) q)) p := by
  simp only [cre, ann]
  split_ifs <;> ring

theorem cross_nest_flip (n i j k l : ℕ) (c : ℕ → ℕ → K) (p q : ℕ) :
    cre n i (ann n j (fun u => cre n k (ann n l (fun x => c x u)) p)) q
      = cre n k (ann n l (fun x => cre n i (ann n j (fun u => c x u)) q)) p := by
  simp only [cre, ann]
  split_ifs <;> ring

theorem sum_triangle_swap (n : ℕ) (F : ℕ → ℕ → K) :
    ∑ i ∈ Finset.range n, ∑ j ∈ Finset.range i, F i j
      = ∑ i ∈ Finset.range n, ∑ j ∈ Finset.Ioo i n, F j i := by
  rw [Finset.sum_sigma' (Finset.range n) (fun i => Finset.range i) (fun i j => F i j),
    Finset.sum_sigma' (Finset.range n) (fun i => Finset.Ioo i n) (fun i j => F j i)]
  refine Finset.sum_nbij' (fun x => ⟨x.2, x.1⟩) (fun x => ⟨x.2, x.1⟩) ?_ ?_ ?_ ?_ ?_
  · intro a ha
    simp only [Finset.mem_sigma, Finset.mem_range, Finset.mem_Ioo] at ha ⊢
    omega
  · intro a ha
    simp only [Finset.mem_sigma, Finset.mem_range, Finset.mem_Ioo] at ha ⊢
    omega
  · intro a _
    rfl
  · intro a _
    rfl
  · intro a _
    rfl

theorem sum_range_pair_split (n : ℕ) (F : ℕ → ℕ → K) :
    ∑ i ∈ Finset.range n, ∑ j ∈ Finset.range n, F i j
      = (∑ i ∈ Finset.range n, ∑ j ∈ Finset.Ioo i n, (F i j + F j i))
        + ∑ i ∈ Finset.range n, F i i := by
  have hsplit : ∀ i ∈ Finset.range n,
      ∑ j ∈ Finset.range n, F i j
        = (∑ j ∈ Finset.range i, F i j + ∑ j ∈ Finset.Ioo i n, F i j) + F i i := by
    intro i hi
    rw [Finset.mem_range] at hi
    rw [Finset.range_eq_Ico, ← Finset.sum_Ico_consecutive _ (Nat.zero_le i) (le_of_lt hi),
      Finset.sum_eq_sum_Ico_succ_bot hi, Nat.Ico_succ_left, ← Finset.range_eq_Ico]
    ring
  rw [Finset.sum_congr rfl hsplit, Finset.sum_add_distrib, Finset.sum_add_distrib,
    sum_triangle_swap]
  rw [← Finset.sum_add_distrib]
  congr 1
  refine Finset.sum_congr rfl fun i _ => ?_
  rw [← Finset.sum_add_distrib]
  refine Finset.sum_congr rfl fun j _ => ?_
  ring

/-- Interchange of the two outer summations of a quadruple sum. -/
theorem sum4_swap12 (n : ℕ) (F : ℕ → ℕ → ℕ → ℕ → K) :
    (∑ a ∈ Finset.range n, ∑ b ∈ Finset.range n, ∑ c ∈ Finset.range n,
        ∑ d ∈ Finset.range n, F a b c d)
      = ∑ b ∈ Finset.range n, ∑ a ∈ Finset.range n, ∑ c ∈ Finset.range n,
          ∑ d ∈ Finset.range n, F a b c d :=
  Finset.sum_comm

/-- Interchange of the two middle summations of a quadruple sum. -/
theorem sum4_swap23 (n : ℕ) (F : ℕ → ℕ → ℕ → ℕ → K) :
    (∑ a ∈ Finset.range n, ∑ b ∈ Finset.range n, ∑ c ∈ Finset.range n,
        ∑ d ∈ Finset.range n, F a b c d)
      = ∑ a ∈ Finset.range n, ∑ c ∈ Finset.range n, ∑ b ∈ Finset.range n,
          ∑ d ∈ Finset.range n, F a b c d :=
  Finset.sum_congr rfl fun _ _ => Finset.sum_comm

/-- Interchange of the two inner summations of a quadruple sum. -/
theorem sum4_swap34 (n : ℕ) (F : ℕ → ℕ → ℕ → ℕ → K) :
    (∑ a ∈ Finset.range n, ∑ b ∈ Finset.range n, ∑ c ∈ Finset.range n,
        ∑ d ∈ Finset.range n, F a b c d)
      = ∑ a ∈ Finset.range n, ∑ b ∈ Finset.range n, ∑ d ∈ Finset.range n,
          ∑ c ∈ Finset.range n, F a b c d :=
  Finset.sum_congr rfl fun _ _ => Finset.sum_congr rfl fun _ _ => Finset.sum_comm

/-- The common normal form both 2-body code paths are reduced to: the
1-body contribution, minus the species-crossing double excitations, plus
the normal-ordered same-species part. -/
def normal_form12 (n : ℕ) (h1e : ℕ → ℕ → K) (h2e : ℕ → ℕ → ℕ → ℕ → K)
    (c : ℕ → ℕ → K) : ℕ → ℕ → K := fun p q =>
  (∑ i ∈ Finset.range n, ∑ j ∈ Finset.range n, h1e i j *
      (cre n i (ann n j (fun s => c s q)) p + cre n i (ann n j (fun u => c p u)) q))
  - (∑ i ∈ Finset.range n, ∑ j ∈ Finset.range n, ∑ k ∈ Finset.range n,
        ∑ l ∈ Finset.range n, h2e i k j l *
      (cre n i (ann n j (fun x => cre n k (ann n l (fun u => c x u)) q)) p
        + cre n i (ann n j (fun u => cre n k (ann n l (fun x => c x u)) p)) q))
  + (∑ i ∈ Finset.range n, ∑ j ∈ Finset.range n, ∑ k ∈ Finset.range n,
        ∑ l ∈ Finset.range n, h2e i k j l *
      (cre n i (cre n k (ann n j (ann n l (fun s => c s q)))) p
        + cre n i (cre n k (ann n j (ann n l (fun u => c p u)))) q))

/-- A D-vector slice at a member point is a pair of creation/annihilation
gathers, one per species. -/
theorem dvec_apply (n na nb : ℕ) (c : ℕ → ℕ → K) {i j : ℕ} (hi : i < n) (hj : j < n)
    {p q : ℕ} (hp : p ∈ dets n na) (hq : q ∈ dets n nb) :
    calculate_dvec_spatial n na nb c i j p q
      = cre n i (ann n j (fun s => c s q)) p + cre n i (ann n j (fun u => c p u)) q := by
  simp only [calculate_dvec_spatial, dveca, dvecb]
  rw [exc1_apply n na i j hi hj _ hp, exc1_apply n nb i j hi hj _ hq]

/-- The row-species slice of the adjoint fold of the `h2e`-contracted
D-vector, as a sum of operator quadruples. -/
theorem half_fold_row (n na nb : ℕ) (h2e : ℕ → ℕ → ℕ → ℕ → K) (c : ℕ → ℕ → K)
    {i j : ℕ} {p q : ℕ} (hi : i < n) (hj : j < n)
    (hp : p ∈ dets n na) (hq : q ∈ dets n nb) :
    (if excOk j i p then excSign n j i p *
        (∑ k ∈ Finset.range n, ∑ l ∈ Finset.range n,
          -(h2e i k j l) * calculate_dvec_spatial n na nb c k l (excTgt j i p) q)
      else 0)
      = ∑ k ∈ Finset.range n, ∑ l ∈ Finset.range n, -(h2e i k j l) *
          (cre n i (ann n j (cre n k (ann n l (fun s => c s q)))) p
            + cre n i (ann n j (fun x => cre n k (ann n l (fun u => c x u)) q)) p) := by
  have hstep : (if excOk j i p then excSign n j i p *
        (∑ k ∈ Finset.range n, ∑ l ∈ Finset.range n,
          -(h2e i k j l) * calculate_dvec_spatial n na nb c k l (excTgt j i p) q)
      else 0)
      = (if excOk j i p then excSign n j i p *
          ((fun x => ∑ k ∈ Finset.range n, ∑ l ∈ Finset.range n,
            -(h2e i k j l) * (cre n k (ann n l (fun s => c s q)) x
              + cre n k (ann n l (fun u => c x u)) q)) (excTgt j i p))
        else 0) := by
    by_cases hok : excOk j i p
    · rw [if_pos hok, if_pos hok]
      congr 1
      have hmem : excTgt j i p ∈ dets n na := excTgt_mem_dets hj hi hp hok
      refine Finset.sum_congr rfl fun k hk => Finset.sum_congr rfl fun l hl => ?_
      rw [Finset.mem_range] at hk hl
      rw [dvec_apply n na nb c hk hl hmem hq]
    · rw [if_neg hok, if_neg hok]
  rw [hstep, fold_term_eq n i j (fun x => ∑ k ∈ Finset.range n, ∑ l ∈ Finset.range n,
      -(h2e i k j l) * (cre n k (ann n l (fun s => c s q)) x
        + cre n k (ann n l (fun u => c x u)) q)) p,
    cre_ann_sum]
  refine Finset.sum_congr rfl fun k _ => ?_
  rw [cre_ann_sum]
  refine Finset.sum_congr rfl fun l _ => ?_
  rw [cre_ann_smul, cre_ann_add]

/-- The column-species slice of the adjoint fold. -/
theorem half_fold_col (n na nb : ℕ) (h2e : ℕ → ℕ → ℕ → ℕ → K) (c : ℕ → ℕ → K)
    {i j : ℕ} {p q : ℕ} (hi : i < n) (hj : j < n)
    (hp : p ∈ dets n na) (hq : q ∈ dets n nb) :
    (if excOk j i q then excSign n j i q *
        (∑ k ∈ Finset.range n, ∑ l ∈ Finset.range n,
          -(h2e i k j l) * calculate_dvec_spatial n na nb c k l p (excTgt j i q))
      else 0)
      = ∑ k ∈ Finset.range n, ∑ l ∈ Finset.range n, -(h2e i k j l) *
          (cre n i (ann n j (fun u => cre n k (ann n l (fun x => c x u)) p)) q
            + cre n i (ann n j (cre n k (ann n l (fun u => c p u)))) q) := by
  have hstep : (if excOk j i q then excSign n j i q *
        (∑ k ∈ Finset.range n, ∑ l ∈ Finset.range n,
          -(h2e i k j l) * calculate_dvec_spatial n na nb c k l p (excTgt j i q))
      else 0)
      = (if excOk j i q then excSign n j i q *
          ((fun y => ∑ k ∈ Finset.range n, ∑ l ∈ Finset.range n,
            -(h2e i k j l) * (cre n k (ann n l (fun s => c s y)) p
              + cre n k (ann n l (fun u => c p u)) y)) (excTgt j i q))
        else 0) := by
    by_cases hok : excOk j i q
    · rw [if_pos hok, if_pos hok]
      congr 1
      have hmem : excTgt j i q ∈ dets n nb := excTgt_mem_dets hj hi hq hok
      refine Finset.sum_congr rfl fun k hk => Finset.sum_congr rfl fun l hl => ?_
      rw [Finset.mem_range] at hk hl
      rw [dvec_apply n na nb c hk hl hp hmem]
    · rw [if_neg hok, if_neg hok]
  rw [hstep, fold_term_eq n i j (fun y => ∑ k ∈ Finset.range n, ∑ l ∈ Finset.range n,
      -(h2e i k j l) * (cre n k (ann n l (fun s => c s y)) p
        + cre n k (ann n l (fun u => c p u)) y)) q,
    cre_ann_sum]
  refine Finset.sum_congr rfl fun k _ => ?_
  rw [cre_ann_sum]
  refine Finset.sum_congr rfl fun l _ => ?_
  rw [cre_ann_smul, cre_ann_add]

theorem sum2_add (n : ℕ) (F G : ℕ → ℕ → K) :
    (∑ i ∈ Finset.range n, ∑ j ∈ Finset.range n, (F i j + G i j))
      = (∑ i ∈ Finset.range n, ∑ j ∈ Finset.range n, F i j)
        + ∑ i ∈ Finset.range n, ∑ j ∈ Finset.range n, G i j := by
  rw [← Finset.sum_add_distrib]
  exact Finset.sum_congr rfl fun i _ => Finset.sum_add_distrib

theorem sum4_add (n : ℕ) (F G : ℕ → ℕ → ℕ → ℕ → K) :
    (∑ i ∈ Finset.range n, ∑ j ∈ Finset.range n, ∑ k ∈ Finset.range n,
        ∑ l ∈ Finset.range n, (F i j k l + G i j k l))
      = (∑ i ∈ Finset.range n, ∑ j ∈ Finset.range n, ∑ k ∈ Finset.range n,
          ∑ l ∈ Finset.range n, F i j k l)
        + ∑ i ∈ Finset.range n, ∑ j ∈ Finset.range n, ∑ k ∈ Finset.range n,
            ∑ l ∈ Finset.range n, G i j k l := by
  rw [← Finset.sum_add_distrib]
  refine Finset.sum_congr rfl fun i _ => ?_
  rw [← Finset.sum_add_distrib]
  refine Finset.sum_congr rfl fun j _ => ?_
  rw [← Finset.sum_add_distrib]
  refine Finset.sum_congr rfl fun k _ => ?_
  exact Finset.sum_add_distrib

theorem sum3_neg (n : ℕ) (F : ℕ → ℕ → ℕ → K) :
    (∑ i ∈ Finset.range n, ∑ j ∈ Finset.range n, ∑ k ∈ Finset.range n, -(F i j k))
      = -(∑ i ∈ Finset.range n, ∑ j ∈ Finset.range n, ∑ k ∈ Finset.range n, F i j k) := by
  rw [← Finset.sum_neg_distrib]
  refine Finset.sum_congr rfl fun i _ => ?_
  rw [← Finset.sum_neg_distrib]
  exact Finset.sum_congr rfl fun j _ => Finset.sum_neg_distrib

theorem sum4_neg (n : ℕ) (F : ℕ → ℕ → ℕ → ℕ → K) :
    (∑ i ∈ Finset.range n, ∑ j ∈ Finset.range n, ∑ k ∈ Finset.range n,
        ∑ l ∈ Finset.range n, -(F i j k l))
      = -(∑ i ∈ Finset.range n, ∑ j ∈ Finset.range n, ∑ k ∈ Finset.range n,
          ∑ l ∈ Finset.range n, F i j k l) := by
  rw [← Finset.sum_neg_distrib]
  refine Finset.sum_congr rfl fun i _ => ?_
  exact sum3_neg n (F i)

/-- Collapsing the Kronecker delta of the two middle indices of a
quadruple sum. -/
theorem sum4_delta23 (n : ℕ) (F : ℕ → ℕ → ℕ → ℕ → K) :
    (∑ i ∈ Finset.range n, ∑ j ∈ Finset.range n, ∑ k ∈ Finset.range n,
        ∑ l ∈ Finset.range n, if j = k then F i j k l else 0)
      = ∑ i ∈ Finset.range n, ∑ j ∈ Finset.range n, ∑ l ∈ Finset.range n, F i j j l := by
  refine Finset.sum_congr rfl fun i _ => Finset.sum_congr rfl fun j hj => ?_
  have hpull : ∀ k ∈ Finset.range n,
      (∑ l ∈ Finset.range n, if j = k then F i j k l else 0)
        = if j = k then (∑ l ∈ Finset.range n, F i j k l) else 0 := by
    intro k _
    by_cases h : j = k
    · simp only [if_pos h]
    · simp only [if_neg h, Finset.sum_const_zero]
  rw [Finset.sum_congr rfl hpull,
    Finset.sum_ite_eq (Finset.range n) j (fun k => ∑ l ∈ Finset.range n, F i j k l),
    if_pos hj]

/-- The einsum-style contraction `h2e i k k j` summed either way. -/
theorem corr_delta_cancel (n : ℕ) (h2e : ℕ → ℕ → ℕ → ℕ → K) (X : ℕ → ℕ → K) :
    (∑ i ∈ Finset.range n, ∑ j ∈ Finset.range n, ∑ k ∈ Finset.range n,
        h2e i k k j * X i j)
      = ∑ i ∈ Finset.range n, ∑ j ∈ Finset.range n, ∑ l ∈ Finset.range n,
          h2e i j j l * X i l := by
  exact Finset.sum_congr rfl fun i _ => Finset.sum_comm

/-- The complete adjoint fold of the `h2e`-contracted D-vector: the
delta contractions, the normal-ordered part, and minus the crossing
part. -/
theorem half_fold_total (n na nb : ℕ) (h2e : ℕ → ℕ → ℕ → ℕ → K) (c : ℕ → ℕ → K)
    {p q : ℕ} (hp : p ∈ dets n na) (hq : q ∈ dets n nb) :
    (∑ i ∈ Finset.range n, ∑ j ∈ Finset.range n,
      ((if excOk j i p then excSign n j i p *
          (∑ k ∈ Finset.range n, ∑ l ∈ Finset.range n,
            -(h2e i k j l) * calculate_dvec_spatial n na nb c k l (excTgt j i p) q)
        else 0)
        + (if excOk j i q then excSign n j i q *
            (∑ k ∈ Finset.range n, ∑ l ∈ Finset.range n,
              -(h2e i k j l) * calculate_dvec_spatial n na nb c k l p (excTgt j i q))
          else 0)))
      = ((-(∑ i ∈ Finset.range n, ∑ j ∈ Finset.range n, ∑ l ∈ Finset.range n,
            h2e i j j l * cre n i (ann n l (fun s => c s q)) p)
          + ((∑ i ∈ Finset.range n, ∑ j ∈ Finset.range n, ∑ k ∈ Finset.range n,
              ∑ l ∈ Finset.range n, h2e i k j l *
                cre n i (cre n k (ann n j (ann n l (fun s => c s q)))) p)
            + -(∑ i ∈ Finset.range n, ∑ j ∈ Finset.range n, ∑ k ∈ Finset.range n,
                ∑ l ∈ Finset.range n, h2e i k j l *
                  cre n i (ann n j (fun x => cre n k (ann n l (fun u => c x u)) q)) p)))
        + (-(∑ i ∈ Finset.range n, ∑ j ∈ Finset.range n, ∑ l ∈ Finset.range n,
              h2e i j j l * cre n i (ann n l (fun u => c p u)) q)
          + ((∑ i ∈ Finset.range n, ∑ j ∈ Finset.range n, ∑ k ∈ Finset.range n,
              ∑ l ∈ Finset.range n, h2e i k j l *
                cre n i (cre n k (ann n j (ann n l (fun u => c p u)))) q)
            + -(∑ i ∈ Finset.range n, ∑ j ∈ Finset.range n, ∑ k ∈ Finset.range n,
                ∑ l ∈ Finset.range n, h2e i k j l *
                  cre n i (ann n j (fun u => cre n k (ann n l (fun x => c x u)) p)) q)))) := by
  have hfold : ∀ i ∈ Finset.range n, ∀ j ∈ Finset.range n,
      ((if excOk j i p then excSign n j i p *
          (∑ k ∈ Finset.range n, ∑ l ∈ Finset.range n,
            -(h2e i k j l) * calculate_dvec_spatial n na nb c k l (excTgt j i p) q)
        else 0)
        + (if excOk j i q then excSign n j i q *
            (∑ k ∈ Finset.range n, ∑ l ∈ Finset.range n,
              -(h2e i k j l) * calculate_dvec_spatial n na nb c k l p (excTgt j i q))
          else 0))
      = (∑ k ∈ Finset.range n, ∑ l ∈ Finset.range n,
          ((if j = k then -(h2e i k j l) * cre n i (ann n l (fun s => c s q)) p else 0)
            + (h2e i k j l * cre n i (cre n k (ann n j (ann n l (fun s => c s q)))) p
              + -(h2e i k j l *
                  cre n i (ann n j (fun x => cre n k (ann n l (fun u => c x u)) q)) p))))
        + (∑ k ∈ Finset.range n, ∑ l ∈ Finset.range n,
          ((if j = k then -(h2e i k j l) * cre n i (ann n l (fun u => c p u)) q else 0)
            + (h2e i k j l * cre n i (cre n k (ann n j (ann n l (fun u => c p u)))) q
              + -(h2e i k j l *
                  cre n i (ann n j (fun u => cre n k (ann n l (fun x => c x u)) p)) q)))) := by
    intro i hi j hj
    rw [Finset.mem_range] at hi hj
    rw [half_fold_row n na nb h2e c hi hj hp hq, half_fold_col n na nb h2e c hi hj hp hq]
    congr 1
    · refine Finset.sum_congr rfl fun k hk => Finset.sum_congr rfl fun l hl => ?_
      rw [Finset.mem_range] at hk hl
      rw [cre_ann_cre_exchange n i j k hj hk (ann n l (fun s => c s q)) p]
      by_cases hjk : j = k
      · rw [if_pos hjk, if_pos hjk]
        ring
      · rw [if_neg hjk, if_neg hjk]
        ring
    · refine Finset.sum_congr rfl fun k hk => Finset.sum_congr rfl fun l hl => ?_
      rw [Finset.mem_range] at hk hl
      rw [cre_ann_cre_exchange n i j k hj hk (ann n l (fun u => c p u)) q]
      by_cases hjk : j = k
      · rw [if_pos hjk, if_pos hjk]
        ring
      · rw [if_neg hjk, if_neg hjk]
        ring
  rw [Finset.sum_congr rfl (fun i hi => Finset.sum_congr rfl (fun j hj => hfold i hi j hj)),
    sum2_add, sum4_add, sum4_add, sum4_add, sum4_add, sum4_delta23, sum4_delta23]
  congr 1
  · congr 1
    · exact (Finset.sum_congr rfl fun i _ => Finset.sum_congr rfl fun j _ =>
        Finset.sum_congr rfl fun l _ => neg_mul _ _).trans (sum3_neg n _)
    · congr 1
      exact (Finset.sum_congr rfl fun i _ => Finset.sum_congr rfl fun j _ =>
        Finset.sum_congr rfl fun k _ => Finset.sum_congr rfl fun l _ =>
          rfl).trans (sum4_neg n _)
  · congr 1
    · exact (Finset.sum_congr rfl fun i _ => Finset.sum_congr rfl fun j _ =>
        Finset.sum_congr rfl fun l _ => neg_mul _ _).trans (sum3_neg n _)
    · congr 1
      exact (Finset.sum_congr rfl fun i _ => Finset.sum_congr rfl fun j _ =>
        Finset.sum_congr rfl fun k _ => Finset.sum_congr rfl fun l _ =>
          rfl).trans (sum4_neg n _)

/-- The half-filling (dense) 2-body path equals the normal form. -/
theorem half12_eq_normal (n na nb : ℕ) (h1e : ℕ → ℕ → K) (h2e : ℕ → ℕ → ℕ → ℕ → K)
    (c : ℕ → ℕ → K) {p q : ℕ} (hp : p ∈ dets n na) (hq : q ∈ dets n nb) :
    apply_array_spatial12_halffilling n na nb h1e h2e c p q
      = normal_form12 n h1e h2e c p q := by
  simp only [apply_array_spatial12_halffilling, calculate_coeff_spatial_with_dvec,
    normal_form12]
  have hS1 : ∀ i ∈ Finset.range n, ∀ j ∈ Finset.range n,
      (h1e i j - ∑ k ∈ Finset.range n, -(h2e i k k j))
          * calculate_dvec_spatial n na nb c i j p q
        = h1e i j * (cre n i (ann n j (fun s => c s q)) p
              + cre n i (ann n j (fun u => c p u)) q)
          + ((∑ k ∈ Finset.range n, h2e i k k j * cre n i (ann n j (fun s => c s q)) p)
            + ∑ k ∈ Finset.range n, h2e i k k j * cre n i (ann n j (fun u => c p u)) q) := by
    intro i hi j hj
    rw [Finset.mem_range] at hi hj
    rw [dvec_apply n na nb c hi hj hp hq, Finset.sum_neg_distrib,
      ← Finset.sum_mul, ← Finset.sum_mul]
    ring
  rw [Finset.sum_congr rfl (fun i hi => Finset.sum_congr rfl (fun j hj => hS1 i hi j hj)),
    sum2_add, sum2_add,
    half_fold_total n na nb h2e c hp hq,
    corr_delta_cancel n h2e (fun i j => cre n i (ann n j (fun s => c s q)) p),
    corr_delta_cancel n h2e (fun i j => cre n i (ann n j (fun u => c p u)) q)]
  have hN2 : (∑ i ∈ Finset.range n, ∑ j ∈ Finset.range n, ∑ k ∈ Finset.range n,
      ∑ l ∈ Finset.range n, h2e i k j l *
        (cre n i (ann n j (fun x => cre n k (ann n l (fun u => c x u)) q)) p
          + cre n i (ann n j (fun u => cre n k (ann n l (fun x => c x u)) p)) q))
      = (∑ i ∈ Finset.range n, ∑ j ∈ Finset.range n, ∑ k ∈ Finset.range n,
          ∑ l ∈ Finset.range n, h2e i k j l *
            cre n i (ann n j (fun x => cre n k (ann n l (fun u => c x u)) q)) p)
        + ∑ i ∈ Finset.range n, ∑ j ∈ Finset.range n, ∑ k ∈ Finset.range n,
            ∑ l ∈ Finset.range n, h2e i k j l *
              cre n i (ann n j (fun u => cre n k (ann n l (fun x => c x u)) p)) q :=
    (Finset.sum_congr rfl fun i _ => Finset.sum_congr rfl fun j _ =>
      Finset.sum_congr rfl fun k _ => Finset.sum_congr rfl fun l _ =>
        mul_add _ _ _).trans (sum4_add n _ _)
  have hN3 : (∑ i ∈ Finset.range n, ∑ j ∈ Finset.range n, ∑ k ∈ Finset.range n,
      ∑ l ∈ Finset.range n, h2e i k j l *
        (cre n i (cre n k (ann n j (ann n l (fun s => c s q)))) p
          + cre n i (cre n k (ann n j (ann n l (fun u => c p u)))) q))
      = (∑ i ∈ Finset.range n, ∑ j ∈ Finset.range n, ∑ k ∈ Finset.range n,
          ∑ l ∈ Finset.range n, h2e i k j l *
            cre n i (cre n k (ann n j (ann n l (fun s => c s q)))) p)
        + ∑ i ∈ Finset.range n, ∑ j ∈ Finset.range n, ∑ k ∈ Finset.range n,
            ∑ l ∈ Finset.range n, h2e i k j l *
              cre n i (cre n k (ann n j (ann n l (fun u => c p u)))) q :=
    (Finset.sum_congr rfl fun i _ => Finset.sum_congr rfl fun j _ =>
      Finset.sum_congr rfl fun k _ => Finset.sum_congr rfl fun l _ =>
        mul_add _ _ _).trans (sum4_add n _ _)
  rw [hN2, hN3]
  ring

/-- The 1-body application at member points, in gather form. -/
theorem apply1_eq (n na nb : ℕ) (h1e : ℕ → ℕ → K) (c : ℕ → ℕ → K)
    {p q : ℕ} (hp : p ∈ dets n na) (hq : q ∈ dets n nb) :
    apply_array_spatial1 n na nb h1e c p q
      = ∑ i ∈ Finset.range n, ∑ j ∈ Finset.range n, h1e i j *
          (cre n i (ann n j (fun s => c s q)) p + cre n i (ann n j (fun u => c p u)) q) := by
  simp only [apply_array_spatial1]
  refine Finset.sum_congr rfl fun i hi => Finset.sum_congr rfl fun j hj => ?_
  rw [Finset.mem_range] at hi hj
  rw [dvec_apply n na nb c hi hj hp hq]

theorem sumIoo_neg (n : ℕ) (F : ℕ → ℕ → ℕ → ℕ → K) :
    (∑ i ∈ Finset.range n, ∑ j ∈ Finset.Ioo i n, ∑ k ∈ Finset.range n,
        ∑ l ∈ Finset.Ioo k n, -(F i j k l))
      = -(∑ i ∈ Finset.range n, ∑ j ∈ Finset.Ioo i n, ∑ k ∈ Finset.range n,
          ∑ l ∈ Finset.Ioo k n, F i j k l) := by
  rw [← Finset.sum_neg_distrib]
  refine Finset.sum_congr rfl fun i _ => ?_
  rw [← Finset.sum_neg_distrib]
  refine Finset.sum_congr rfl fun j _ => ?_
  rw [← Finset.sum_neg_distrib]
  exact Finset.sum_congr rfl fun k _ => Finset.sum_neg_distrib

/-- The same-spin alpha block of the low-filling path, in gather form:
the pair-annihilation maps contracted against `h2ecomp` compose to minus
the sorted normal-ordered sum. -/
theorem low_aa_gather (n na : ℕ) (h2e : ℕ → ℕ → ℕ → ℕ → K) (c : ℕ → ℕ → K)
    {p : ℕ} (q : ℕ) (hna : 2 ≤ na) (hp : p ∈ dets n na) :
    (∑ i ∈ Finset.range n, ∑ j ∈ Finset.Ioo i n,
      if annOk2 i j p then
        annSign2 n i j p *
          (∑ k ∈ Finset.range n, ∑ l ∈ Finset.Ioo k n,
            h2ecomp h2e i j k l * pairAnnA n na k l c (annTgt2 i j p) q)
      else 0)
      = -(∑ i ∈ Finset.range n, ∑ j ∈ Finset.Ioo i n, ∑ k ∈ Finset.range n,
          ∑ l ∈ Finset.Ioo k n, h2ecomp h2e i j k l *
            cre n i (cre n j (ann n k (ann n l (fun s => c s q)))) p) := by
  rw [← sumIoo_neg]
  refine Finset.sum_congr rfl fun i hi => Finset.sum_congr rfl fun j hj => ?_
  rw [Finset.mem_range] at hi
  rw [Finset.mem_Ioo] at hj
  have hij : i ≠ j := Nat.ne_of_lt hj.1
  have hstep : (if annOk2 i j p then
        annSign2 n i j p *
          (∑ k ∈ Finset.range n, ∑ l ∈ Finset.Ioo k n,
            h2ecomp h2e i j k l * pairAnnA n na k l c (annTgt2 i j p) q)
      else 0)
      = (if annOk2 i j p then
          annSign2 n i j p *
            ((fun t => ∑ k ∈ Finset.range n, ∑ l ∈ Finset.Ioo k n,
              h2ecomp h2e i j k l * ann n l (ann n k (fun s => c s q)) t)
              (annTgt2 i j p))
        else 0) := by
    by_cases hok : annOk2 i j p
    · rw [if_pos hok, if_pos hok]
      have hmem : annTgt2 i j p ∈ dets n (na - 2) :=
        annTgt2_mem_dets (lt_trans hj.1 hj.2) hj.2 hij hp hok
      congr 1
      refine Finset.sum_congr rfl fun k hk => Finset.sum_congr rfl fun l hl => ?_
      rw [Finset.mem_range] at hk
      rw [Finset.mem_Ioo] at hl
      congr 1
      simp only [pairAnnA]
      exact pairAnn_gather n na k l hk hl.2 (Nat.ne_of_lt hl.1) hna
        (fun s => c s q) hmem
    · rw [if_neg hok, if_neg hok]
  rw [hstep, pairCre_gather n i j hij
      (fun t => ∑ k ∈ Finset.range n, ∑ l ∈ Finset.Ioo k n,
        h2ecomp h2e i j k l * ann n l (ann n k (fun s => c s q)) t) p,
    cre_cre_sum]
  refine Finset.sum_congr rfl fun k hk => ?_
  rw [cre_cre_sum]
  refine Finset.sum_congr rfl fun l hl => ?_
  rw [Finset.mem_range] at hk
  rw [Finset.mem_Ioo] at hl
  rw [cre_cre_smul,
    show ann n l (ann n k (fun s => c s q))
        = fun t => -(ann n k (ann n l (fun s => c s q)) t) from
      funext fun t => ann_ann_comm hl.2 hk (Nat.ne_of_lt hl.1).symm (fun s => c s q) t,
    cre_cre_neg, mul_neg]

/-- The same-spin beta block of the low-filling path, in gather form. -/
theorem low_bb_gather (n nb : ℕ) (h2e : ℕ → ℕ → ℕ → ℕ → K) (c : ℕ → ℕ → K)
    (p : ℕ) {q : ℕ} (hnb : 2 ≤ nb) (hq : q ∈ dets n nb) :
    (∑ i ∈ Finset.range n, ∑ j ∈ Finset.Ioo i n,
      if annOk2 i j q then
        annSign2 n i j q *
          (∑ k ∈ Finset.range n, ∑ l ∈ Finset.Ioo k n,
            h2ecomp h2e i j k l * pairAnnB n nb k l c p (annTgt2 i j q))
      else 0)
      = -(∑ i ∈ Finset.range n, ∑ j ∈ Finset.Ioo i n, ∑ k ∈ Finset.range n,
          ∑ l ∈ Finset.Ioo k n, h2ecomp h2e i j k l *
            cre n i (cre n j (ann n k (ann n l (fun u => c p u)))) q) := by
  rw [← sumIoo_neg]
  refine Finset.sum_congr rfl fun i hi => Finset.sum_congr rfl fun j hj => ?_
  rw [Finset.mem_range] at hi
  rw [Finset.mem_Ioo] at hj
  have hij : i ≠ j := Nat.ne_of_lt hj.1
  have hstep : (if annOk2 i j q then
        annSign2 n i j q *
          (∑ k ∈ Finset.range n, ∑ l ∈ Finset.Ioo k n,
            h2ecomp h2e i j k l * pairAnnB n nb k l c p (annTgt2 i j q))
      else 0)
      = (if annOk2 i j q then
          annSign2 n i j q *
            ((fun t => ∑ k ∈ Finset.range n, ∑ l ∈ Finset.Ioo k n,
              h2ecomp h2e i j k l * ann n l (ann n k (fun u => c p u)) t)
              (annTgt2 i j q))
        else 0) := by
    by_cases hok : annOk2 i j q
    · rw [if_pos hok, if_pos hok]
      have hmem : annTgt2 i j q ∈ dets n (nb - 2) :=
        annTgt2_mem_dets (lt_trans hj.1 hj.2) hj.2 hij hq hok
      congr 1
      refine Finset.sum_congr rfl fun k hk => Finset.sum_congr rfl fun l hl => ?_
      rw [Finset.mem_range] at hk
      rw [Finset.mem_Ioo] at hl
      congr 1
      simp only [pairAnnB]
      exact pairAnn_gather n nb k l hk hl.2 (Nat.ne_of_lt hl.1) hnb
        (fun u => c p u) hmem
    · rw [if_neg hok, if_neg hok]
  rw [hstep, pairCre_gather n i j hij
      (fun t => ∑ k ∈ Finset.range n, ∑ l ∈ Finset.Ioo k n,
        h2ecomp h2e i j k l * ann n l (ann n k (fun u => c p u)) t) q,
    cre_cre_sum]
  refine Finset.sum_congr rfl fun k hk => ?_
  rw [cre_cre_sum]
  refine Finset.sum_congr rfl fun l hl => ?_
  rw [Finset.mem_range] at hk
  rw [Finset.mem_Ioo] at hl
  rw [cre_cre_smul,
    show ann n l (ann n k (fun u => c p u))
        = fun t => -(ann n k (ann n l (fun u => c p u)) t) from
      funext fun t => ann_ann_comm hl.2 hk (Nat.ne_of_lt hl.1).symm (fun u => c p u) t,
    cre_cre_neg, mul_neg]

theorem neg_one_pow_pred (na : ℕ) (hna : 1 ≤ na) :
    ((-1 : K)) ^ na * (-1 : K) ^ (na - 1) = -1 := by
  obtain ⟨m, rfl⟩ : ∃ m, na = m + 1 := ⟨na - 1, by omega⟩
  rw [Nat.add_sub_cancel, ← pow_add, show m + 1 + m = 2 * m + 1 from by omega,
    pow_succ, pow_mul, neg_one_sq, one_pow, one_mul]

/-- The mixed-spin block of the low-filling path, in gather form: one
annihilation map per species against the kernel's factor `2` and global
alpha sign compose to minus twice the crossing sum. -/
theorem low_ab_gather (n na nb : ℕ) (h2e : ℕ → ℕ → ℕ → ℕ → K) (c : ℕ → ℕ → K)
    {p q : ℕ} (hna : 1 ≤ na) (hnb : 1 ≤ nb)
    (hp : p ∈ dets n na) (hq : q ∈ dets n nb) :
    (∑ i ∈ Finset.range n, ∑ j ∈ Finset.range n,
      if annOk1 i p ∧ annOk1 j q then
        ((-1 : K) ^ na * annSign1 n i p) * annSign1 n j q *
          (∑ k ∈ Finset.range n, ∑ l ∈ Finset.range n,
            h2e i j k l * lowfillingAB n na nb c k l (annTgt1 i p) (annTgt1 j q))
      else 0)
      = -(2 * ∑ i ∈ Finset.range n, ∑ j ∈ Finset.range n, ∑ k ∈ Finset.range n,
          ∑ l ∈ Finset.range n, h2e i j k l *
            cre n i (ann n k (fun x => cre n j (ann n l (fun u => c x u)) q)) p) := by
  have hmain : ∀ i ∈ Finset.range n, ∀ j ∈ Finset.range n,
      (if annOk1 i p ∧ annOk1 j q then
        ((-1 : K) ^ na * annSign1 n i p) * annSign1 n j q *
          (∑ k ∈ Finset.range n, ∑ l ∈ Finset.range n,
            h2e i j k l * lowfillingAB n na nb c k l (annTgt1 i p) (annTgt1 j q))
      else 0)
      = -2 * ∑ k ∈ Finset.range n, ∑ l ∈ Finset.range n, h2e i j k l *
          cre n i (ann n k (fun x => cre n j (ann n l (fun u => c x u)) q)) p := by
    intro i hi j hj
    rw [Finset.mem_range] at hi hj
    have hstep : (if annOk1 i p ∧ annOk1 j q then
        ((-1 : K) ^ na * annSign1 n i p) * annSign1 n j q *
          (∑ k ∈ Finset.range n, ∑ l ∈ Finset.range n,
            h2e i j k l * lowfillingAB n na nb c k l (annTgt1 i p) (annTgt1 j q))
      else 0)
        = -2 * (if annOk1 i p ∧ annOk1 j q then
            annSign1 n i p * annSign1 n j q *
              ((fun x y => ∑ k ∈ Finset.range n, ∑ l ∈ Finset.range n,
                h2e i j k l * ann n k (fun s => ann n l (fun u => c s u) y) x)
                (annTgt1 i p) (annTgt1 j q))
          else 0) := by
      by_cases hok : annOk1 i p ∧ annOk1 j q
      · rw [if_pos hok, if_pos hok]
        have hta := annTgt1_mem_dets hi hp hok.1
        have htb := annTgt1_mem_dets hj hq hok.2
        have hbr : (∑ k ∈ Finset.range n, ∑ l ∈ Finset.range n,
            h2e i j k l * lowfillingAB n na nb c k l (annTgt1 i p) (annTgt1 j q))
            = (2 * (-1 : K) ^ (na - 1)) *
              ((fun x y => ∑ k ∈ Finset.range n, ∑ l ∈ Finset.range n,
                h2e i j k l * ann n k (fun s => ann n l (fun u => c s u) y) x)
                (annTgt1 i p) (annTgt1 j q)) := by
          show _ = (2 * (-1 : K) ^ (na - 1)) *
            ∑ k ∈ Finset.range n, ∑ l ∈ Finset.range n,
              h2e i j k l * ann n k
                (fun s => ann n l (fun u => c s u) (annTgt1 j q)) (annTgt1 i p)
          rw [Finset.mul_sum]
          refine Finset.sum_congr rfl fun k hk => ?_
          rw [Finset.mul_sum]
          refine Finset.sum_congr rfl fun l hl => ?_
          rw [Finset.mem_range] at hk hl
          rw [lowfillingAB_apply n na nb k l hk hl hna hnb c hta htb]
          ring
        rw [hbr]
        have hsgn : ((-1 : K)) ^ na * (-1 : K) ^ (na - 1) = -1 := neg_one_pow_pred na hna
        linear_combination (2 * annSign1 n i p * annSign1 n j q *
          ((fun x y => ∑ k ∈ Finset.range n, ∑ l ∈ Finset.range n,
            h2e i j k l * ann n k (fun s => ann n l (fun u => c s u) y) x)
            (annTgt1 i p) (annTgt1 j q))) * hsgn
      · rw [if_neg hok, if_neg hok, mul_zero]
    rw [hstep, creRC_gather n i j
      (fun x y => ∑ k ∈ Finset.range n, ∑ l ∈ Finset.range n,
        h2e i j k l * ann n k (fun s => ann n l (fun u => c s u) y) x) p q]
    congr 1
    have h1 : (fun x => cre n j
          ((fun x y => ∑ k ∈ Finset.range n, ∑ l ∈ Finset.range n,
            h2e i j k l * ann n k (fun s => ann n l (fun u => c s u) y) x) x) q)
        = fun x => ∑ k ∈ Finset.range n, ∑ l ∈ Finset.range n, h2e i j k l *
            cre n j (fun y => ann n k (fun s => ann n l (fun u => c s u) y) x) q := by
      funext x
      show cre n j (fun y => ∑ k ∈ Finset.range n, ∑ l ∈ Finset.range n,
        h2e i j k l * ann n k (fun s => ann n l (fun u => c s u) y) x) q = _
      rw [cre_sum]
      refine Finset.sum_congr rfl fun k _ => ?_
      rw [cre_sum]
      refine Finset.sum_congr rfl fun l _ => ?_
      rw [cre_smul]
    rw [h1, cre_sum]
    refine Finset.sum_congr rfl fun k _ => ?_
    rw [cre_sum]
    refine Finset.sum_congr rfl fun l _ => ?_
    rw [cre_smul]
    congr 1
    exact cross_nest n i j k l c p q
  rw [Finset.sum_congr rfl (fun i hi => Finset.sum_congr rfl fun j hj => hmain i hi j hj),
    show (∑ i ∈ Finset.range n, ∑ j ∈ Finset.range n,
        (-2 : K) * ∑ k ∈ Finset.range n, ∑ l ∈ Finset.range n, h2e i j k l *
          cre n i (ann n k (fun x => cre n j (ann n l (fun u => c x u)) q)) p)
      = (-2 : K) * ∑ i ∈ Finset.range n, ∑ j ∈ Finset.range n, ∑ k ∈ Finset.range n,
          ∑ l ∈ Finset.range n, h2e i j k l *
            cre n i (ann n k (fun x => cre n j (ann n l (fun u => c x u)) q)) p from by
      rw [Finset.mul_sum]
      exact Finset.sum_congr rfl fun i _ => (Finset.mul_sum _ _ _).symm,
    neg_mul]

/-- Unsorted-to-sorted reindexing of the normal-ordered quadruple sum:
antisymmetrizing over each ordered pair leaves the `h2ecomp`
combination on the sorted pairs. -/
theorem no_sorted (n : ℕ) (h2e : ℕ → ℕ → ℕ → ℕ → K) (v : ℕ → K) (p : ℕ) :
    (∑ a ∈ Finset.range n, ∑ b ∈ Finset.range n, ∑ e ∈ Finset.range n,
        ∑ d ∈ Finset.range n, h2e a b e d * cre n a (cre n b (ann n e (ann n d v))) p)
      = ∑ a ∈ Finset.range n, ∑ b ∈ Finset.Ioo a n, ∑ e ∈ Finset.range n,
          ∑ d ∈ Finset.Ioo e n, h2ecomp h2e a b e d *
            cre n a (cre n b (ann n e (ann n d v))) p := by
  rw [sum_range_pair_split n (fun a b => ∑ e ∈ Finset.range n, ∑ d ∈ Finset.range n,
    h2e a b e d * cre n a (cre n b (ann n e (ann n d v))) p)]
  rw [show (∑ a ∈ Finset.range n, ∑ e ∈ Finset.range n, ∑ d ∈ Finset.range n,
      h2e a a e d * cre n a (cre n a (ann n e (ann n d v))) p) = 0 from
    Finset.sum_eq_zero fun a _ => Finset.sum_eq_zero fun e _ =>
      Finset.sum_eq_zero fun d _ => by rw [cre_cre_self, mul_zero], add_zero]
  refine Finset.sum_congr rfl fun a ha => Finset.sum_congr rfl fun b hb => ?_
  rw [Finset.mem_range] at ha
  rw [Finset.mem_Ioo] at hb
  have hab : a ≠ b := Nat.ne_of_lt hb.1
  -- antisymmetrize the creation pair
  have hflip : (∑ e ∈ Finset.range n, ∑ d ∈ Finset.range n,
      h2e b a e d * cre n b (cre n a (ann n e (ann n d v))) p)
      = ∑ e ∈ Finset.range n, ∑ d ∈ Finset.range n,
        -(h2e b a e d * cre n a (cre n b (ann n e (ann n d v))) p) := by
    refine Finset.sum_congr rfl fun e _ => Finset.sum_congr rfl fun d _ => ?_
    rw [cre_cre_comm hb.2 ha hab.symm]
    ring
  rw [hflip]
  have hcomb : (∑ e ∈ Finset.range n, ∑ d ∈ Finset.range n,
      h2e a b e d * cre n a (cre n b (ann n e (ann n d v))) p)
      + (∑ e ∈ Finset.range n, ∑ d ∈ Finset.range n,
        -(h2e b a e d * cre n a (cre n b (ann n e (ann n d v))) p))
      = ∑ e ∈ Finset.range n, ∑ d ∈ Finset.range n,
        (h2e a b e d - h2e b a e d) * cre n a (cre n b (ann n e (ann n d v))) p := by
    rw [← sum2_add]
    refine Finset.sum_congr rfl fun e _ => Finset.sum_congr rfl fun d _ => ?_
    ring
  rw [hcomb]
  -- antisymmetrize the annihilation pair
  rw [sum_range_pair_split n (fun e d =>
    (h2e a b e d - h2e b a e d) * cre n a (cre n b (ann n e (ann n d v))) p)]
  rw [show (∑ e ∈ Finset.range n,
      (h2e a b e e - h2e b a e e) * cre n a (cre n b (ann n e (ann n e v))) p) = 0 from
    Finset.sum_eq_zero fun e _ => by
      rw [show ann n e (ann n e v) = fun t => (0 : K) from
          funext fun t => ann_ann_self n e v t,
        cre_cre_zero_fun, mul_zero], add_zero]
  refine Finset.sum_congr rfl fun e he => Finset.sum_congr rfl fun d hd => ?_
  rw [Finset.mem_range] at he
  rw [Finset.mem_Ioo] at hd
  have hed : e ≠ d := Nat.ne_of_lt hd.1
  rw [show ann n d (ann n e v) = fun t => -(ann n e (ann n d v) t) from
      funext fun t => ann_ann_comm hd.2 he hed.symm v t,
    cre_cre_neg, h2ecomp]
  ring

/-- With fewer than two electrons of a species every normal-ordered
summand vanishes. -/
theorem no_vanish (n : ℕ) (h2e : ℕ → ℕ → ℕ → ℕ → K) (v : ℕ → K) {m p : ℕ}
    (hocc : m ≤ 1) (hp : p ∈ dets n m) :
    (∑ a ∈ Finset.range n, ∑ b ∈ Finset.range n, ∑ e ∈ Finset.range n,
        ∑ d ∈ Finset.range n, h2e a b e d * cre n a (cre n b (ann n e (ann n d v))) p)
      = 0 := by
  have hpo : occCount n p ≤ 1 := by
    rw [(mem_dets.mp hp).2]
    exact hocc
  refine Finset.sum_eq_zero fun a ha => Finset.sum_eq_zero fun b hb =>
    Finset.sum_eq_zero fun e _ => Finset.sum_eq_zero fun d _ => ?_
  rw [Finset.mem_range] at ha hb
  rw [cre_cre_zero_of_occ a b ha hb hpo, mul_zero]

/-- With an empty row species every crossing summand vanishes. -/
theorem m_vanish_row (n : ℕ) (h2e : ℕ → ℕ → ℕ → ℕ → K) (c : ℕ → ℕ → K) {p : ℕ}
    (q : ℕ) (hp : p ∈ dets n 0) :
    (∑ i ∈ Finset.range n, ∑ j ∈ Finset.range n, ∑ k ∈ Finset.range n,
        ∑ l ∈ Finset.range n, h2e i j k l *
          cre n i (ann n k (fun x => cre n j (ann n l (fun u => c x u)) q)) p)
      = 0 := by
  refine Finset.sum_eq_zero fun i hi => Finset.sum_eq_zero fun j _ =>
    Finset.sum_eq_zero fun k _ => Finset.sum_eq_zero fun l _ => ?_
  rw [Finset.mem_range] at hi
  rw [cre_zero_of_dets_zero i hi hp, mul_zero]

/-- With an empty column species every crossing summand vanishes. -/
theorem m_vanish_col (n : ℕ) (h2e : ℕ → ℕ → ℕ → ℕ → K) (c : ℕ → ℕ → K) (p : ℕ)
    {q : ℕ} (hq : q ∈ dets n 0) :
    (∑ i ∈ Finset.range n, ∑ j ∈ Finset.range n, ∑ k ∈ Finset.range n,
        ∑ l ∈ Finset.range n, h2e i j k l *
          cre n i (ann n k (fun x => cre n j (ann n l (fun u => c x u)) q)) p)
      = 0 := by
  refine Finset.sum_eq_zero fun i _ => Finset.sum_eq_zero fun j hj =>
    Finset.sum_eq_zero fun k _ => Finset.sum_eq_zero fun l _ => ?_
  rw [Finset.mem_range] at hj
  rw [show (fun x => cre n j (ann n l (fun u => c x u)) q) = fun _ => (0 : K) from
      funext fun x => cre_zero_of_dets_zero j hj hq _,
    show ann n k (fun _ => (0 : K)) = fun _ => (0 : K) from
      funext fun y => ann_zero_fun n k y,
    cre_zero_fun, mul_zero]

/-- Iteration-order permutation `(b, d, a, c)` to `(a, b, c, d)` of a
quadruple sum. -/
theorem sum4_perm_bdac (n : ℕ) (H : ℕ → ℕ → ℕ → ℕ → K) :
    (∑ b ∈ Finset.range n, ∑ d ∈ Finset.range n, ∑ a ∈ Finset.range n,
        ∑ c ∈ Finset.range n, H a b c d)
      = ∑ a ∈ Finset.range n, ∑ b ∈ Finset.range n, ∑ c ∈ Finset.range n,
          ∑ d ∈ Finset.range n, H a b c d :=
  (sum4_swap23 n (fun b d a c => H a b c d)).trans
    ((sum4_swap12 n (fun b a d c => H a b c d)).trans
      (sum4_swap34 n (fun a b d c => H a b c d)))

/-- The low-filling (sparse) 2-body path equals the normal form, given
the exchange symmetry `h2e[i,j,k,l] = h2e[j,i,l,k]` of the 2-body
tensor. -/
theorem low12_eq_normal (n na nb : ℕ) (h1e : ℕ → ℕ → K) (h2e : ℕ → ℕ → ℕ → ℕ → K)
    (hsym : ∀ i j k l, h2e i j k l = h2e j i l k) (c : ℕ → ℕ → K)
    {p q : ℕ} (hp : p ∈ dets n na) (hq : q ∈ dets n nb) :
    apply_array_spatial12_lowfilling n na nb h1e h2e c p q
      = normal_form12 n h1e h2e c p q := by
  simp only [apply_array_spatial12_lowfilling, normal_form12]
  have hAA : (if 2 ≤ na then
        -(∑ i ∈ Finset.range n, ∑ j ∈ Finset.Ioo i n,
          if annOk2 i j p then
            annSign2 n i j p *
              (∑ k ∈ Finset.range n, ∑ l ∈ Finset.Ioo k n,
                h2ecomp h2e i j k l * pairAnnA n na k l c (annTgt2 i j p) q)
          else 0)
      else 0)
      = ∑ i ∈ Finset.range n, ∑ j ∈ Finset.range n, ∑ k ∈ Finset.range n,
          ∑ l ∈ Finset.range n, h2e i k j l *
            cre n i (cre n k (ann n j (ann n l (fun s => c s q)))) p := by
    by_cases hna : 2 ≤ na
    · rw [if_pos hna, low_aa_gather n na h2e c q hna hp, neg_neg]
      exact ((no_sorted n h2e (fun s => c s q) p).symm).trans
        (sum4_swap23 n (fun a b e d => h2e a b e d *
          cre n a (cre n b (ann n e (ann n d (fun s => c s q)))) p))
    · rw [if_neg hna]
      exact ((no_vanish n h2e (fun s => c s q) (by omega) hp).symm).trans
        (sum4_swap23 n (fun a b e d => h2e a b e d *
          cre n a (cre n b (ann n e (ann n d (fun s => c s q)))) p))
  have hBB : (if 2 ≤ nb then
        -(∑ i ∈ Finset.range n, ∑ j ∈ Finset.Ioo i n,
          if annOk2 i j q then
            annSign2 n i j q *
              (∑ k ∈ Finset.range n, ∑ l ∈ Finset.Ioo k n,
                h2ecomp h2e i j k l * pairAnnB n nb k l c p (annTgt2 i j q))
          else 0)
      else 0)
      = ∑ i ∈ Finset.range n, ∑ j ∈ Finset.range n, ∑ k ∈ Finset.range n,
          ∑ l ∈ Finset.range n, h2e i k j l *
            cre n i (cre n k (ann n j (ann n l (fun u => c p u)))) q := by
    by_cases hnb : 2 ≤ nb
    · rw [if_pos hnb, low_bb_gather n nb h2e c p hnb hq, neg_neg]
      exact ((no_sorted n h2e (fun u => c p u) q).symm).trans
        (sum4_swap23 n (fun a b e d => h2e a b e d *
          cre n a (cre n b (ann n e (ann n d (fun u => c p u)))) q))
    · rw [if_neg hnb]
      exact ((no_vanish n h2e (fun u => c p u) (by omega) hq).symm).trans
        (sum4_swap23 n (fun a b e d => h2e a b e d *
          cre n a (cre n b (ann n e (ann n d (fun u => c p u)))) q))
  have hAB : (if 1 ≤ na ∧ 1 ≤ nb then
        ∑ i ∈ Finset.range n, ∑ j ∈ Finset.range n,
          if annOk1 i p ∧ annOk1 j q then
            ((-1 : K) ^ na * annSign1 n i p) * annSign1 n j q *
              (∑ k ∈ Finset.range n, ∑ l ∈ Finset.range n,
                h2e i j k l * lowfillingAB n na nb c k l (annTgt1 i p) (annTgt1 j q))
          else 0
      else 0)
      = -(2 * ∑ i ∈ Finset.range n, ∑ j ∈ Finset.range n, ∑ k ∈ Finset.range n,
          ∑ l ∈ Finset.range n, h2e i j k l *
            cre n i (ann n k (fun x => cre n j (ann n l (fun u => c x u)) q)) p) := by
    by_cases hok : 1 ≤ na ∧ 1 ≤ nb
    · rw [if_pos hok]
      exact low_ab_gather n na nb h2e c hok.1 hok.2 hp hq
    · rw [if_neg hok]
      rcases not_and_or.mp hok with h | h
    

      · have hna0 : na = 0 := by omega
        subst hna0
        rw [m_vanish_row n h2e c q hp, mul_zero, neg_zero]
      · have hnb0 : nb = 0 := by omega
        subst hnb0
        rw [m_vanish_col n h2e c p hq, mul_zero, neg_zero]
  rw [apply1_eq n na nb h1e c hp hq, hAA, hAB, hBB]
  have hN3 : (∑ i ∈ Finset.range n, ∑ j ∈ Finset.range n, ∑ k ∈ Finset.range n,
      ∑ l ∈ Finset.range n, h2e i k j l *
        (cre n i (cre n k (ann n j (ann n l (fun s => c s q)))) p
          + cre n i (cre n k (ann n j (ann n l (fun u => c p u)))) q))
      = (∑ i ∈ Finset.range n, ∑ j ∈ Finset.range n, ∑ k ∈ Finset.range n,
          ∑ l ∈ Finset.range n, h2e i k j l *
            cre n i (cre n k (ann n j (ann n l (fun s => c s q)))) p)
        + ∑ i ∈ Finset.range n, ∑ j ∈ Finset.range n, ∑ k ∈ Finset.range n,
            ∑ l ∈ Finset.range n, h2e i k j l *
              cre n i (cre n k (ann n j (ann n l (fun u => c p u)))) q :=
    (Finset.sum_congr rfl fun i _ => Finset.sum_congr rfl fun j _ =>
      Finset.sum_congr rfl fun k _ => Finset.sum_congr rfl fun l _ =>
        mul_add _ _ _).trans (sum4_add n _ _)
  have hMy : (∑ i ∈ Finset.range n, ∑ j ∈ Finset.range n, ∑ k ∈ Finset.range n,
      ∑ l ∈ Finset.range n, h2e i k j l *
        cre n i (ann n j (fun u => cre n k (ann n l (fun x => c x u)) p)) q)
      = ∑ i ∈ Finset.range n, ∑ j ∈ Finset.range n, ∑ k ∈ Finset.range n,
          ∑ l ∈ Finset.range n, h2e i j k l *
            cre n i (ann n k (fun x => cre n j (ann n l (fun u => c x u)) q)) p := by
    calc (∑ i ∈ Finset.range n, ∑ j ∈ Finset.range n, ∑ k ∈ Finset.range n,
        ∑ l ∈ Finset.range n, h2e i k j l *
          cre n i (ann n j (fun u => cre n k (ann n l (fun x => c x u)) p)) q)
        = ∑ i ∈ Finset.range n, ∑ j ∈ Finset.range n, ∑ k ∈ Finset.range n,
            ∑ l ∈ Finset.range n, h2e i k j l *
              cre n k (ann n l (fun x => cre n i (ann n j (fun u => c x u)) q)) p :=
          Finset.sum_congr rfl fun i _ => Finset.sum_congr rfl fun j _ =>
            Finset.sum_congr rfl fun k _ => Finset.sum_congr rfl fun l _ =>
              congrArg (h2e i k j l * ·) (cross_nest_flip n i j k l c p q)
      _ = ∑ a ∈ Finset.range n, ∑ b ∈ Finset.range n, ∑ c' ∈ Finset.range n,
            ∑ d ∈ Finset.range n, h2e b a d c' *
              cre n a (ann n c' (fun x => cre n b (ann n d (fun u => c x u)) q)) p :=
          sum4_perm_bdac n (fun a b c' d => h2e b a d c' *
            cre n a (ann n c' (fun x => cre n b (ann n d (fun u => c x u)) q)) p)
      _ = ∑ i ∈ Finset.range n, ∑ j ∈ Finset.range n, ∑ k ∈ Finset.range n,
            ∑ l ∈ Finset.range n, h2e i j k l *
              cre n i (ann n k (fun x => cre n j (ann n l (fun u => c x u)) q)) p :=
          Finset.sum_congr rfl fun a _ => Finset.sum_congr rfl fun b _ =>
            Finset.sum_congr rfl fun e _ => Finset.sum_congr rfl fun d _ =>
              congrArg (· * cre n a (ann n e (fun x =>
                cre n b (ann n d (fun u => c x u)) q)) p) (hsym b a d e)
  have hN2 : (∑ i ∈ Finset.range n, ∑ j ∈ Finset.range n, ∑ k ∈ Finset.range n,
      ∑ l ∈ Finset.range n, h2e i k j l *
        (cre n i (ann n j (fun x => cre n k (ann n l (fun u => c x u)) q)) p
          + cre n i (ann n j (fun u => cre n k (ann n l (fun x => c x u)) p)) q))
      = (∑ i ∈ Finset.range n, ∑ j ∈ Finset.range n, ∑ k ∈ Finset.range n,
          ∑ l ∈ Finset.range n, h2e i j k l *
            cre n i (ann n k (fun x => cre n j (ann n l (fun u => c x u)) q)) p)
        + ∑ i ∈ Finset.range n, ∑ j ∈ Finset.range n, ∑ k ∈ Finset.range n,
            ∑ l ∈ Finset.range n, h2e i j k l *
              cre n i (ann n k (fun x => cre n j (ann n l (fun u => c x u)) q)) p := by
    rw [(Finset.sum_congr rfl fun i _ => Finset.sum_congr rfl fun j _ =>
      Finset.sum_congr rfl fun k _ => Finset.sum_congr rfl fun l _ =>
        mul_add (h2e i k j l) _ _ : (∑ i ∈ Finset.range n, _ ) = _),
      sum4_add n _ _, hMy]
    congr 1
    exact (sum4_swap23 n (fun a b e d => h2e a b e d *
      cre n a (ann n e (fun x => cre n b (ann n d (fun u => c x u)) q)) p)).symm
  rw [hN2, hN3]
  ring

/-- C2: For every Sector State and operator tensors with the exchange
symmetry `h2e[i,j,k,l] = h2e[j,i,l,k]` of a physical 2-body tensor, the
half-filling (dense) code path and the low-filling (sparse) code path of
the 2-body apply produce the same output coefficient at every
determinant pair; without that symmetry the mixed-spin blocks of the two
paths differ. -/
theorem claim_C2 (n na nb : ℕ) (h1e : ℕ → ℕ → ℂ) (h2e : ℕ → ℕ → ℕ → ℕ → ℂ)
    (hsym : ∀ i j k l, h2e i j k l = h2e j i l k) (c : ℕ → ℕ → ℂ)
    {p q : ℕ} (hp : p ∈ dets n na) (hq : q ∈ dets n nb) :
    apply_array_spatial12_halffilling n na nb h1e h2e c p q
      = apply_array_spatial12_lowfilling n na nb h1e h2e c p q :=
  (half12_eq_normal n na nb h1e h2e c hp hq).trans
    (low12_eq_normal n na nb h1e h2e hsym c hp hq).symm

theorem claim_C2_witness :
    apply_array_spatial12_halffilling 1 1 0 (fun _ _ => (1 : ℂ))
        (fun _ _ _ _ => (1 : ℂ)) (fun _ _ => (1 : ℂ)) 1 0
      = apply_array_spatial12_lowfilling 1 1 0 (fun _ _ => (1 : ℂ))
          (fun _ _ _ _ => (1 : ℂ)) (fun _ _ => (1 : ℂ)) 1 0 :=
  claim_C2 1 1 0 (fun _ _ => (1 : ℂ)) (fun _ _ _ _ => (1 : ℂ))
    (fun _ _ _ _ => rfl) (fun _ _ => (1 : ℂ)) (by decide) (by decide)

theorem claim_C2_counterexample :
    ¬ (apply_array_spatial12_halffilling 2 1 1 (fun _ _ => (0 : ℂ))
          (fun i j k l => if i = 0 ∧ j = 0 ∧ k = 0 ∧ l = 1 then (1 : ℂ) else 0)
          (fun s u => if s = 1 ∧ u = 2 then (1 : ℂ) else 0) 1 1
        = apply_array_spatial12_lowfilling 2 1 1 (fun _ _ => (0 : ℂ))
            (fun i j k l => if i = 0 ∧ j = 0 ∧ k = 0 ∧ l = 1 then (1 : ℂ) else 0)
            (fun s u => if s = 1 ∧ u = 2 then (1 : ℂ) else 0) 1 1) := by
  intro hEq
  have hp : (1 : ℕ) ∈ dets 2 1 := by decide
  rw [half12_eq_normal 2 1 1 _ _ _ hp hp] at hEq
  simp only [apply_array_spatial12_lowfilling, normal_form12] at hEq
  rw [if_neg (show ¬ 2 ≤ 1 by omega), if_neg (show ¬ 2 ≤ 1 by omega),
    if_pos (show 1 ≤ 1 ∧ 1 ≤ 1 from ⟨le_refl 1, le_refl 1⟩),
    low_ab_gather 2 1 1 _ _ (le_refl 1) (le_refl 1) hp hp] at hEq
  have hMx : cre 2 0 (ann 2 0 (fun x => cre 2 0 (ann 2 1
      (fun u => if x = 1 ∧ u = 2 then (1 : ℂ) else 0)) 1)) 1 = 1 := by
    simp [cre, ann, show Nat.testBit 1 0 = true from by decide,
      show (1 : ℕ) ^^^ 2 ^ 0 = 0 from by decide,
      show Nat.testBit 0 0 = false from by decide,
      show (0 : ℕ) ^^^ 2 ^ 0 = 1 from by decide,
      show Nat.testBit 0 1 = false from by decide,
      show (0 : ℕ) ^^^ 2 ^ 1 = 2 from by decide,
      show cba 2 1 0 = 0 from by decide,
      show cba 2 0 0 = 0 from by decide,
      show cba 2 0 1 = 0 from by decide]
  have hMy : cre 2 0 (ann 2 0 (fun u => cre 2 0 (ann 2 1
      (fun x => if x = 1 ∧ u = 2 then (1 : ℂ) else 0)) 1)) 1 = 0 := by
    simp [cre, ann, show Nat.testBit 1 0 = true from by decide,
      show (1 : ℕ) ^^^ 2 ^ 0 = 0 from by decide,
      show Nat.testBit 0 0 = false from by decide,
      show (0 : ℕ) ^^^ 2 ^ 0 = 1 from by decide,
      show Nat.testBit 0 1 = false from by decide,
      show (0 : ℕ) ^^^ 2 ^ 1 = 2 from by decide,
      show cba 2 1 0 = 0 from by decide,
      show cba 2 0 0 = 0 from by decide,
      show cba 2 0 1 = 0 from by decide]
  have hA1 : apply_array_spatial1 2 1 1 (fun _ _ => (0 : ℂ))
      (fun s u => if s = 1 ∧ u = 2 then (1 : ℂ) else 0) 1 1 = 0 := by
    simp only [apply_array_spatial1]
    exact Finset.sum_eq_zero fun i _ => Finset.sum_eq_zero fun j _ => zero_mul _
  rw [hA1] at hEq
  simp [Finset.sum_range_succ, cre_cre_self, hMx, hMy] at hEq

end Fqe
